import Mathlib

/-!
# Candidate generation and context scoring of the spell corrector

A shallow embedding of `src/openspell/spell_corrector.cpp`.

* `std::wstring` is a list of `wchar_t` code units (`WString`), `std::string` a list of bytes.
* A `TWord` handle `(Ptr, Len)` is represented by the characters it denotes; the null
  handle and the handle of length zero are both the empty list, so the test `c.Ptr && c.Len`
  reads `c ≠ []`.  Handles produced by the tokenizer also carry their offset in the tokenized
  buffer (`TSpan`).
* A `double` value is the rational it denotes.  The subtraction and the multiplication that
  adjust a score round their result; they are the parameters `DoubleSub` and `DoubleMul`.
  The bounds of the penalty search are dyadic numbers that `double` holds exactly.  The
  quotient `0.0 / 0.0` computed by `GetBrokenPercent` on a corpus without tokens is kept
  apart as `none`.
* The language model, the helpers of the utilities header, the default value of the
  `lastLevel` argument of `Edits2` and the arithmetic of `double` are not defined in the
  translation unit; they are parameters (`TLangModel`, `THeaders`), and so are the loaders and the trainer that
  `TrainLangModel` calls (`TTrainHelpers`).
* A run that ends without a value is an `Except.error`: a failed `assert`, an access outside
  a vector, or a recursion that the given fuel does not bound.
-/

namespace NOpenSpell

/-! ## Data model -/

/-- One `wchar_t` code unit. -/
abbrev WChar := Nat

/-- The type `std::wstring`. -/
abbrev WString := List WChar

/-- The type `std::string`, used for the UTF-8 keys of the deletes indexes. -/
abbrev TKey := List Nat

/-- Word identifier handed out by the language model. -/
abbrev TWordId := Nat

/-- Word handle, represented by the characters it denotes. -/
abbrev TWord := WString

/-- The type `std::vector<TWord>`. -/
abbrev TWords := List TWord

/-- The type `std::vector<TWords>`. -/
abbrev TSentences := List TWords

/-- Handle returned by the tokenizer: offset of `Ptr` from the start of the tokenized buffer,
and `Len`. -/
structure TSpan where
  Ptr : Nat
  Len : Nat
deriving DecidableEq, Repr

/-- The type `std::unordered_map<std::string, std::vector<TWordId>>`, as an association list
with one entry per key. -/
abbrev TDeletes := List (TKey × List TWordId)

/-- Ways in which a run ends without a value. -/
inductive TAbort where
  | Assert
  | OutOfRange
  | OutOfFuel
deriving DecidableEq, Repr

instance {α : Type} [DecidableEq α] : DecidableEq (Except TAbort α) := fun a b =>
  match a, b with
  | .ok u, .ok v =>
    if h : u = v then isTrue (by rw [h]) else isFalse (by intro h2; cases h2; exact h rfl)
  | .error e, .error f =>
    if h : e = f then isTrue (by rw [h]) else isFalse (by intro h2; cases h2; exact h rfl)
  | .ok _, .error _ => isFalse (by intro h; cases h)
  | .error _, .ok _ => isFalse (by intro h; cases h)

/-- The language model used by the corrector.  Its implementation is not part of the
translation unit; the fields are the member functions the corrector calls. -/
structure TLangModel where
  /-- The result of `GetWordToId()`: the vocabulary with the id of every word. -/
  WordToId : List (WString × TWordId)
  /-- The member `GetWordIdNoCreate(word)`. -/
  GetWordIdNoCreate : WString → TWordId
  /-- The member `GetWordById(id)`. -/
  GetWordById : TWordId → TWord
  /-- The result of `GetAlphabet()`. -/
  Alphabet : List WChar
  /-- The member `Score(sentence)`. -/
  Score : TWords → ℚ
  /-- The member `Tokenize(text)`: sentences of handles into `text`. -/
  Tokenize : WString → List (List TSpan)

/-- Declarations taken from headers that are not part of the translation unit, and the
arithmetic of `double` on which the translation unit relies. -/
structure THeaders where
  /-- The helper `WideToUTF8`. -/
  WideToUTF8 : WString → TKey
  /-- The helper `ToLower`, which lowercases a string in place. -/
  ToLower : WString → WString
  /-- The helper `MakeUpperIfRequired(newChar, origChar)`. -/
  MakeUpperIfRequired : WChar → WChar → WChar
  /-- The default value of the argument `lastLevel` of `Edits2`, used by the calls
  `Edits2(w)` and `Edits2(TWord(s))`. -/
  Edits2LastLevel : Bool
  /-- The operator `-` of `double`: the difference, rounded to a `double`. -/
  DoubleSub : ℚ → ℚ → ℚ
  /-- The operator `*` of `double`: the product, rounded to a `double`. -/
  DoubleMul : ℚ → ℚ → ℚ

/-- The state of `TSpellCorrector`. -/
structure TSpellCorrector where
  LangModel : TLangModel
  Deletes1 : TDeletes
  Deletes2 : TDeletes
  Penalty : ℚ

/-- The struct `TScoredWord`. -/
structure TScoredWord where
  Word : TWord
  Score : ℚ

/-! ## The functions of the translation unit -/

/-- The words of the vocabulary: the keys of `GetWordToId()`. -/
def TLangModel.Vocab (lm : TLangModel) : List WString :=
  lm.WordToId.map Prod.fst

/-- Modelled from the spec: the member `GetWord(string)` of the language model, which
"returns an empty handle if absent" and otherwise the handle of the vocabulary word. -/
def TLangModel.GetWord (lm : TLangModel) (s : WString) : TWord :=
  if s ∈ lm.Vocab then s else []

/-- The characters `(Ptr, Len)` denotes in `buf`: `std::wstring(Ptr, Len)`. -/
def TSpan.Str (buf : WString) (t : TSpan) : WString :=
  (buf.drop t.Ptr).take t.Len

/-- The function `GetDeletes1`: the non-empty strings obtained by deleting one character. -/
def GetDeletes1 (w : WString) : List WString :=
  (List.range w.length).foldl
    (fun results i =>
      let nw := w.take i ++ w.drop (i + 1)
      if nw ≠ [] then results ++ [nw] else results)
    []

/-- The function `GetDeletes2`: one deletion followed by `GetDeletes1`. -/
def GetDeletes2 (w : WString) : List WString :=
  (List.range w.length).foldl
    (fun results i =>
      let nw := w.take i ++ w.drop (i + 1)
      if nw ≠ [] then results ++ GetDeletes1 nw else results)
    []

/-- The template `AddVec`, returning the extended target. -/
def AddVec {α : Type} (target source : List α) : List α :=
  target ++ source

/-- The block repeated for every variant `s` in `Edits2`: look `s` up, push it when it is a
non-empty vocabulary word, and unless `lastLevel` append `Edits2(TWord(s))`, given as `again`. -/
def Edits2Variant (lm : TLangModel) (again : WString → Except TAbort TWords)
    (lastLevel : Bool) (result : TWords) (s : WString) : Except TAbort TWords :=
  let c := lm.GetWord s
  let result := if c ≠ [] then result ++ [c] else result
  if !lastLevel then
    match again s with
    | .ok more => .ok (AddVec result more)
    | .error e => .error e
  else .ok result

/-- The string built in the transpose block of `Edits2` for index `i`. -/
def Transposed (w : WString) (i : Nat) : WString :=
  let s := w.take i
  let s := s ++ (w.drop (i + 1)).take 1
  let s := s ++ (w.drop i).take 1
  if i + 2 < w.length then s ++ w.drop (i + 2) else s

/-- One iteration of the loop of `Edits2`, for index `i`: the delete, transpose, replace and
insert blocks, each handing its result to the next. -/
def Edits2Step (lm : TLangModel) (again : WString → Except TAbort TWords)
    (lastLevel : Bool) (w : WString) (result : TWords) (i : Nat) : Except TAbort TWords :=
  (if i < w.length then
      Edits2Variant lm again lastLevel result (w.take i ++ w.drop (i + 1))
    else .ok result) >>= fun result =>
  (if i + 1 < w.length then
      Edits2Variant lm again lastLevel result (Transposed w i)
    else .ok result) >>= fun result =>
  (if i < w.length then
      lm.Alphabet.foldlM
        (fun r ch => Edits2Variant lm again lastLevel r (w.take i ++ [ch] ++ w.drop (i + 1)))
        result
    else .ok result) >>= fun result =>
  lm.Alphabet.foldlM
    (fun r ch => Edits2Variant lm again lastLevel r (w.take i ++ [ch] ++ w.drop i))
    result

/-- The member `Edits2(word, lastLevel)`.  The recursive calls `Edits2(TWord(s))` take the
default `dflt` for `lastLevel`; `fuel` bounds the depth of the recursion. -/
def Edits2 (lm : TLangModel) (dflt : Bool) : Nat → TWord → Bool → Except TAbort TWords
  | 0, _, _ => .error .OutOfFuel
  | fuel + 1, w, lastLevel =>
    (List.range (w.length + 1)).foldlM
      (Edits2Step lm (fun s => Edits2 lm dflt fuel s dflt) lastLevel w) []

/-- The ids stored under `key`; a key that is not found has none. -/
def TDeletesFind (m : TDeletes) (key : TKey) : List TWordId :=
  match m.lookup key with
  | some ids => ids
  | none => []

/-- The statement `m[key].push_back(wid)`. -/
def TDeletesPush : TDeletes → TKey → TWordId → TDeletes
  | [], key, wid => [(key, [wid])]
  | (k, ids) :: rest, key, wid =>
    if k = key then (k, ids ++ [wid]) :: rest
    else (k, ids) :: TDeletesPush rest key wid

/-- The member `Edits(word, lastLevel)`: lookups of the pure deletes of `word` in the
vocabulary and in the deletes indexes. -/
def Edits (x : THeaders) (c : TSpellCorrector) (word : TWord) (lastLevel : Bool) : TWords :=
  let w := word
  let cands := GetDeletes1 w
  let cands := cands ++ [w]
  let cands := if !lastLevel then cands ++ GetDeletes2 w else cands
  cands.foldl
    (fun result w =>
      let cw := c.LangModel.GetWord w
      let result := if cw ≠ [] then result ++ [cw] else result
      let s := x.WideToUTF8 w
      let result := result ++ (TDeletesFind c.Deletes1 s).map c.LangModel.GetWordById
      if !lastLevel then
        result ++ (TDeletesFind c.Deletes2 s).map c.LangModel.GetWordById
      else result)
    []

/-- The sentence scored for candidate `cand`: `cand` at `position` and the words at most
three positions away from it. -/
def CandSentence (sentence : TWords) (position : Nat) (cand : TWord) : TWords :=
  (List.range sentence.length).foldl
    (fun candSentence i =>
      if i = position then candSentence ++ [cand]
      else if (i < position ∧ i + 3 ≥ position) ∨ (i > position ∧ i ≤ position + 3) then
        candSentence ++ [sentence.getD i []]
      else candSentence)
    []

/-- The body of the loop over `uniqueCandidates`: score `cand` in its window and adjust the
score unless `cand` is the word `w`; `score -= Penalty` and `score *= 50.0` are operations
of `double`. -/
def ScoreCandidate (x : THeaders) (c : TSpellCorrector) (sentence : TWords) (position : Nat)
    (w : TWord) (firstLevel : Bool) (cand : TWord) : TScoredWord :=
  let score := c.LangModel.Score (CandSentence sentence position cand)
  let score :=
    if ¬ (cand = w) then
      if firstLevel then x.DoubleSub score c.Penalty else x.DoubleMul score 50
    else score
  { Word := cand, Score := score }

/-- The comparator handed to `std::sort`, read as "may stand before": `w1.Score ≥ w2.Score`. -/
def ScoreGe (w1 w2 : TScoredWord) : Prop := w2.Score ≤ w1.Score

instance : DecidableRel ScoreGe := fun w1 w2 => inferInstanceAs (Decidable (w2.Score ≤ w1.Score))

instance : IsTotal TScoredWord ScoreGe := ⟨fun a b => le_total b.Score a.Score⟩

instance : IsTrans TScoredWord ScoreGe := ⟨fun _ _ _ hab hbc => le_trans hbc hab⟩

/-- The part of `GetCandidatesRaw` after the candidates were generated.  The iteration order
of `std::unordered_set` and the order `std::sort` gives to equal scores are unspecified; here
the set keeps the order of the vector without repetitions and the sort is stable. -/
def RankCandidates (x : THeaders) (c : TSpellCorrector) (sentence : TWords) (position : Nat)
    (candidates : TWords) (firstLevel : Bool) : TWords :=
  let w := sentence.getD position []
  let cw := c.LangModel.GetWord w
  let candidates := if cw ≠ [] then candidates ++ [cw] else candidates
  let w := if cw ≠ [] then cw else w
  if candidates = [] then candidates
  else
    let uniqueCandidates := candidates.dedup
    let scoredCandidates := uniqueCandidates.map (ScoreCandidate x c sentence position w firstLevel)
    let scoredCandidates := scoredCandidates.insertionSort ScoreGe
    scoredCandidates.map TScoredWord.Word

/-- The member `GetCandidatesRaw(sentence, position)`. -/
def GetCandidatesRaw (x : THeaders) (fuel : Nat) (c : TSpellCorrector) (sentence : TWords)
    (position : Nat) : Except TAbort TWords :=
  if position ≥ sentence.length then .ok []
  else
    let w := sentence.getD position []
    match Edits2 c.LangModel x.Edits2LastLevel fuel w x.Edits2LastLevel with
    | .error e => .error e
    | .ok candidates =>
      if candidates = [] then
        .ok (RankCandidates x c sentence position (Edits x c w false) false)
      else
        .ok (RankCandidates x c sentence position candidates true)

/-- The member `GetCandidates(sentence, position)`: the same on owned strings. -/
def GetCandidates (x : THeaders) (fuel : Nat) (c : TSpellCorrector) (sentence : List WString)
    (position : Nat) : Except TAbort (List WString) :=
  GetCandidatesRaw x fuel c sentence position

/-- The body of the loop of `PrepareCache` for the vocabulary entry `it`. -/
def PrepareCacheWord (x : THeaders) (c : TSpellCorrector) (it : WString × TWordId) :
    TSpellCorrector :=
  let wid := c.LangModel.GetWordIdNoCreate it.1
  let deletes1 := GetDeletes1 it.1
  let deletes2 := GetDeletes2 it.1
  let c := deletes1.foldl
    (fun c w => { c with Deletes1 := TDeletesPush c.Deletes1 (x.WideToUTF8 w) wid }) c
  deletes2.foldl
    (fun c w => { c with Deletes2 := TDeletesPush c.Deletes2 (x.WideToUTF8 w) wid }) c

/-- The member `PrepareCache()`: clear both indexes and register every vocabulary word under
the keys of its pure deletes. -/
def PrepareCache (x : THeaders) (c : TSpellCorrector) : TSpellCorrector :=
  let c := { c with Deletes1 := [], Deletes2 := [] }
  c.LangModel.WordToId.foldl (PrepareCacheWord x) c

/-- The character `text[i]`: inside the string, the terminator at `i = size()`, and no value
beyond. -/
def WStringAt (text : WString) (i : Nat) : Except TAbort WChar :=
  match text[i]? with
  | some ch => .ok ch
  | none => if i = text.length then .ok 0 else .error .OutOfRange

/-- The loop `while (origPos < limit) { result.push_back(text[origPos]); origPos += 1; }`,
returning `result` and `origPos`; the first argument bounds the number of iterations and is
given as `limit - origPos`. -/
def CopyGap (text : WString) (limit : Nat) : Nat → WString → Nat → Except TAbort (WString × Nat)
  | 0, result, origPos => .ok (result, origPos)
  | n + 1, result, origPos =>
    if origPos < limit then
      match WStringAt text origPos with
      | .ok ch => CopyGap text limit n (result ++ [ch]) (origPos + 1)
      | .error e => .error e
    else .ok (result, origPos)

/-- The case projection loop of `FixFragment`: every character of `newWord` goes through
`MakeUpperIfRequired` with the character of `origWord` at the same index, or with the last
one when the index is past `origWord`.  For an empty `origWord` the index `size() - 1` is
outside the string. -/
def ProjectCase (x : THeaders) (newWord origWord result : WString) : Except TAbort WString :=
  (List.range newWord.length).foldlM
    (fun result k =>
      let n := if k < origWord.length then k else origWord.length - 1
      let newChar := newWord.getD k 0
      match origWord[n]? with
      | some origChar => .ok (result ++ [x.MakeUpperIfRequired newChar origChar])
      | none => .error .OutOfRange)
    result

/-- The local state of the loops of `FixFragment`: the copy `words` of the current sentence,
`result` and `origPos`. -/
structure TFixState where
  Words : TWords
  Result : WString
  OrigPos : Nat
deriving DecidableEq

/-- The replacement step shared by `FixFragment` and `FixFragmentNormalized`:
`if (candidates.size() > 0) words[j] = candidates[0];`. -/
def TakeTop (words : TWords) (j : Nat) (candidates : TWords) : TWords :=
  if candidates.length > 0 then words.set j (candidates.getD 0 []) else words

/-- The body of the inner loop of `FixFragment` for the word index `j`. -/
def FixFragmentWord (x : THeaders) (fuel : Nat) (c : TSpellCorrector) (text : WString)
    (origWords : List TSpan) (st : TFixState) (j : Nat) : Except TAbort TFixState :=
  match origWords[j]? with
  | none => .error .OutOfRange
  | some orig =>
    let lowered := st.Words.getD j []
    GetCandidatesRaw x fuel c st.Words j >>= fun candidates =>
    let words := TakeTop st.Words j candidates
    let currOrigPos := orig.Ptr
    CopyGap text currOrigPos (currOrigPos - st.OrigPos) st.Result st.OrigPos >>= fun copied =>
    let newWord := words.getD j []
    let origWord := orig.Str text
    let origLowered := lowered
    (if newWord ≠ origLowered then ProjectCase x newWord origWord copied.1
      else .ok (copied.1 ++ origWord)) >>= fun result =>
    .ok { Words := words, Result := result, OrigPos := copied.2 + orig.Len }

/-- The body of the outer loop of `FixFragment` for the sentence index `i`. -/
def FixFragmentSentence (x : THeaders) (fuel : Nat) (c : TSpellCorrector) (text lowered : WString)
    (origSentences sentences : List (List TSpan)) (st : TFixState) (i : Nat) :
    Except TAbort TFixState :=
  let words := (sentences.getD i []).map (TSpan.Str lowered)
  match origSentences[i]? with
  | none => .error .OutOfRange
  | some origWords =>
    (List.range words.length).foldlM (FixFragmentWord x fuel c text origWords)
      { st with Words := words }

/-- The member `FixFragment(text)`. -/
def FixFragment (x : THeaders) (fuel : Nat) (c : TSpellCorrector) (text : WString) :
    Except TAbort WString :=
  let origSentences := c.LangModel.Tokenize text
  let lowered := x.ToLower text
  let sentences := c.LangModel.Tokenize lowered
  (List.range sentences.length).foldlM
    (FixFragmentSentence x fuel c text lowered origSentences sentences)
    { Words := [], Result := [], OrigPos := 0 } >>= fun st =>
  CopyGap text text.length (text.length - st.OrigPos) st.Result st.OrigPos >>= fun copied =>
  .ok copied.1

/-- The body of the inner loop of `FixFragmentNormalized`, on `words` and `result`. -/
def FixFragmentNormalizedWord (x : THeaders) (fuel : Nat) (c : TSpellCorrector)
    (st : TWords × WString) (i : Nat) : Except TAbort (TWords × WString) :=
  GetCandidatesRaw x fuel c st.1 i >>= fun candidates =>
  let words := TakeTop st.1 i candidates
  .ok (words, st.2 ++ (words.getD i [] ++ [32]))

/-- The body of the outer loop of `FixFragmentNormalized` for one sentence. -/
def FixFragmentNormalizedSentence (x : THeaders) (fuel : Nat) (c : TSpellCorrector)
    (lowered : WString) (result : WString) (sentence : List TSpan) : Except TAbort WString :=
  let words := sentence.map (TSpan.Str lowered)
  (List.range words.length).foldlM (FixFragmentNormalizedWord x fuel c) (words, result)
    >>= fun st =>
  if st.1.length > 0 then .ok (st.2.dropLast ++ [46, 32]) else .ok st.2

/-- The member `FixFragmentNormalized(text)`. -/
def FixFragmentNormalized (x : THeaders) (fuel : Nat) (c : TSpellCorrector) (text : WString) :
    Except TAbort WString :=
  let lowered := x.ToLower text
  let sentences := c.LangModel.Tokenize lowered
  sentences.foldlM (FixFragmentNormalizedSentence x fuel c lowered) [] >>= fun result =>
  if result ≠ [] then .ok result.dropLast else .ok result

/-- The comparison `pc <= target` of `FindPenalty`; it is false for the undefined quotient
`0.0 / 0.0`, written `none`. -/
def LeTarget (pc : Option ℚ) (target : ℚ) : Bool :=
  match pc with
  | some q => decide (q ≤ target)
  | none => false

/-- The body of the inner loop of `GetBrokenPercent` on `(totalWords, broken)`. -/
def CountBroken (x : THeaders) (fuel : Nat) (c : TSpellCorrector) (sentence : TWords)
    (acc : Nat × Nat) (j : Nat) : Except TAbort (Nat × Nat) :=
  GetCandidatesRaw x fuel c sentence j >>= fun candidates =>
  let totalWords := acc.1 + 1
  let broken :=
    if candidates ≠ [] ∧ sentence.getD j [] ≠ candidates.getD 0 [] then acc.2 + 1 else acc.2
  .ok (totalWords, broken)

/-- The member `GetBrokenPercent(sentences, penalty)`: the corrector with the penalty set,
and `double(broken) / double(totalWords)`. -/
def GetBrokenPercent (x : THeaders) (fuel : Nat) (c : TSpellCorrector) (sentences : TSentences)
    (penalty : ℚ) : Except TAbort (TSpellCorrector × Option ℚ) :=
  if sentences = [] then .error .Assert
  else
    let c := { c with Penalty := penalty }
    sentences.foldlM
      (fun acc sentence => (List.range sentence.length).foldlM (CountBroken x fuel c sentence) acc)
      (0, 0) >>= fun acc =>
    .ok (c, if acc.1 = 0 then none else some ((acc.2 : ℚ) / (acc.1 : ℚ)))

/-- The variables of the loop of `FindPenalty`: the corrector, `a`, `b`, and as a ghost the
penalties handed to `GetBrokenPercent` so far. -/
structure TPenaltySearch where
  Corrector : TSpellCorrector
  A : ℚ
  B : ℚ
  Evaluated : List ℚ

/-- The loop `while (b - a >= 0.2)` of `FindPenalty`; the first argument bounds the number
of iterations. -/
def FindPenaltyLoop (x : THeaders) (fuel : Nat) (sentences : TSentences) :
    Nat → TPenaltySearch → Except TAbort TPenaltySearch
  | 0, st => if st.B - st.A ≥ 1 / 5 then .error .OutOfFuel else .ok st
  | n + 1, st =>
    if st.B - st.A ≥ 1 / 5 then
      let mid := st.A + (st.B - st.A) * (1 / 2)
      GetBrokenPercent x fuel st.Corrector sentences mid >>= fun r =>
      if LeTarget r.2 (7 / 1000) then
        FindPenaltyLoop x fuel sentences n
          { Corrector := r.1, A := st.A, B := mid, Evaluated := st.Evaluated ++ [mid] }
      else
        FindPenaltyLoop x fuel sentences n
          { Corrector := r.1, A := mid, B := st.B, Evaluated := st.Evaluated ++ [mid] }
    else .ok st

/-- The member `FindPenalty(sentences)`: the corrector it leaves and the value it returns. -/
def FindPenalty (x : THeaders) (fuel steps : Nat) (c : TSpellCorrector) (sentences : TSentences) :
    Except TAbort (TSpellCorrector × ℚ) :=
  FindPenaltyLoop x fuel sentences steps { Corrector := c, A := 0, B := 500, Evaluated := [] }
    >>= fun st => .ok (st.Corrector, st.B)

/-- Members of the language model and file helpers that only training uses; they are not
defined in the translation unit. -/
structure TTrainHelpers where
  /-- The member `LoadAlphabet(alphabetFile)`: the model it leaves and the value returned. -/
  LoadAlphabet : TLangModel → TKey → TLangModel × Bool
  /-- The helper `LoadFile`. -/
  LoadFile : TKey → TKey
  /-- The helper `UTF8ToWide`. -/
  UTF8ToWide : TKey → WString
  /-- The member `TrainRaw(sentences)`: the model it leaves. -/
  TrainRaw : TLangModel → TSentences → TLangModel

/-- The statements of `TrainLangModel` that split the tokenized text: `testPart` (the
product `0.2 * size()` truncated by `size_t`) and `trainPart`, the loop that fills
`testSentences`, and `resize(trainPart)`.  Returns `trainSentences` and `testSentences`. -/
def HeldOutSplit (trainSentences : TSentences) : TSentences × TSentences :=
  let testPart := min (Nat.floor ((1 / 5 : ℚ) * (trainSentences.length : ℚ))) 5000
  let trainPart := trainSentences.length - testPart
  let testSentences := (List.range' trainPart (trainSentences.length - trainPart)).foldl
    (fun testSentences i => testSentences ++ [trainSentences.getD i []]) []
  (trainSentences.take trainPart, testSentences)

/-- The member `TrainLangModel(textFile, alphabetFile)`: the corrector it leaves and the
value returned. -/
def TrainLangModel (x : THeaders) (h : TTrainHelpers) (fuel steps : Nat) (c : TSpellCorrector)
    (textFile alphabetFile : TKey) : Except TAbort (TSpellCorrector × Bool) :=
  let loaded := h.LoadAlphabet c.LangModel alphabetFile
  if !loaded.2 then .ok ({ c with LangModel := loaded.1 }, false)
  else
    let trainText := x.ToLower (h.UTF8ToWide (h.LoadFile textFile))
    let trainSentences :=
      (loaded.1.Tokenize trainText).map (fun s => s.map (TSpan.Str trainText))
    let split := HeldOutSplit trainSentences
    let lm := h.TrainRaw loaded.1 split.1
    let c := PrepareCache x { c with LangModel := lm }
    FindPenalty x fuel steps c split.2 >>= fun r => .ok (r.1, true)

/-! ## Notions used to state the properties -/

/-- The case projection as the specification words it: the character of the new word at
index `k` takes the case of the original character at `k` when `k` is within the original
word, and of the last original character otherwise. -/
def CaseProjected (x : THeaders) (newWord origWord : WString) : WString :=
  (List.range newWord.length).map
    (fun k => x.MakeUpperIfRequired (newWord.getD k 0)
      (origWord.getD (if k < origWord.length then k else origWord.length - 1) 0))

/-- The text `FixFragment` writes for a token: the case projection of the chosen word when
it differs from the lowercased token, the original token otherwise. -/
def WordText (x : THeaders) (newWord origWord origLowered : WString) : WString :=
  if newWord ≠ origLowered then CaseProjected x newWord origWord else origWord

/-- The part of `text` from `pos` up to the token `t`. -/
def Gap (text : WString) (pos : Nat) (t : TSpan) : WString :=
  (text.drop pos).take (t.Ptr - pos)

/-- The text made of the gaps of `text` from `pos` on, with `outs` in place of the tokens:
`gap ++ out ++ gap ++ out ++ ... ++ gap`. -/
def Interleave (text : WString) : Nat → List TSpan → List WString → WString
  | pos, [], _ => text.drop pos
  | pos, _ :: _, [] => text.drop pos
  | pos, t :: ts, o :: os => Gap text pos t ++ o ++ Interleave text (t.Ptr + t.Len) ts os

/-- The tokens are non-empty, start at or after `pos`, follow each other without overlap
and end inside a text of length `len`. -/
def TokensOrdered : Nat → List TSpan → Nat → Prop
  | pos, [], len => pos ≤ len
  | pos, t :: ts, len => pos ≤ t.Ptr ∧ 0 < t.Len ∧ TokensOrdered (t.Ptr + t.Len) ts len

instance : ∀ (pos : Nat) (ts : List TSpan) (len : Nat), Decidable (TokensOrdered pos ts len)
  | pos, [], len => inferInstanceAs (Decidable (pos ≤ len))
  | pos, t :: ts, len =>
    have : Decidable (TokensOrdered (t.Ptr + t.Len) ts len) := instDecidableTokensOrdered _ ts len
    inferInstanceAs (Decidable (pos ≤ t.Ptr ∧ 0 < t.Len ∧ TokensOrdered (t.Ptr + t.Len) ts len))

/-- The text written while the tokens are passed: `gap ++ out ++ ... ++ gap ++ out`, as
`Interleave` without the part of `text` after the last token. -/
def Splice (text : WString) : Nat → List TSpan → List WString → WString
  | _, [], _ => []
  | _, _ :: _, [] => []
  | pos, t :: ts, o :: os => Gap text pos t ++ o ++ Splice text (t.Ptr + t.Len) ts os

/-- The position after the last of the tokens, `pos` when there is none. -/
def EndPos : Nat → List TSpan → Nat
  | pos, [] => pos
  | _, t :: ts => EndPos (t.Ptr + t.Len) ts

/-- The call `GetCandidatesRaw(words, j)` returns, and it returns either no candidate or a
list headed by the word `words[j]` itself. -/
def KeepsWord (x : THeaders) (fuel : Nat) (c : TSpellCorrector) (words : TWords) (j : Nat) :
    Prop :=
  match GetCandidatesRaw x fuel c words j with
  | .ok r => r = [] ∨ r.head? = some (words.getD j [])
  | .error _ => False

instance (x : THeaders) (fuel : Nat) (c : TSpellCorrector) (words : TWords) (j : Nat) :
    Decidable (KeepsWord x fuel c words j) := by
  unfold KeepsWord
  cases GetCandidatesRaw x fuel c words j with
  | ok r => exact inferInstanceAs (Decidable (r = [] ∨ r.head? = some (words.getD j [])))
  | error e => exact inferInstanceAs (Decidable False)

/-- The replacement of the word at index `j` by the top candidate, as both fragment
functions do it. -/
def CorrectWord (x : THeaders) (fuel : Nat) (c : TSpellCorrector) (words : TWords) (j : Nat) :
    Except TAbort TWords :=
  GetCandidatesRaw x fuel c words j >>= fun candidates => .ok (TakeTop words j candidates)

/-- The words of a sentence after every position was corrected in turn, each call seeing the
replacements made before it. -/
def CorrectedSentence (x : THeaders) (fuel : Nat) (c : TSpellCorrector) (words : TWords) :
    Except TAbort TWords :=
  (List.range words.length).foldlM (CorrectWord x fuel c) words

/-- A sentence of the normalized output: nothing for a sentence without words, otherwise
the words joined by single spaces and followed by ". ". -/
def NormalizedSentence (words : TWords) : WString :=
  if words = [] then [] else [32].intercalate words ++ [46, 32]

/-- Every word of the list is a non-empty word of the vocabulary. -/
def AllVocab (lm : TLangModel) (r : TWords) : Prop :=
  ∀ v ∈ r, v ∈ lm.Vocab ∧ v ≠ []

/-- The candidates `GetCandidatesRaw` ranks: the generated ones and, when the word at
`position` is a non-empty vocabulary word, that word. -/
def WithIdentity (lm : TLangModel) (sentence : TWords) (position : Nat) (candidates : TWords) :
    TWords :=
  if lm.GetWord (sentence.getD position []) ≠ [] then
    candidates ++ [lm.GetWord (sentence.getD position [])]
  else candidates

/-- The adjusted score as the specification words it: the score of the window for the
identity candidate, the score minus `Penalty` for another candidate when the tier-2 set was
not empty, the score times 50 for another candidate of the fallback; minus and times are
those of `double`, in which the scores are computed and compared. -/
def AdjustedScore (x : THeaders) (c : TSpellCorrector) (sentence : TWords) (position : Nat)
    (firstLevel : Bool) (cand : TWord) : ℚ :=
  if cand = sentence.getD position [] then
    c.LangModel.Score (CandSentence sentence position cand)
  else if firstLevel then
    x.DoubleSub (c.LangModel.Score (CandSentence sentence position cand)) c.Penalty
  else
    x.DoubleMul (c.LangModel.Score (CandSentence sentence position cand)) 50

/-- The candidate pushed for the variant `s`: the word `GetWord` finds, if it finds one. -/
def EmitWord (lm : TLangModel) (s : WString) : TWords :=
  if lm.GetWord s ≠ [] then [lm.GetWord s] else []

/-- The variants `Edits2` builds for the index `i` of `w`, in the order of the blocks:
delete, transpose, replace with every letter, insert every letter. -/
def VariantsAt (A : List WChar) (w : WString) (i : Nat) : List WString :=
  (if i < w.length then [w.take i ++ w.drop (i + 1)] else []) ++
  (if i + 1 < w.length then [Transposed w i] else []) ++
  (if i < w.length then A.map (fun ch => w.take i ++ [ch] ++ w.drop (i + 1)) else []) ++
  A.map (fun ch => w.take i ++ [ch] ++ w.drop i)

/-- All variants `Edits2` builds for `w`, in the order in which it examines them. -/
def Variants (A : List WChar) (w : WString) : List WString :=
  (List.range (w.length + 1)).flatMap (VariantsAt A w)

/-- The delete operation of the specification at every index: `n` variants. -/
def DeleteVariants (w : WString) : List WString :=
  (List.range w.length).map (fun i => w.eraseIdx i)

/-- The word with the characters at `i` and `i + 1` swapped. -/
def SwapAt (w : WString) (i : Nat) : WString :=
  (w.set i (w.getD (i + 1) 0)).set (i + 1) (w.getD i 0)

/-- The transpose operation of the specification at every index: `n - 1` variants. -/
def TransposeVariants (w : WString) : List WString :=
  (List.range (w.length - 1)).map (SwapAt w)

/-- The replace operation of the specification at every index with every letter. -/
def ReplaceVariants (A : List WChar) (w : WString) : List WString :=
  (List.range w.length).flatMap (fun i => A.map (fun ch => w.set i ch))

/-- The insert operation of the specification at every position with every letter. -/
def InsertVariants (A : List WChar) (w : WString) : List WString :=
  (List.range (w.length + 1)).flatMap (fun i => A.map (fun ch => w.insertIdx i ch))

/-- The word `u` is obtained from `w` by one edit operation of the specification: a
character is deleted, two adjacent characters are swapped, a character is replaced by a
letter accepted by `P`, or such a letter is inserted. -/
def OneEdit (P : WChar → Prop) (w u : WString) : Prop :=
  (∃ i, i < w.length ∧ u = w.eraseIdx i) ∨
  (∃ i, i + 1 < w.length ∧ u = SwapAt w i) ∨
  (∃ i ch, i < w.length ∧ P ch ∧ u = w.set i ch) ∨
  (∃ i ch, i ≤ w.length ∧ P ch ∧ u = w.insertIdx i ch)

/-- The tokens of a corpus. -/
def TotalTokens (sentences : TSentences) : Nat :=
  (sentences.map List.length).sum

/-- The top candidate at position `j` is not the input token. -/
def TopCandidateDiffers (x : THeaders) (fuel : Nat) (c : TSpellCorrector) (sentence : TWords)
    (j : Nat) : Bool :=
  match GetCandidatesRaw x fuel c sentence j with
  | .ok (top :: _) => decide (sentence.getD j [] ≠ top)
  | _ => false

/-- The tokens of a corpus whose top candidate is not the input token. -/
def BrokenTokens (x : THeaders) (fuel : Nat) (c : TSpellCorrector) (sentences : TSentences) :
    Nat :=
  (sentences.map (fun sentence =>
    ((List.range sentence.length).filter (TopCandidateDiffers x fuel c sentence)).length)).sum

/-- The string `s` is `w` or `w` with one character deleted. -/
def DeleteAtMost1 (w s : WString) : Prop :=
  s = w ∨ ∃ i, i < w.length ∧ s = w.eraseIdx i

/-- The string `s` is `w` or `w` with one or two characters deleted. -/
def DeleteAtMost2 (w s : WString) : Prop :=
  DeleteAtMost1 w s ∨
    ∃ i j, i < w.length ∧ j < (w.eraseIdx i).length ∧ s = (w.eraseIdx i).eraseIdx j

/-- The word `v` is obtained from `w` by at most two edit operations of the specification. -/
def WithinTwoEdits (P : WChar → Prop) (w v : WString) : Prop :=
  v = w ∨ OneEdit P w v ∨ ∃ u, OneEdit P w u ∧ OneEdit P u v

/-! ## A small corrector for the examples -/

/-- ASCII letters. -/
def IsLetter (ch : WChar) : Bool :=
  (65 ≤ ch && ch ≤ 90) || (97 ≤ ch && ch ≤ 122)

/-- Scanner of the example tokenizer: words are the maximal runs of letters, a full stop
closes the sentence, and sentences without words are not kept. -/
def ScanTokens : WString → Nat → Option TSpan → List TSpan → List (List TSpan)
  | [], _, cur, sent =>
    let sent := match cur with
      | some t => sent ++ [t]
      | none => sent
    if sent = [] then [] else [sent]
  | ch :: rest, pos, cur, sent =>
    if IsLetter ch then
      match cur with
      | none => ScanTokens rest (pos + 1) (some ⟨pos, 1⟩) sent
      | some t => ScanTokens rest (pos + 1) (some ⟨t.Ptr, t.Len + 1⟩) sent
    else
      let sent := match cur with
        | some t => sent ++ [t]
        | none => sent
      if ch = 46 then
        if sent = [] then ScanTokens rest (pos + 1) none []
        else sent :: ScanTokens rest (pos + 1) none []
      else ScanTokens rest (pos + 1) none sent

/-- Example language model: the words "a", "ab", "ba", "abc" with the ids 0 to 3 over the
alphabet "a", "b"; a sentence scores minus its number of characters. -/
def SampleModel : TLangModel where
  WordToId := [([97], 0), ([97, 98], 1), ([98, 97], 2), ([97, 98, 99], 3)]
  GetWordIdNoCreate := fun w =>
    match [(([97] : WString), 0), ([97, 98], 1), ([98, 97], 2), ([97, 98, 99], 3)].lookup w with
    | some id => id
    | none => 4
  GetWordById := fun id => ([[97], [97, 98], [98, 97], [97, 98, 99]] : TWords).getD id []
  Alphabet := [97, 98]
  Score := fun s => - ((s.map List.length).sum : ℚ)
  Tokenize := fun text => ScanTokens text 0 none []

/-- Example helpers for ASCII text; `Edits2` has `lastLevel = true` as its default.  The
scores of the examples are small integers and the penalties small dyadic numbers, on which
the arithmetic of `double` is exact. -/
def SampleHeaders : THeaders where
  WideToUTF8 := fun w => w
  ToLower := fun w => w.map (fun ch => if 65 ≤ ch ∧ ch ≤ 90 then ch + 32 else ch)
  MakeUpperIfRequired := fun newChar origChar =>
    if 65 ≤ origChar ∧ origChar ≤ 90 ∧ 97 ≤ newChar ∧ newChar ≤ 122 then newChar - 32
    else newChar
  Edits2LastLevel := true
  DoubleSub := fun a b => a - b
  DoubleMul := fun a b => a * b

/-- Example corrector before its cache is prepared. -/
def SampleFresh : TSpellCorrector where
  LangModel := SampleModel
  Deletes1 := []
  Deletes2 := []
  Penalty := 1

/-- Example corrector with its cache. -/
def SampleCorrector : TSpellCorrector :=
  PrepareCache SampleHeaders SampleFresh

/-- Example language model whose two words, "é" and "éè", use no letter of the alphabet
"a", "b"; the scores are negative, and "é" alone scores worst. -/
def AccentModel : TLangModel where
  WordToId := [([233], 0), ([233, 232], 1)]
  GetWordIdNoCreate := fun w => if w = [233] then 0 else if w = [233, 232] then 1 else 2
  GetWordById := fun id => ([[233], [233, 232]] : TWords).getD id []
  Alphabet := [97, 98]
  Score := fun s => if s = [[233]] then -100 else -1
  Tokenize := fun text => ScanTokens text 0 none []

/-- Example corrector over `AccentModel`, with its cache. -/
def AccentCorrector : TSpellCorrector :=
  PrepareCache SampleHeaders
    { LangModel := AccentModel, Deletes1 := [], Deletes2 := [], Penalty := 0 }

/-- Example training helpers: the files hold their own text, the alphabet always loads and
training keeps the model. -/
def SampleTrainHelpers : TTrainHelpers where
  LoadAlphabet := fun lm _ => (lm, true)
  LoadFile := fun path => path
  UTF8ToWide := fun bytes => bytes
  TrainRaw := fun lm _ => lm

/-! ## Theorems -/

/-! ### Loops -/

theorem foldl_append_eq {α β : Type} (f : α → List β) (l : List α) (init : List β) :
    l.foldl (fun acc a => acc ++ f a) init = init ++ (l.map f).flatten := by
  induction l generalizing init with
  | nil => simp
  | cons a l ih => simp [ih]

theorem foldlM_ok_invariant {α β : Type} (P : β → Prop) (f : β → α → Except TAbort β)
    (hf : ∀ b a b', P b → f b a = .ok b' → P b') :
    ∀ (l : List α) (b b' : β), P b → l.foldlM f b = .ok b' → P b' := by
  intro l
  induction l with
  | nil =>
    intro b b' hb h
    simp only [List.foldlM_nil, pure, Except.pure, Except.ok.injEq] at h
    exact h ▸ hb
  | cons a l ih =>
    intro b b' hb h
    rw [List.foldlM_cons] at h
    cases hfa : f b a with
    | error e => rw [hfa] at h; cases h
    | ok b1 =>
      rw [hfa] at h
      exact ih b1 b' (hf b a b1 hb hfa) h

theorem foldlM_ok_of_step {α β : Type} (f : β → α → Except TAbort β)
    (hf : ∀ b a, ∃ b', f b a = .ok b') :
    ∀ (l : List α) (b : β), ∃ b', l.foldlM f b = .ok b' := by
  intro l
  induction l with
  | nil => intro b; exact ⟨b, rfl⟩
  | cons a l ih =>
    intro b
    obtain ⟨b1, hb1⟩ := hf b a
    obtain ⟨b2, hb2⟩ := ih b1
    refine ⟨b2, ?_⟩
    rw [List.foldlM_cons, hb1]
    exact hb2

/-! ### The deletes index -/

theorem TDeletesFind_push (m : TDeletes) (k : TKey) (wid : TWordId) (k' : TKey) :
    TDeletesFind (TDeletesPush m k wid) k' =
      if k' = k then TDeletesFind m k ++ [wid] else TDeletesFind m k' := by
  induction m with
  | nil =>
    by_cases h : k' = k
    · subst h; simp [TDeletesPush, TDeletesFind, List.lookup]
    · have hb : (k' == k) = false := by simpa using h
      simp [TDeletesPush, TDeletesFind, List.lookup, hb, h]
  | cons hd tl ih =>
    obtain ⟨k0, ids⟩ := hd
    by_cases h0 : k0 = k
    · subst h0
      by_cases h : k' = k0
      · subst h; simp [TDeletesPush, TDeletesFind, List.lookup]
      · have hb : (k' == k0) = false := by simpa using h
        simp [TDeletesPush, TDeletesFind, List.lookup, hb, h]
    · by_cases h : k' = k
      · subst h
        have hb : (k' == k0) = false := by simpa using (Ne.symm h0)
        have ih' := ih
        simp only [if_true] at ih'
        simp only [TDeletesPush, h0, if_false, TDeletesFind, List.lookup, hb, if_true] at ih' ⊢
        exact ih'
      · simp only [h, if_false] at ih
        by_cases h1 : k' = k0
        · subst h1
          simp [TDeletesPush, h0, h, TDeletesFind, List.lookup]
        · have hb : (k' == k0) = false := by simpa using h1
          simp only [TDeletesPush, h0, if_false, TDeletesFind, List.lookup, hb, h] at ih ⊢
          exact ih




theorem push1_fold (x : THeaders) (wid : TWordId) (l : List WString) (c : TSpellCorrector) :
    (l.foldl (fun c w => { c with Deletes1 := TDeletesPush c.Deletes1 (x.WideToUTF8 w) wid })
        c).LangModel = c.LangModel ∧
    (l.foldl (fun c w => { c with Deletes1 := TDeletesPush c.Deletes1 (x.WideToUTF8 w) wid })
        c).Deletes2 = c.Deletes2 ∧
    (l.foldl (fun c w => { c with Deletes1 := TDeletesPush c.Deletes1 (x.WideToUTF8 w) wid })
        c).Penalty = c.Penalty ∧
    ∀ k id, id ∈ TDeletesFind (l.foldl
        (fun c w => { c with Deletes1 := TDeletesPush c.Deletes1 (x.WideToUTF8 w) wid })
        c).Deletes1 k ↔
      id ∈ TDeletesFind c.Deletes1 k ∨ (id = wid ∧ ∃ w ∈ l, x.WideToUTF8 w = k) := by
  induction l generalizing c with
  | nil => simp
  | cons a l ih =>
    simp only [List.foldl_cons]
    obtain ⟨h1, h2, h3, h4⟩ := ih { c with Deletes1 := TDeletesPush c.Deletes1 (x.WideToUTF8 a) wid }
    refine ⟨h1, h2, h3, ?_⟩
    intro k id
    rw [h4 k id, TDeletesFind_push]
    by_cases hk : k = x.WideToUTF8 a
    · subst hk
      simp only [if_true, List.mem_append, List.mem_singleton, List.mem_cons, exists_eq_or_imp,
        true_or, and_true]
      tauto
    · simp only [hk, if_false, List.mem_cons, exists_eq_or_imp]
      have : ¬ x.WideToUTF8 a = k := fun h => hk h.symm
      simp only [this, false_or]

theorem push2_fold (x : THeaders) (wid : TWordId) (l : List WString) (c : TSpellCorrector) :
    (l.foldl (fun c w => { c with Deletes2 := TDeletesPush c.Deletes2 (x.WideToUTF8 w) wid })
        c).LangModel = c.LangModel ∧
    (l.foldl (fun c w => { c with Deletes2 := TDeletesPush c.Deletes2 (x.WideToUTF8 w) wid })
        c).Deletes1 = c.Deletes1 ∧
    (l.foldl (fun c w => { c with Deletes2 := TDeletesPush c.Deletes2 (x.WideToUTF8 w) wid })
        c).Penalty = c.Penalty ∧
    ∀ k id, id ∈ TDeletesFind (l.foldl
        (fun c w => { c with Deletes2 := TDeletesPush c.Deletes2 (x.WideToUTF8 w) wid })
        c).Deletes2 k ↔
      id ∈ TDeletesFind c.Deletes2 k ∨ (id = wid ∧ ∃ w ∈ l, x.WideToUTF8 w = k) := by
  induction l generalizing c with
  | nil => simp
  | cons a l ih =>
    simp only [List.foldl_cons]
    obtain ⟨h1, h2, h3, h4⟩ := ih { c with Deletes2 := TDeletesPush c.Deletes2 (x.WideToUTF8 a) wid }
    refine ⟨h1, h2, h3, ?_⟩
    intro k id
    rw [h4 k id, TDeletesFind_push]
    by_cases hk : k = x.WideToUTF8 a
    · subst hk
      simp only [if_true, List.mem_append, List.mem_singleton, List.mem_cons, exists_eq_or_imp,
        true_or, and_true]
      tauto
    · simp only [hk, if_false, List.mem_cons, exists_eq_or_imp]
      have : ¬ x.WideToUTF8 a = k := fun h => hk h.symm
      simp only [this, false_or]

theorem PrepareCacheWord_spec (x : THeaders) (c : TSpellCorrector) (it : WString × TWordId) :
    (PrepareCacheWord x c it).LangModel = c.LangModel ∧
    (PrepareCacheWord x c it).Penalty = c.Penalty ∧
    (∀ k id, id ∈ TDeletesFind (PrepareCacheWord x c it).Deletes1 k ↔
      id ∈ TDeletesFind c.Deletes1 k ∨
        (id = c.LangModel.GetWordIdNoCreate it.1 ∧ ∃ w ∈ GetDeletes1 it.1, x.WideToUTF8 w = k)) ∧
    (∀ k id, id ∈ TDeletesFind (PrepareCacheWord x c it).Deletes2 k ↔
      id ∈ TDeletesFind c.Deletes2 k ∨
        (id = c.LangModel.GetWordIdNoCreate it.1 ∧ ∃ w ∈ GetDeletes2 it.1, x.WideToUTF8 w = k)) := by
  unfold PrepareCacheWord
  simp only
  have a := push1_fold x (c.LangModel.GetWordIdNoCreate it.1) (GetDeletes1 it.1) c
  generalize hc1 : List.foldl _ c (GetDeletes1 it.1) = c1 at a ⊢
  have b := push2_fold x (c.LangModel.GetWordIdNoCreate it.1) (GetDeletes2 it.1) c1
  generalize List.foldl _ c1 (GetDeletes2 it.1) = c2 at b ⊢
  obtain ⟨a1, a2, a3, a4⟩ := a
  obtain ⟨b1, b2, b3, b4⟩ := b
  refine ⟨b1.trans a1, b3.trans a3, ?_, ?_⟩
  · intro k id
    rw [b2, a4]
  · intro k id
    rw [b4, a2]

theorem PrepareCache_fold (x : THeaders) (l : List (WString × TWordId)) (c : TSpellCorrector) :
    (l.foldl (PrepareCacheWord x) c).LangModel = c.LangModel ∧
    (l.foldl (PrepareCacheWord x) c).Penalty = c.Penalty ∧
    (∀ k id, id ∈ TDeletesFind (l.foldl (PrepareCacheWord x) c).Deletes1 k ↔
      id ∈ TDeletesFind c.Deletes1 k ∨
        ∃ it ∈ l, id = c.LangModel.GetWordIdNoCreate it.1 ∧
          ∃ w ∈ GetDeletes1 it.1, x.WideToUTF8 w = k) ∧
    (∀ k id, id ∈ TDeletesFind (l.foldl (PrepareCacheWord x) c).Deletes2 k ↔
      id ∈ TDeletesFind c.Deletes2 k ∨
        ∃ it ∈ l, id = c.LangModel.GetWordIdNoCreate it.1 ∧
          ∃ w ∈ GetDeletes2 it.1, x.WideToUTF8 w = k) := by
  induction l generalizing c with
  | nil => simp
  | cons a l ih =>
    simp only [List.foldl_cons]
    obtain ⟨h1, h2, h3, h4⟩ := ih (PrepareCacheWord x c a)
    obtain ⟨g1, g2, g3, g4⟩ := PrepareCacheWord_spec x c a
    refine ⟨h1.trans g1, h2.trans g2, ?_, ?_⟩
    · intro k id
      rw [h3, g3, g1]
      simp only [List.mem_cons, exists_eq_or_imp, or_assoc]
    · intro k id
      rw [h4, g4, g1]
      simp only [List.mem_cons, exists_eq_or_imp, or_assoc]

theorem PrepareCache_spec (x : THeaders) (c : TSpellCorrector) :
    (PrepareCache x c).LangModel = c.LangModel ∧
    (PrepareCache x c).Penalty = c.Penalty ∧
    (∀ k id, id ∈ TDeletesFind (PrepareCache x c).Deletes1 k ↔
        ∃ it ∈ c.LangModel.WordToId, id = c.LangModel.GetWordIdNoCreate it.1 ∧
          ∃ w ∈ GetDeletes1 it.1, x.WideToUTF8 w = k) ∧
    (∀ k id, id ∈ TDeletesFind (PrepareCache x c).Deletes2 k ↔
        ∃ it ∈ c.LangModel.WordToId, id = c.LangModel.GetWordIdNoCreate it.1 ∧
          ∃ w ∈ GetDeletes2 it.1, x.WideToUTF8 w = k) := by
  unfold PrepareCache
  simp only
  obtain ⟨h1, h2, h3, h4⟩ :=
    PrepareCache_fold x c.LangModel.WordToId { c with Deletes1 := [], Deletes2 := [] }
  refine ⟨h1, h2, ?_, ?_⟩
  · intro k id
    rw [h3]
    simp [TDeletesFind]
  · intro k id
    rw [h4]
    simp [TDeletesFind]

/-! ### Pure deletes -/

theorem GetDeletes1_eq (w : WString) :
    GetDeletes1 w = ((List.range w.length).map
      (fun i => if w.take i ++ w.drop (i + 1) ≠ [] then [w.take i ++ w.drop (i + 1)] else [])).flatten := by
  unfold GetDeletes1
  rw [← List.nil_append (List.flatten _), ← foldl_append_eq]
  congr 1
  funext results i
  by_cases h : w.take i ++ w.drop (i + 1) = [] <;> simp [h]

theorem GetDeletes2_eq (w : WString) :
    GetDeletes2 w = ((List.range w.length).map
      (fun i => if w.take i ++ w.drop (i + 1) ≠ [] then GetDeletes1 (w.take i ++ w.drop (i + 1))
        else [])).flatten := by
  unfold GetDeletes2
  rw [← List.nil_append (List.flatten _), ← foldl_append_eq]
  congr 1
  funext results i
  by_cases h : w.take i ++ w.drop (i + 1) = [] <;> simp [h]

theorem mem_GetDeletes1 (w s : WString) :
    s ∈ GetDeletes1 w ↔ s ≠ [] ∧ ∃ i, i < w.length ∧ s = w.eraseIdx i := by
  rw [GetDeletes1_eq]
  simp only [List.mem_flatten, List.mem_map, List.mem_range, List.eraseIdx_eq_take_drop_succ]
  constructor
  · rintro ⟨l, ⟨i, hi, rfl⟩, hs⟩
    by_cases h : w.take i ++ w.drop (i + 1) = []
    · simp [h] at hs
    · simp only [ne_eq, h, not_false_eq_true, if_true, List.mem_singleton] at hs
      subst hs
      exact ⟨h, i, hi, rfl⟩
  · rintro ⟨hne, i, hi, rfl⟩
    exact ⟨_, ⟨i, hi, rfl⟩, by simp [hne]⟩

theorem mem_GetDeletes2 (w s : WString) :
    s ∈ GetDeletes2 w ↔
      s ≠ [] ∧ ∃ i j, i < w.length ∧ j < (w.eraseIdx i).length ∧ s = (w.eraseIdx i).eraseIdx j := by
  rw [GetDeletes2_eq]
  simp only [List.mem_flatten, List.mem_map, List.mem_range, ← List.eraseIdx_eq_take_drop_succ]
  constructor
  · rintro ⟨l, ⟨i, hi, rfl⟩, hs⟩
    by_cases h : w.eraseIdx i = []
    · simp [h] at hs
    · simp only [ne_eq, h, not_false_eq_true, if_true] at hs
      obtain ⟨hne, j, hj, rfl⟩ := (mem_GetDeletes1 _ _).1 hs
      exact ⟨hne, i, j, hi, hj, rfl⟩
  · rintro ⟨hne, i, j, hi, hj, rfl⟩
    have h : w.eraseIdx i ≠ [] := by
      intro h0; rw [h0] at hj; simp at hj
    exact ⟨_, ⟨i, hi, rfl⟩, by simpa [h] using (mem_GetDeletes1 _ _).2 ⟨hne, j, hj, rfl⟩⟩

/-! ### Edit generators -/

theorem except_bind_ok {α β : Type} (a : Except TAbort α) (f : α → Except TAbort β) (b : β)
    (h : (a >>= f) = .ok b) : ∃ r, a = .ok r ∧ f r = .ok b := by
  cases a with
  | error e => cases h
  | ok r => exact ⟨r, rfl, h⟩

theorem except_ok_bind {α β : Type} (a : α) (f : α → Except TAbort β) :
    ((Except.ok a : Except TAbort α) >>= f) = f a := rfl

theorem GetWord_of_ne_nil (lm : TLangModel) (s : WString) (h : lm.GetWord s ≠ []) :
    lm.GetWord s = s ∧ s ∈ lm.Vocab ∧ s ≠ [] := by
  unfold TLangModel.GetWord at h ⊢
  by_cases hs : s ∈ lm.Vocab
  · simp only [hs, if_true] at h ⊢
    exact ⟨trivial, trivial, h⟩
  · simp [hs] at h

theorem GetWord_of_mem (lm : TLangModel) (s : WString) (h : s ∈ lm.Vocab) :
    lm.GetWord s = s := by
  simp [TLangModel.GetWord, h]

theorem Edits2Variant_vocab (lm : TLangModel) (again : WString → Except TAbort TWords)
    (hagain : ∀ s r, again s = .ok r → AllVocab lm r) (lastLevel : Bool)
    (result : TWords) (s : WString) (r : TWords) (hres : AllVocab lm result)
    (h : Edits2Variant lm again lastLevel result s = .ok r) : AllVocab lm r := by
  have hbase : AllVocab lm (if lm.GetWord s ≠ [] then result ++ [lm.GetWord s] else result) := by
    by_cases hc : lm.GetWord s = []
    · simpa [hc] using hres
    · obtain ⟨h1, h2, h3⟩ := GetWord_of_ne_nil lm s hc
      simp only [ne_eq, hc, not_false_eq_true, if_true]
      intro v hv
      rcases List.mem_append.1 hv with hv | hv
      · exact hres v hv
      · rw [h1] at hv
        rw [List.mem_singleton.1 hv]
        exact ⟨h2, h3⟩
  unfold Edits2Variant at h
  simp only at h
  cases lastLevel with
  | true =>
    simp only [Bool.not_true, Bool.false_eq_true, if_false, Except.ok.injEq] at h
    exact h ▸ hbase
  | false =>
    simp only [Bool.not_false, if_true] at h
    cases hag : again s with
    | error e => rw [hag] at h; cases h
    | ok more =>
      rw [hag] at h
      simp only [Except.ok.injEq, AddVec] at h
      subst h
      intro v hv
      rcases List.mem_append.1 hv with hv | hv
      · exact hbase v hv
      · exact hagain s more hag v hv

theorem Edits2Step_vocab (lm : TLangModel) (again : WString → Except TAbort TWords)
    (hagain : ∀ s r, again s = .ok r → AllVocab lm r) (lastLevel : Bool) (w : WString)
    (result : TWords) (i : Nat) (r : TWords) (hres : AllVocab lm result)
    (h : Edits2Step lm again lastLevel w result i = .ok r) : AllVocab lm r := by
  unfold Edits2Step at h
  obtain ⟨r1, h1, h⟩ := except_bind_ok _ _ _ h
  obtain ⟨r2, h2, h⟩ := except_bind_ok _ _ _ h
  obtain ⟨r3, h3, h⟩ := except_bind_ok _ _ _ h
  have p1 : AllVocab lm r1 := by
    split at h1
    · exact Edits2Variant_vocab lm again hagain lastLevel _ _ _ hres h1
    · cases h1; exact hres
  have p2 : AllVocab lm r2 := by
    split at h2
    · exact Edits2Variant_vocab lm again hagain lastLevel _ _ _ p1 h2
    · cases h2; exact p1
  have p3 : AllVocab lm r3 := by
    split at h3
    · exact foldlM_ok_invariant (AllVocab lm) _
        (fun b a b' hb hf => Edits2Variant_vocab lm again hagain lastLevel _ _ _ hb hf) _ _ _ p2 h3
    · cases h3; exact p2
  exact foldlM_ok_invariant (AllVocab lm) _
    (fun b a b' hb hf => Edits2Variant_vocab lm again hagain lastLevel _ _ _ hb hf) _ _ _ p3 h

theorem Edits2_vocab (lm : TLangModel) (dflt : Bool) :
    ∀ (fuel : Nat) (w : TWord) (lastLevel : Bool) (r : TWords),
      Edits2 lm dflt fuel w lastLevel = .ok r → AllVocab lm r := by
  intro fuel
  induction fuel with
  | zero => intro w lastLevel r h; cases h
  | succ n ih =>
    intro w lastLevel r h
    unfold Edits2 at h
    refine foldlM_ok_invariant (AllVocab lm) _ ?_ _ _ _ ?_ h
    · intro b a b' hb hf
      exact Edits2Step_vocab lm _ (fun s r hr => ih s dflt r hr) lastLevel w b a b' hb hf
    · intro v hv; cases hv

theorem Edits2Variant_last (lm : TLangModel) (again : WString → Except TAbort TWords)
    (result : TWords) (s : WString) :
    ∃ r, Edits2Variant lm again true result s = .ok r := by
  unfold Edits2Variant
  exact ⟨_, rfl⟩

theorem Edits2Step_last (lm : TLangModel) (again : WString → Except TAbort TWords)
    (w : WString) (result : TWords) (i : Nat) :
    ∃ r, Edits2Step lm again true w result i = .ok r := by
  unfold Edits2Step
  have hv : ∀ (g : WChar → WString) (b : TWords),
      ∃ r, lm.Alphabet.foldlM (fun r ch => Edits2Variant lm again true r (g ch)) b = .ok r :=
    fun g b => foldlM_ok_of_step _ (fun b a => Edits2Variant_last lm again b (g a)) _ b
  have e1 : ∃ r1, (if i < w.length then
      Edits2Variant lm again true result (w.take i ++ w.drop (i + 1)) else .ok result) = .ok r1 := by
    split
    · exact Edits2Variant_last _ _ _ _
    · exact ⟨_, rfl⟩
  obtain ⟨r1, e1⟩ := e1
  have e2 : ∃ r2, (if i + 1 < w.length then
      Edits2Variant lm again true r1 (Transposed w i) else .ok r1) = .ok r2 := by
    split
    · exact Edits2Variant_last _ _ _ _
    · exact ⟨_, rfl⟩
  obtain ⟨r2, e2⟩ := e2
  have e3 : ∃ r3, (if i < w.length then
      lm.Alphabet.foldlM
        (fun r ch => Edits2Variant lm again true r (w.take i ++ [ch] ++ w.drop (i + 1))) r2
      else .ok r2) = .ok r3 := by
    split
    · exact hv _ _
    · exact ⟨_, rfl⟩
  obtain ⟨r3, e3⟩ := e3
  obtain ⟨r4, e4⟩ := hv (fun ch => w.take i ++ [ch] ++ w.drop i) r3
  refine ⟨r4, ?_⟩
  rw [e1, except_ok_bind, e2, except_ok_bind, e3, except_ok_bind]
  exact e4

theorem Edits2_last (lm : TLangModel) (dflt : Bool) (fuel : Nat) (w : TWord) :
    ∃ r, Edits2 lm dflt (fuel + 1) w true = .ok r := by
  unfold Edits2
  exact foldlM_ok_of_step _ (fun b a => Edits2Step_last lm _ w b a) _ _

theorem foldl_invariant {α β : Type} (P : β → Prop) (f : β → α → β) (l : List α)
    (hf : ∀ b a, a ∈ l → P b → P (f b a)) : ∀ b, P b → P (l.foldl f b) := by
  induction l with
  | nil => intro b hb; exact hb
  | cons a l ih =>
    intro b hb
    exact ih (fun b' a' ha' hb' => hf b' a' (List.mem_cons_of_mem _ ha') hb') _
      (hf b a (List.mem_cons_self _ _) hb)

theorem Edits_vocab (x : THeaders) (c : TSpellCorrector)
    (h1 : ∀ k id, id ∈ TDeletesFind c.Deletes1 k →
      c.LangModel.GetWordById id ∈ c.LangModel.Vocab)
    (h2 : ∀ k id, id ∈ TDeletesFind c.Deletes2 k →
      c.LangModel.GetWordById id ∈ c.LangModel.Vocab)
    (word : TWord) (lastLevel : Bool) :
    ∀ v ∈ Edits x c word lastLevel, v ∈ c.LangModel.Vocab := by
  unfold Edits
  simp only
  refine foldl_invariant (fun r : TWords => ∀ v ∈ r, v ∈ c.LangModel.Vocab) _ _ ?_ [] ?_
  · intro b a _ hb
    have hbase : ∀ v ∈ (if c.LangModel.GetWord a ≠ [] then b ++ [c.LangModel.GetWord a] else b),
        v ∈ c.LangModel.Vocab := by
      by_cases hc : c.LangModel.GetWord a = []
      · simpa [hc] using hb
      · obtain ⟨e1, e2, _⟩ := GetWord_of_ne_nil c.LangModel a hc
        simp only [ne_eq, hc, not_false_eq_true, if_true]
        intro v hv
        rcases List.mem_append.1 hv with hv | hv
        · exact hb v hv
        · rw [e1] at hv
          rw [List.mem_singleton.1 hv]
          exact e2
    have hd1 : ∀ v ∈ (if c.LangModel.GetWord a ≠ [] then b ++ [c.LangModel.GetWord a] else b) ++
        (TDeletesFind c.Deletes1 (x.WideToUTF8 a)).map c.LangModel.GetWordById,
        v ∈ c.LangModel.Vocab := by
      intro v hv
      rcases List.mem_append.1 hv with hv | hv
      · exact hbase v hv
      · obtain ⟨id, hid, rfl⟩ := List.mem_map.1 hv
        exact h1 _ id hid
    cases lastLevel with
    | true => simpa using hd1
    | false =>
      simp only [Bool.not_false, if_true]
      intro v hv
      rcases List.mem_append.1 hv with hv | hv
      · exact hd1 v hv
      · obtain ⟨id, hid, rfl⟩ := List.mem_map.1 hv
        exact h2 _ id hid
  · intro v hv; cases hv

/-! ### Ranking -/

theorem ScoreCandidate_word (x : THeaders) (c : TSpellCorrector) (sentence : TWords) (position : Nat)
    (w : TWord) (firstLevel : Bool) (cand : TWord) :
    (ScoreCandidate x c sentence position w firstLevel cand).Word = cand := rfl

theorem RankCandidates_eq (x : THeaders) (c : TSpellCorrector) (sentence : TWords) (position : Nat)
    (candidates : TWords) (firstLevel : Bool) :
    RankCandidates x c sentence position candidates firstLevel =
      (((WithIdentity c.LangModel sentence position candidates).dedup.map
        (ScoreCandidate x c sentence position
          (if c.LangModel.GetWord (sentence.getD position []) ≠ [] then
            c.LangModel.GetWord (sentence.getD position []) else sentence.getD position [])
          firstLevel)).insertionSort ScoreGe).map TScoredWord.Word := by
  unfold RankCandidates WithIdentity
  simp only
  generalize (if c.LangModel.GetWord (sentence.getD position []) ≠ [] then
      candidates ++ [c.LangModel.GetWord (sentence.getD position [])] else candidates) = l
  by_cases h : l = []
  · rw [h]; rfl
  · rw [if_neg h]

theorem RankCandidates_perm (x : THeaders) (c : TSpellCorrector) (sentence : TWords) (position : Nat)
    (candidates : TWords) (firstLevel : Bool) :
    (RankCandidates x c sentence position candidates firstLevel).Perm
      (WithIdentity c.LangModel sentence position candidates).dedup := by
  rw [RankCandidates_eq]
  refine ((List.perm_insertionSort ScoreGe _).map TScoredWord.Word).trans ?_
  rw [List.map_map]
  have : (TScoredWord.Word ∘ ScoreCandidate x c sentence position
      (if c.LangModel.GetWord (sentence.getD position []) ≠ [] then
        c.LangModel.GetWord (sentence.getD position []) else sentence.getD position [])
      firstLevel) = id := by
    funext cand; rfl
  rw [this, List.map_id]

theorem mem_RankCandidates (x : THeaders) (c : TSpellCorrector) (sentence : TWords) (position : Nat)
    (candidates : TWords) (firstLevel : Bool) (v : TWord) :
    v ∈ RankCandidates x c sentence position candidates firstLevel ↔
      v ∈ WithIdentity c.LangModel sentence position candidates := by
  rw [(RankCandidates_perm x c sentence position candidates firstLevel).mem_iff, List.mem_dedup]

theorem mem_WithIdentity (lm : TLangModel) (sentence : TWords) (position : Nat)
    (candidates : TWords) (v : TWord) (hv : v ∈ WithIdentity lm sentence position candidates) :
    v ∈ candidates ∨ (v = sentence.getD position [] ∧ v ∈ lm.Vocab ∧ v ≠ []) := by
  unfold WithIdentity at hv
  by_cases hc : lm.GetWord (sentence.getD position []) = []
  · simp only [ne_eq, hc, not_true_eq_false, if_false] at hv
    exact Or.inl hv
  · obtain ⟨e1, e2, e3⟩ := GetWord_of_ne_nil lm _ hc
    rw [if_pos hc, e1] at hv
    rcases List.mem_append.1 hv with hv | hv
    · exact Or.inl hv
    · rw [List.mem_singleton.1 hv]
      exact Or.inr ⟨rfl, e2, e3⟩

/-- The value `GetCandidatesRaw` returns, given what `Edits2` returned. -/
theorem GetCandidatesRaw_of_Edits2 (x : THeaders) (fuel : Nat) (c : TSpellCorrector)
    (sentence : TWords) (position : Nat) (hp : position < sentence.length) (cands : TWords)
    (h : Edits2 c.LangModel x.Edits2LastLevel fuel (sentence.getD position [])
      x.Edits2LastLevel = .ok cands) :
    GetCandidatesRaw x fuel c sentence position =
      .ok (RankCandidates x c sentence position
        (if cands = [] then Edits x c (sentence.getD position []) false else cands)
        (decide (cands ≠ []))) := by
  unfold GetCandidatesRaw
  simp only [ge_iff_le, Nat.not_le.2 hp, if_false, h]
  by_cases hc : cands = [] <;> simp [hc]

theorem GetCandidatesRaw_ok (x : THeaders) (fuel : Nat) (c : TSpellCorrector)
    (sentence : TWords) (position : Nat) (r : TWords)
    (h : GetCandidatesRaw x fuel c sentence position = .ok r) :
    (sentence.length ≤ position ∧ r = []) ∨
    (position < sentence.length ∧ ∃ cands,
      Edits2 c.LangModel x.Edits2LastLevel fuel (sentence.getD position [])
        x.Edits2LastLevel = .ok cands ∧
      r = RankCandidates x c sentence position
        (if cands = [] then Edits x c (sentence.getD position []) false else cands)
        (decide (cands ≠ []))) := by
  by_cases hp : position < sentence.length
  · right
    refine ⟨hp, ?_⟩
    cases he : Edits2 c.LangModel x.Edits2LastLevel fuel (sentence.getD position [])
        x.Edits2LastLevel with
    | error e =>
      unfold GetCandidatesRaw at h
      simp only [ge_iff_le, Nat.not_le.2 hp, if_false, he] at h
      cases h
    | ok cands =>
      rw [GetCandidatesRaw_of_Edits2 x fuel c sentence position hp cands he] at h
      exact ⟨cands, rfl, (Except.ok.inj h).symm⟩
  · left
    unfold GetCandidatesRaw at h
    simp only [ge_iff_le, Nat.not_lt.1 hp, if_true] at h
    exact ⟨Nat.not_lt.1 hp, (Except.ok.inj h).symm⟩

theorem GetCandidatesRaw_returns (x : THeaders) (hd : x.Edits2LastLevel = true) (fuel : Nat)
    (c : TSpellCorrector) (sentence : TWords) (position : Nat) :
    ∃ r, GetCandidatesRaw x (fuel + 1) c sentence position = .ok r := by
  by_cases hp : position < sentence.length
  · obtain ⟨cands, hc⟩ := Edits2_last c.LangModel x.Edits2LastLevel fuel (sentence.getD position [])
    rw [← hd] at hc
    exact ⟨_, GetCandidatesRaw_of_Edits2 x (fuel + 1) c sentence position hp cands hc⟩
  · refine ⟨[], ?_⟩
    unfold GetCandidatesRaw
    simp only [ge_iff_le, Nat.not_lt.1 hp, if_true]

/-! ### Claims on the candidates -/

/-- C1: on a corrector whose deletes indexes were built by `PrepareCache` from its
vocabulary, and whose language model resolves the ids it assigned to vocabulary words,
every word `GetCandidatesRaw` returns is the query word or a word of the vocabulary; with
`lastLevel = true` as the default of `Edits2` the call returns for every positive fuel. -/
theorem GetCandidatesRaw_in_vocabulary (x : THeaders) (c0 : TSpellCorrector)
    (hid : ∀ v ∈ c0.LangModel.Vocab,
      c0.LangModel.GetWordById (c0.LangModel.GetWordIdNoCreate v) ∈ c0.LangModel.Vocab)
    (sentence : TWords) (position : Nat) :
    (∀ fuel r, GetCandidatesRaw x fuel (PrepareCache x c0) sentence position = .ok r →
      ∀ w ∈ r, w = sentence.getD position [] ∨ w ∈ c0.LangModel.Vocab) ∧
    (x.Edits2LastLevel = true →
      ∀ fuel, ∃ r, GetCandidatesRaw x (fuel + 1) (PrepareCache x c0) sentence position = .ok r) := by
  obtain ⟨hlm, _, hd1, hd2⟩ := PrepareCache_spec x c0
  refine ⟨?_, fun hd fuel => GetCandidatesRaw_returns x hd fuel _ sentence position⟩
  intro fuel r hr w hw
  rcases GetCandidatesRaw_ok x fuel _ sentence position r hr with ⟨_, rfl⟩ | ⟨_, cands, he, rfl⟩
  · cases hw
  · rw [mem_RankCandidates] at hw
    rcases mem_WithIdentity _ _ _ _ _ hw with hw | ⟨hw, _, _⟩
    · right
      by_cases hc : cands = []
      · rw [if_pos hc] at hw
        have h := Edits_vocab x (PrepareCache x c0) ?_ ?_ _ false w hw
        · rw [hlm] at h; exact h
        · intro k id hk
          obtain ⟨it, hit, rfl, _⟩ := (hd1 k id).1 hk
          rw [hlm]
          exact hid it.1 (List.mem_map_of_mem Prod.fst hit)
        · intro k id hk
          obtain ⟨it, hit, rfl, _⟩ := (hd2 k id).1 hk
          rw [hlm]
          exact hid it.1 (List.mem_map_of_mem Prod.fst hit)
      · rw [if_neg hc] at hw
        have h := (Edits2_vocab _ _ fuel _ _ cands he w hw).1
        rw [hlm] at h; exact h
    · exact Or.inl hw

theorem GetCandidatesRaw_in_vocabulary_witness :
    (∀ w ∈ ([[97, 98], [98, 97], [97, 98, 99]] : TWords),
      w = ([[97, 98], [98, 99, 100]] : TWords).getD 1 [] ∨ w ∈ SampleFresh.LangModel.Vocab) ∧
    ∃ r, GetCandidatesRaw SampleHeaders 1 (PrepareCache SampleHeaders SampleFresh)
      [[97, 98], [98, 99, 100]] 1 = .ok r :=
  ⟨(GetCandidatesRaw_in_vocabulary SampleHeaders SampleFresh (by decide)
      [[97, 98], [98, 99, 100]] 1).1 1 _ (by decide!),
   (GetCandidatesRaw_in_vocabulary SampleHeaders SampleFresh (by decide)
      [[97, 98], [98, 99, 100]] 1).2 rfl 0⟩

theorem identity_word_eq (lm : TLangModel) (w0 : TWord) :
    (if lm.GetWord w0 ≠ [] then lm.GetWord w0 else w0) = w0 := by
  by_cases hc : lm.GetWord w0 = []
  · rw [if_neg (not_not.2 hc)]
  · rw [if_pos hc]; exact (GetWord_of_ne_nil lm w0 hc).1

theorem ScoreCandidate_score (x : THeaders) (c : TSpellCorrector) (sentence : TWords) (position : Nat)
    (firstLevel : Bool) (cand : TWord) :
    (ScoreCandidate x c sentence position (sentence.getD position []) firstLevel cand).Score =
      AdjustedScore x c sentence position firstLevel cand := by
  unfold ScoreCandidate AdjustedScore
  by_cases h : cand = sentence.getD position []
  · simp [h]
  · cases firstLevel <;> simp [h]

/-- The scored candidates before they are sorted. -/
theorem RankCandidates_eq_adjusted (x : THeaders) (c : TSpellCorrector) (sentence : TWords) (position : Nat)
    (candidates : TWords) (firstLevel : Bool) :
    RankCandidates x c sentence position candidates firstLevel =
      (((WithIdentity c.LangModel sentence position candidates).dedup.map
        (fun cand => (⟨cand, AdjustedScore x c sentence position firstLevel cand⟩ : TScoredWord))
        ).insertionSort ScoreGe).map TScoredWord.Word := by
  rw [RankCandidates_eq, identity_word_eq]
  congr 3
  funext cand
  have h := ScoreCandidate_score x c sentence position firstLevel cand
  have h2 := ScoreCandidate_word x c sentence position (sentence.getD position []) firstLevel cand
  generalize ScoreCandidate x c sentence position (sentence.getD position []) firstLevel cand = sc
    at h h2
  cases sc
  simp only at h h2
  rw [h, h2]

theorem RankCandidates_sorted (x : THeaders) (c : TSpellCorrector) (sentence : TWords) (position : Nat)
    (candidates : TWords) (firstLevel : Bool) :
    List.Sorted (· ≥ ·) ((RankCandidates x c sentence position candidates firstLevel).map
      (AdjustedScore x c sentence position firstLevel)) := by
  rw [RankCandidates_eq_adjusted, List.map_map]
  generalize hD : (WithIdentity c.LangModel sentence position candidates).dedup = D
  have hs := List.sorted_insertionSort ScoreGe (D.map
    (fun cand => (⟨cand, AdjustedScore x c sentence position firstLevel cand⟩ : TScoredWord)))
  have hm : ∀ sw ∈ (D.map (fun cand =>
      (⟨cand, AdjustedScore x c sentence position firstLevel cand⟩ : TScoredWord))).insertionSort
        ScoreGe, sw.Score = AdjustedScore x c sentence position firstLevel sw.Word := by
    intro sw hsw
    rw [List.mem_insertionSort] at hsw
    obtain ⟨cand, _, rfl⟩ := List.mem_map.1 hsw
    rfl
  generalize (D.map (fun cand =>
      (⟨cand, AdjustedScore x c sentence position firstLevel cand⟩ : TScoredWord))).insertionSort
        ScoreGe = L at hs hm
  unfold List.Sorted at hs ⊢
  rw [List.pairwise_map]
  refine hs.imp_of_mem ?_
  intro a b ha hb hab
  simp only [Function.comp, ge_iff_le]
  rw [← hm a ha, ← hm b hb]
  exact hab

/-- C2: for an in-range position the list `GetCandidatesRaw` returns is ordered best first:
the adjusted scores (the window score for the identity candidate, the score minus `Penalty`
for the others when `Edits2` gave candidates, the score times 50 for the others in the
fallback, minus and times being the rounding operations of `double` whose results the sort
compares) do not increase along the list, whatever these operations round to; with
`lastLevel = true` as the default of `Edits2` the call returns for every positive fuel. -/
theorem GetCandidatesRaw_best_first (x : THeaders) (c : TSpellCorrector) (sentence : TWords)
    (position : Nat) (hp : position < sentence.length) :
    (∀ fuel cands r,
      Edits2 c.LangModel x.Edits2LastLevel fuel (sentence.getD position [])
        x.Edits2LastLevel = .ok cands →
      GetCandidatesRaw x fuel c sentence position = .ok r →
      List.Sorted (· ≥ ·)
        (r.map (AdjustedScore x c sentence position (decide (cands ≠ []))))) ∧
    (x.Edits2LastLevel = true →
      ∀ fuel, ∃ r, GetCandidatesRaw x (fuel + 1) c sentence position = .ok r) := by
  refine ⟨?_, fun hd fuel => GetCandidatesRaw_returns x hd fuel c sentence position⟩
  intro fuel cands r he hr
  rw [GetCandidatesRaw_of_Edits2 x fuel c sentence position hp cands he] at hr
  rw [← Except.ok.inj hr]
  exact RankCandidates_sorted x c sentence position _ _

theorem GetCandidatesRaw_best_first_witness :
    List.Sorted (· ≥ ·)
      (([[97], [97, 98], [98, 97]] : TWords).map
        (AdjustedScore SampleHeaders SampleCorrector [[97, 98], [98]] 1
          (decide (([[97], [97, 98], [98, 97]] : TWords) ≠ [])))) ∧
    ∃ r, GetCandidatesRaw SampleHeaders 1 SampleCorrector [[97, 98], [98]] 1 = .ok r :=
  ⟨(GetCandidatesRaw_best_first SampleHeaders SampleCorrector [[97, 98], [98]] 1
      (by decide)).1 1 _ _ (by decide) (by decide!),
   (GetCandidatesRaw_best_first SampleHeaders SampleCorrector [[97, 98], [98]] 1
      (by decide)).2 rfl 0⟩

/-! ### Identity preference -/

theorem exists_strict_bound {α : Type} (f : α → ℚ) (l : List α) :
    ∃ B : ℚ, ∀ a ∈ l, f a < B := by
  induction l with
  | nil => exact ⟨0, fun a ha => by cases ha⟩
  | cons a l ih =>
    obtain ⟨B, hB⟩ := ih
    refine ⟨max B (f a + 1), ?_⟩
    intro b hb
    rcases List.mem_cons.1 hb with rfl | hb
    · exact lt_of_lt_of_le (lt_add_one _) (le_max_right _ _)
    · exact lt_of_lt_of_le (hB b hb) (le_max_left _ _)

/-- The first element of a sorted list of scored words carries a score that no element of
the list exceeds. -/
theorem head_of_sorted (a : TScoredWord) (t L : List TScoredWord)
    (hL : L.insertionSort ScoreGe = a :: t) : ∀ b ∈ L, b.Score ≤ a.Score := by
  intro b hb
  have hs := List.sorted_insertionSort ScoreGe L
  rw [hL] at hs
  have hb2 : b ∈ a :: t := by rw [← hL]; exact (List.mem_insertionSort ScoreGe).2 hb
  rcases List.mem_cons.1 hb2 with rfl | hb2
  · exact le_rfl
  · exact List.rel_of_sorted_cons hs b hb2

theorem RankCandidates_head_identity (x : THeaders) (c : TSpellCorrector) (sentence : TWords) (position : Nat)
    (candidates : TWords)
    (hw : sentence.getD position [] ∈ c.LangModel.Vocab) (hne : sentence.getD position [] ≠ [])
    (hpen : ∀ cand ∈ WithIdentity c.LangModel sentence position candidates,
      cand ≠ sentence.getD position [] →
      x.DoubleSub (c.LangModel.Score (CandSentence sentence position cand)) c.Penalty <
        c.LangModel.Score (CandSentence sentence position (sentence.getD position []))) :
    ∃ rest, RankCandidates x c sentence position candidates true =
      sentence.getD position [] :: rest := by
  rw [RankCandidates_eq_adjusted]
  have hmem : sentence.getD position [] ∈
      (WithIdentity c.LangModel sentence position candidates).dedup := by
    rw [List.mem_dedup]
    unfold WithIdentity
    rw [GetWord_of_mem _ _ hw, if_pos hne]
    exact List.mem_append_right _ (List.mem_singleton_self _)
  have hsub : ∀ cand ∈ (WithIdentity c.LangModel sentence position candidates).dedup,
      cand ∈ WithIdentity c.LangModel sentence position candidates :=
    fun cand h => List.mem_dedup.1 h
  generalize (WithIdentity c.LangModel sentence position candidates).dedup = D at hmem hsub
  cases hL : (D.map (fun cand =>
      (⟨cand, AdjustedScore x c sentence position true cand⟩ : TScoredWord))).insertionSort
        ScoreGe with
  | nil =>
    have := congrArg List.length hL
    rw [List.length_insertionSort, List.length_map] at this
    rw [List.length_eq_zero.1 this] at hmem
    cases hmem
  | cons a t =>
    refine ⟨t.map TScoredWord.Word, ?_⟩
    rw [List.map_cons]
    congr 1
    have ha : a ∈ D.map (fun cand =>
        (⟨cand, AdjustedScore x c sentence position true cand⟩ : TScoredWord)) := by
      rw [← List.mem_insertionSort ScoreGe, hL]
      exact List.mem_cons_self _ _
    obtain ⟨cand, hcand, rfl⟩ := List.mem_map.1 ha
    by_contra hcw
    have htop := head_of_sorted _ t _ hL
      ⟨sentence.getD position [],
        AdjustedScore x c sentence position true (sentence.getD position [])⟩
      (List.mem_map_of_mem _ hmem)
    simp only at htop hcw
    have hlt := hpen cand (hsub cand hcand) hcw
    unfold AdjustedScore at htop
    simp only [if_true, if_neg hcw] at htop
    exact absurd htop (not_le.2 hlt)

theorem GetCandidatesRaw_fallback_penalty (x : THeaders) (fuel : Nat) (c : TSpellCorrector)
    (P : ℚ) (sentence : TWords) (position : Nat)
    (he : Edits2 c.LangModel x.Edits2LastLevel fuel (sentence.getD position [])
      x.Edits2LastLevel = .ok []) :
    GetCandidatesRaw x fuel { c with Penalty := P } sentence position =
      GetCandidatesRaw x fuel c sentence position := by
  by_cases hp : position < sentence.length
  · rw [GetCandidatesRaw_of_Edits2 x fuel c sentence position hp [] he,
      GetCandidatesRaw_of_Edits2 x fuel { c with Penalty := P } sentence position hp [] he]
    rw [RankCandidates_eq_adjusted, RankCandidates_eq_adjusted]
    rfl
  · unfold GetCandidatesRaw
    simp only [ge_iff_le, Nat.not_lt.1 hp, if_true]

/-- A rounded difference whose relative error is below one lies under any given bound once
the subtrahend is large enough. -/
theorem DoubleSub_below (x : THeaders) (u : ℚ) (hu : u < 1)
    (hsub : ∀ a b : ℚ, |x.DoubleSub a b - (a - b)| ≤ u * |a - b|) (s t P : ℚ)
    (h1 : s < P) (h2 : s - t / (1 - u) < P) : x.DoubleSub s P < t := by
  have hd : s - P < 0 := by linarith
  have hu1 : 0 < 1 - u := by linarith
  have h := hsub s P
  rw [abs_of_neg hd] at h
  have h3 : x.DoubleSub s P - (s - P) ≤ u * -(s - P) := le_trans (le_abs_self _) h
  have h4 : (s - P) * (1 - u) < t := by
    have h5 : s - P < t / (1 - u) := by linarith
    calc (s - P) * (1 - u) < t / (1 - u) * (1 - u) := mul_lt_mul_of_pos_right h5 hu1
      _ = t := div_mul_cancel₀ t (ne_of_gt hu1)
  nlinarith

/-- C3 (amended): when the token at an in-range position is a non-empty vocabulary word and
`Edits2` gave at least one candidate for it, there is a threshold such that under every
`Penalty` from the threshold on `GetCandidatesRaw` returns a list headed by the token; the
subtraction of `double` is taken to round with a relative error of at most `u < 1` (for
`double`, `u = 2⁻⁵³`). -/
theorem identity_preferred_at_high_penalty (x : THeaders) (u : ℚ) (hu : u < 1)
    (hsub : ∀ a b : ℚ, |x.DoubleSub a b - (a - b)| ≤ u * |a - b|) (c : TSpellCorrector)
    (sentence : TWords) (position : Nat) (hp : position < sentence.length)
    (hw : sentence.getD position [] ∈ c.LangModel.Vocab) (hne : sentence.getD position [] ≠ [])
    (fuel : Nat) (cands : TWords)
    (he : Edits2 c.LangModel x.Edits2LastLevel fuel (sentence.getD position [])
      x.Edits2LastLevel = .ok cands)
    (hc : cands ≠ []) :
    ∃ P0 : ℚ, ∀ P : ℚ, P0 ≤ P →
      ∃ rest, GetCandidatesRaw x fuel { c with Penalty := P } sentence position =
        .ok (sentence.getD position [] :: rest) := by
  obtain ⟨B, hB⟩ := exists_strict_bound
    (fun cand => max (c.LangModel.Score (CandSentence sentence position cand))
      (c.LangModel.Score (CandSentence sentence position cand) -
        c.LangModel.Score (CandSentence sentence position (sentence.getD position [])) /
          (1 - u)))
    (WithIdentity c.LangModel sentence position cands)
  refine ⟨B, fun P hP => ?_⟩
  rw [GetCandidatesRaw_of_Edits2 x fuel { c with Penalty := P } sentence position hp cands he]
  rw [if_neg hc]
  have hd : decide (cands ≠ []) = true := decide_eq_true hc
  rw [hd]
  obtain ⟨rest, hrest⟩ := RankCandidates_head_identity x { c with Penalty := P } sentence position
    cands hw hne (by
      intro cand hcand _
      have h := lt_of_lt_of_le (hB cand hcand) hP
      exact DoubleSub_below x u hu hsub _ _ P (lt_of_le_of_lt (le_max_left _ _) h)
        (lt_of_le_of_lt (le_max_right _ _) h))
  exact ⟨rest, by rw [hrest]⟩

theorem identity_preferred_at_high_penalty_witness :
    ∃ P0 : ℚ, ∀ P : ℚ, P0 ≤ P →
      ∃ rest, GetCandidatesRaw SampleHeaders 1 { SampleCorrector with Penalty := P }
        [[97, 98], [97]] 1 = .ok (([[97, 98], [97]] : TWords).getD 1 [] :: rest) :=
  identity_preferred_at_high_penalty SampleHeaders (1 / 2 ^ 53) (by norm_num)
    (fun a b => by
      have h : SampleHeaders.DoubleSub a b = a - b := rfl
      rw [h, sub_self, abs_zero]
      positivity)
    SampleCorrector [[97, 98], [97]] 1
    (by decide) (by decide) (by decide) 1 [[97], [98, 97], [97, 98]]
    (by decide) (by decide)

/-- C3 (as stated) fails in the fallback: the token "é" is a vocabulary word without
candidates from `Edits2`, and under every `Penalty` the list `GetCandidatesRaw` returns is
"éè", "é": it is headed by "éè", whose score times 50 exceeds the score of the token. -/
theorem identity_not_preferred_in_fallback :
    ([[233]] : TWords).getD 0 [] ∈ AccentCorrector.LangModel.Vocab ∧
    (∀ P : ℚ, GetCandidatesRaw SampleHeaders 1 { AccentCorrector with Penalty := P }
      [[233]] 0 = .ok [[233, 232], [233]]) ∧
    ¬ ∃ P0 : ℚ, ∀ P : ℚ, P0 ≤ P →
      ∃ rest, GetCandidatesRaw SampleHeaders 1 { AccentCorrector with Penalty := P }
        [[233]] 0 = .ok (([[233]] : TWords).getD 0 [] :: rest) := by
  have hv : ∀ P : ℚ, GetCandidatesRaw SampleHeaders 1 { AccentCorrector with Penalty := P }
      [[233]] 0 = .ok [[233, 232], [233]] := by
    intro P
    rw [GetCandidatesRaw_fallback_penalty SampleHeaders 1 AccentCorrector P [[233]] 0
      (by decide)]
    decide!
  refine ⟨by decide, hv, ?_⟩
  rintro ⟨P0, h⟩
  obtain ⟨rest, hr⟩ := h P0 le_rfl
  rw [hv P0] at hr
  have := Except.ok.inj hr
  simp at this

/-! ### Claims on the cache -/

/-- C7 (amended): after `PrepareCache`, for every vocabulary word `v`, the id of `v` is
stored in `Deletes1` under the key of every non-empty string obtained by deleting one
character of `v`, and in `Deletes2` under the key of every non-empty string obtained by
deleting two characters of `v`. -/
theorem PrepareCache_consistent (x : THeaders) (c : TSpellCorrector) (v : WString)
    (hv : v ∈ c.LangModel.Vocab) :
    (∀ i, i < v.length → v.eraseIdx i ≠ [] →
      c.LangModel.GetWordIdNoCreate v ∈
        TDeletesFind (PrepareCache x c).Deletes1 (x.WideToUTF8 (v.eraseIdx i))) ∧
    (∀ i j, i < v.length → j < (v.eraseIdx i).length → (v.eraseIdx i).eraseIdx j ≠ [] →
      c.LangModel.GetWordIdNoCreate v ∈
        TDeletesFind (PrepareCache x c).Deletes2
          (x.WideToUTF8 ((v.eraseIdx i).eraseIdx j))) := by
  obtain ⟨_, _, hd1, hd2⟩ := PrepareCache_spec x c
  obtain ⟨it, hit, rfl⟩ := List.mem_map.1 hv
  constructor
  · intro i hi hne
    exact (hd1 _ _).2 ⟨it, hit, rfl, _, (mem_GetDeletes1 _ _).2 ⟨hne, i, hi, rfl⟩, rfl⟩
  · intro i j hi hj hne
    exact (hd2 _ _).2 ⟨it, hit, rfl, _, (mem_GetDeletes2 _ _).2 ⟨hne, i, j, hi, hj, rfl⟩, rfl⟩

theorem PrepareCache_consistent_witness :
    SampleFresh.LangModel.GetWordIdNoCreate [97, 98, 99] ∈
      TDeletesFind (PrepareCache SampleHeaders SampleFresh).Deletes1
        (SampleHeaders.WideToUTF8 (([97, 98, 99] : WString).eraseIdx 1)) ∧
    SampleFresh.LangModel.GetWordIdNoCreate [97, 98, 99] ∈
      TDeletesFind (PrepareCache SampleHeaders SampleFresh).Deletes2
        (SampleHeaders.WideToUTF8 ((([97, 98, 99] : WString).eraseIdx 0).eraseIdx 0)) :=
  ⟨(PrepareCache_consistent SampleHeaders SampleFresh [97, 98, 99] (by decide)).1 1
      (by decide) (by decide),
   (PrepareCache_consistent SampleHeaders SampleFresh [97, 98, 99] (by decide)).2 0 0
      (by decide) (by decide) (by decide)⟩

/-- C7 (as stated) fails for the empty string: deleting the one character of the vocabulary
word "a" leaves the empty string, and the id of "a" is not stored under its key. -/
theorem PrepareCache_skips_empty_delete :
    ([97] : WString) ∈ SampleFresh.LangModel.Vocab ∧
    0 < ([97] : WString).length ∧
    SampleFresh.LangModel.GetWordIdNoCreate [97] ∉
      TDeletesFind (PrepareCache SampleHeaders SampleFresh).Deletes1
        (SampleHeaders.WideToUTF8 (([97] : WString).eraseIdx 0)) := by
  decide

/-! ### Splicing the corrected words into the text -/

theorem CopyGap_spec (text : WString) (limit : Nat) (hl : limit ≤ text.length) :
    ∀ (n : Nat) (result : WString) (origPos : Nat), origPos + n = limit →
      CopyGap text limit n result origPos = .ok (result ++ (text.drop origPos).take n, limit) := by
  intro n
  induction n with
  | zero =>
    intro result origPos h
    simp only [Nat.add_zero] at h
    simp [CopyGap, h]
  | succ n ih =>
    intro result origPos h
    have hlt : origPos < limit := by omega
    have hlen : origPos < text.length := by omega
    unfold CopyGap
    rw [if_pos hlt]
    have hat : WStringAt text origPos = .ok text[origPos] := by
      unfold WStringAt
      rw [List.getElem?_eq_getElem hlen]
    rw [hat]
    simp only
    rw [ih (result ++ [text[origPos]]) (origPos + 1) (by omega)]
    rw [List.drop_eq_getElem_cons hlen, List.take_succ_cons]
    simp

theorem CopyGap_none (text : WString) (limit : Nat) (result : WString) (origPos : Nat)
    (h : limit ≤ origPos) :
    CopyGap text limit (limit - origPos) result origPos = .ok (result, origPos) := by
  rw [Nat.sub_eq_zero_of_le h]
  rfl

theorem foldlM_push {α : Type} (f : WString → α → Except TAbort WString) (g : α → WChar)
    (l : List α) (hf : ∀ b a, a ∈ l → f b a = .ok (b ++ [g a])) :
    ∀ b, l.foldlM f b = .ok (b ++ l.map g) := by
  induction l with
  | nil => intro b; simp [pure, Except.pure]
  | cons a l ih =>
    intro b
    rw [List.foldlM_cons, hf b a (List.mem_cons_self _ _), except_ok_bind,
      ih (fun b' a' ha' => hf b' a' (List.mem_cons_of_mem _ ha'))]
    simp

theorem ProjectCase_spec (x : THeaders) (newWord origWord result : WString)
    (ho : origWord ≠ []) :
    ProjectCase x newWord origWord result = .ok (result ++ CaseProjected x newWord origWord) := by
  unfold ProjectCase CaseProjected
  apply foldlM_push
  intro b k _
  have hpos : 0 < origWord.length := List.length_pos.2 ho
  have hn : (if k < origWord.length then k else origWord.length - 1) < origWord.length := by
    split <;> omega
  simp only
  rw [List.getElem?_eq_getElem hn, List.getD_eq_getElem _ _ hn]

theorem TSpan_Str_ne_nil (text : WString) (t : TSpan) (h1 : 0 < t.Len)
    (h2 : t.Ptr + t.Len ≤ text.length) : t.Str text ≠ [] := by
  unfold TSpan.Str
  intro h
  have := congrArg List.length h
  simp only [List.length_take, List.length_drop, List.length_nil] at this
  omega

theorem TokensOrdered_le : ∀ (ts : List TSpan) (pos len : Nat),
    TokensOrdered pos ts len → pos ≤ len := by
  intro ts
  induction ts with
  | nil => intro pos len h; exact h
  | cons t ts ih =>
    intro pos len h
    obtain ⟨h1, h2, h3⟩ := h
    have := ih _ _ h3
    omega

/-- The effect of one pass through the inner loop of `FixFragment`. -/
theorem FixFragmentWord_spec (x : THeaders) (fuel : Nat) (c : TSpellCorrector) (text : WString)
    (origWords : List TSpan) (st : TFixState) (j : Nat) (orig : TSpan) (cands : TWords)
    (hj : origWords[j]? = some orig)
    (hc : GetCandidatesRaw x fuel c st.Words j = .ok cands)
    (h1 : st.OrigPos ≤ orig.Ptr) (h2 : 0 < orig.Len) (h3 : orig.Ptr + orig.Len ≤ text.length) :
    FixFragmentWord x fuel c text origWords st j = .ok
      { Words := TakeTop st.Words j cands,
        Result := st.Result ++ Gap text st.OrigPos orig ++
          WordText x ((TakeTop st.Words j cands).getD j []) (orig.Str text) (st.Words.getD j []),
        OrigPos := orig.Ptr + orig.Len } := by
  unfold FixFragmentWord
  rw [hj]
  simp only
  rw [hc, except_ok_bind,
    CopyGap_spec text orig.Ptr (by omega) (orig.Ptr - st.OrigPos) st.Result st.OrigPos (by omega),
    except_ok_bind]
  simp only
  unfold WordText Gap
  by_cases hne : (TakeTop st.Words j cands).getD j [] = st.Words.getD j []
  · rw [if_neg (not_not.2 hne), if_neg (not_not.2 hne), except_ok_bind]
  · rw [if_pos hne, if_pos hne, ProjectCase_spec x _ _ _ (TSpan_Str_ne_nil text orig h2 h3),
      except_ok_bind]

theorem EndPos_append : ∀ (a b : List TSpan) (pos : Nat),
    EndPos pos (a ++ b) = EndPos (EndPos pos a) b := by
  intro a
  induction a with
  | nil => intro b pos; rfl
  | cons t ts ih => intro b pos; exact ih b _

theorem Splice_append (text : WString) : ∀ (a b : List TSpan) (oa ob : List WString) (pos : Nat),
    oa.length = a.length →
    Splice text pos (a ++ b) (oa ++ ob) =
      Splice text pos a oa ++ Splice text (EndPos pos a) b ob := by
  intro a
  induction a with
  | nil =>
    intro b oa ob pos h
    rw [List.length_eq_zero.1 h]
    rfl
  | cons t ts ih =>
    intro b oa ob pos h
    cases oa with
    | nil => cases h
    | cons o os =>
      have e := ih b os ob (t.Ptr + t.Len) (by simpa using h)
      show Gap text pos t ++ o ++ Splice text (t.Ptr + t.Len) (ts ++ b) (os ++ ob) =
        Gap text pos t ++ o ++ Splice text (t.Ptr + t.Len) ts os ++
          Splice text (EndPos (t.Ptr + t.Len) ts) b ob
      rw [e]
      simp

theorem Interleave_eq_Splice (text : WString) : ∀ (ts : List TSpan) (outs : List WString)
    (pos : Nat), outs.length = ts.length →
    Interleave text pos ts outs = Splice text pos ts outs ++ text.drop (EndPos pos ts) := by
  intro ts
  induction ts with
  | nil => intro outs pos _; simp [Interleave, Splice, EndPos]
  | cons t ts ih =>
    intro outs pos h
    cases outs with
    | nil => cases h
    | cons o os =>
      simp only [Interleave, Splice, EndPos]
      rw [ih os _ (by simpa using h)]
      simp

theorem TokensOrdered_append : ∀ (a b : List TSpan) (pos len : Nat),
    TokensOrdered pos (a ++ b) len →
      TokensOrdered pos a len ∧ TokensOrdered (EndPos pos a) b len := by
  intro a
  induction a with
  | nil =>
    intro b pos len h
    exact ⟨TokensOrdered_le _ _ _ h, h⟩
  | cons t ts ih =>
    intro b pos len h
    obtain ⟨h1, h2, h3⟩ := h
    obtain ⟨g1, g2⟩ := ih b _ _ h3
    exact ⟨⟨h1, h2, g1⟩, g2⟩

/-- The inner loop of `FixFragment` from the word index `s` on, when every call of
`GetCandidatesRaw` on words satisfying `Inv` returns, keeps `Inv` and leads to a text
accepted by `Out`. -/
theorem FixFragment_words (x : THeaders) (fuel : Nat) (c : TSpellCorrector) (text : WString)
    (origWords : List TSpan) (Inv : TWords → Prop) (Out : TSpan → WString → Prop)
    (hstep : ∀ words j orig, Inv words → origWords[j]? = some orig →
      ∃ r, GetCandidatesRaw x fuel c words j = .ok r ∧ Inv (TakeTop words j r) ∧
        Out orig (WordText x ((TakeTop words j r).getD j []) (orig.Str text)
          (words.getD j []))) :
    ∀ (m s : Nat) (st : TFixState), s + m = origWords.length → Inv st.Words →
      TokensOrdered st.OrigPos (origWords.drop s) text.length →
      ∃ outs st', List.Forall₂ Out (origWords.drop s) outs ∧
        (List.range' s m).foldlM (FixFragmentWord x fuel c text origWords) st = .ok st' ∧
        st'.Result = st.Result ++ Splice text st.OrigPos (origWords.drop s) outs ∧
        st'.OrigPos = EndPos st.OrigPos (origWords.drop s) ∧ Inv st'.Words := by
  intro m
  induction m with
  | zero =>
    intro s st hs hinv _
    have hdrop : origWords.drop s = [] := List.drop_eq_nil_of_le (by omega)
    refine ⟨[], st, ?_, rfl, ?_, ?_, hinv⟩
    · rw [hdrop]; exact List.Forall₂.nil
    · rw [hdrop]; simp [Splice]
    · rw [hdrop]; rfl
  | succ m ih =>
    intro s st hs hinv hord
    have hlt : s < origWords.length := by omega
    have hdrop : origWords.drop s = origWords[s] :: origWords.drop (s + 1) :=
      List.drop_eq_getElem_cons hlt
    rw [hdrop] at hord ⊢
    obtain ⟨h1, h2, h3⟩ := hord
    have hget : origWords[s]? = some origWords[s] := List.getElem?_eq_getElem hlt
    obtain ⟨r, hr, hinv', hout⟩ := hstep st.Words s origWords[s] hinv hget
    have hend := TokensOrdered_le _ _ _ h3
    have hw := FixFragmentWord_spec x fuel c text origWords st s origWords[s] r hget hr h1 h2 hend
    obtain ⟨outs, st', ho, hf, hres, hpos, hinv''⟩ := ih (s + 1)
      { Words := TakeTop st.Words s r,
        Result := st.Result ++ Gap text st.OrigPos origWords[s] ++
          WordText x ((TakeTop st.Words s r).getD s []) (origWords[s].Str text)
            (st.Words.getD s []),
        OrigPos := origWords[s].Ptr + origWords[s].Len } (by omega) hinv' h3
    refine ⟨_ :: outs, st', List.Forall₂.cons hout ho, ?_, ?_, ?_, hinv''⟩
    · rw [List.range'_succ, List.foldlM_cons, hw, except_ok_bind]
      exact hf
    · rw [hres]
      simp [Splice]
    · rw [hpos]
      rfl

theorem TokensOrdered_EndPos_le : ∀ (ts : List TSpan) (pos len : Nat),
    TokensOrdered pos ts len → EndPos pos ts ≤ len := by
  intro ts
  induction ts with
  | nil => intro pos len h; exact h
  | cons t ts ih => intro pos len h; exact ih _ _ h.2.2

/-- The outer loop of `FixFragment` from the sentence index `s` on. -/
theorem FixFragment_sentences (x : THeaders) (fuel : Nat) (c : TSpellCorrector)
    (text lowered : WString) (origSentences sentences : List (List TSpan))
    (hshape : origSentences.map List.length = sentences.map List.length)
    (Inv : Nat → TWords → Prop) (Out : TSpan → WString → Prop)
    (hinit : ∀ i, i < sentences.length → Inv i ((sentences.getD i []).map (TSpan.Str lowered)))
    (hstep : ∀ i origWords words j orig, origSentences[i]? = some origWords → Inv i words →
      origWords[j]? = some orig →
      ∃ r, GetCandidatesRaw x fuel c words j = .ok r ∧ Inv i (TakeTop words j r) ∧
        Out orig (WordText x ((TakeTop words j r).getD j []) (orig.Str text)
          (words.getD j []))) :
    ∀ (m s : Nat) (st : TFixState), s + m = sentences.length →
      TokensOrdered st.OrigPos (origSentences.drop s).flatten text.length →
      ∃ outs st', List.Forall₂ Out (origSentences.drop s).flatten outs ∧
        (List.range' s m).foldlM
          (FixFragmentSentence x fuel c text lowered origSentences sentences) st = .ok st' ∧
        st'.Result = st.Result ++ Splice text st.OrigPos (origSentences.drop s).flatten outs ∧
        st'.OrigPos = EndPos st.OrigPos (origSentences.drop s).flatten := by
  have hlen : origSentences.length = sentences.length := by
    simpa using congrArg List.length hshape
  intro m
  induction m with
  | zero =>
    intro s st hs _
    have hdrop : origSentences.drop s = [] := List.drop_eq_nil_of_le (by omega)
    refine ⟨[], st, ?_, rfl, ?_, ?_⟩
    · rw [hdrop]; exact List.Forall₂.nil
    · rw [hdrop]; simp [Splice]
    · rw [hdrop]; rfl
  | succ m ih =>
    intro s st hs hord
    have hlt : s < origSentences.length := by omega
    have hlt2 : s < sentences.length := by omega
    have hdrop : origSentences.drop s = origSentences[s] :: origSentences.drop (s + 1) :=
      List.drop_eq_getElem_cons hlt
    rw [hdrop, List.flatten_cons] at hord ⊢
    obtain ⟨ha, hb⟩ := TokensOrdered_append _ _ _ _ hord
    have hget : origSentences[s]? = some origSentences[s] := List.getElem?_eq_getElem hlt
    have hwlen : ((sentences.getD s []).map (TSpan.Str lowered)).length =
        origSentences[s].length := by
      have h1 : (origSentences.map List.length)[s]? = (sentences.map List.length)[s]? := by
        rw [hshape]
      rw [List.getElem?_map, List.getElem?_map, hget, List.getElem?_eq_getElem hlt2] at h1
      simp only [Option.map_some', Option.some.injEq] at h1
      rw [List.length_map, List.getD_eq_getElem _ _ hlt2, h1]
    obtain ⟨outs1, st1, ho1, hf1, hres1, hpos1, _⟩ :=
      FixFragment_words x fuel c text origSentences[s] (Inv s) Out
        (fun words j orig hi hj => hstep s origSentences[s] words j orig hget hi hj)
        origSentences[s].length 0
        { st with Words := (sentences.getD s []).map (TSpan.Str lowered) }
        (by omega) (hinit s hlt2) (by simpa using ha)
    rw [List.drop_zero] at ho1 hres1 hpos1
    have hsent : FixFragmentSentence x fuel c text lowered origSentences sentences st s =
        .ok st1 := by
      unfold FixFragmentSentence
      rw [hget]
      simp only
      rw [hwlen, List.range_eq_range']
      exact hf1
    obtain ⟨outs2, st2, ho2, hf2, hres2, hpos2⟩ := ih (s + 1) st1 (by omega)
      (by rw [hpos1]; exact hb)
    refine ⟨outs1 ++ outs2, st2, List.rel_append ho1 ho2, ?_, ?_, ?_⟩
    · rw [List.range'_succ, List.foldlM_cons, hsent, except_ok_bind]
      exact hf2
    · rw [hres2, hres1, hpos1, Splice_append text _ _ _ _ _ ho1.length_eq.symm]
      simp
    · rw [hpos2, hpos1, EndPos_append]

/-- The value of `FixFragment` on a text whose tokens are ordered. -/
theorem FixFragment_spliced (x : THeaders) (fuel : Nat) (c : TSpellCorrector) (text : WString)
    (hshape : (c.LangModel.Tokenize text).map List.length =
      (c.LangModel.Tokenize (x.ToLower text)).map List.length)
    (hord : TokensOrdered 0 (c.LangModel.Tokenize text).flatten text.length)
    (Inv : Nat → TWords → Prop) (Out : TSpan → WString → Prop)
    (hinit : ∀ i, i < (c.LangModel.Tokenize (x.ToLower text)).length →
      Inv i (((c.LangModel.Tokenize (x.ToLower text)).getD i []).map
        (TSpan.Str (x.ToLower text))))
    (hstep : ∀ i origWords words j orig, (c.LangModel.Tokenize text)[i]? = some origWords →
      Inv i words → origWords[j]? = some orig →
      ∃ r, GetCandidatesRaw x fuel c words j = .ok r ∧ Inv i (TakeTop words j r) ∧
        Out orig (WordText x ((TakeTop words j r).getD j []) (orig.Str text)
          (words.getD j []))) :
    ∃ outs, List.Forall₂ Out (c.LangModel.Tokenize text).flatten outs ∧
      FixFragment x fuel c text =
        .ok (Interleave text 0 (c.LangModel.Tokenize text).flatten outs) := by
  obtain ⟨outs, st', ho, hf, hres, hpos⟩ :=
    FixFragment_sentences x fuel c text (x.ToLower text) (c.LangModel.Tokenize text)
      (c.LangModel.Tokenize (x.ToLower text)) hshape Inv Out hinit hstep
      (c.LangModel.Tokenize (x.ToLower text)).length 0
      { Words := [], Result := [], OrigPos := 0 } (by omega) (by simpa using hord)
  rw [List.drop_zero] at ho hres hpos
  refine ⟨outs, ho, ?_⟩
  have hle : st'.OrigPos ≤ text.length := by
    rw [hpos]; exact TokensOrdered_EndPos_le _ _ _ hord
  unfold FixFragment
  simp only
  rw [List.range_eq_range', hf, except_ok_bind,
    CopyGap_spec text text.length le_rfl _ st'.Result st'.OrigPos (by omega), except_ok_bind,
    Interleave_eq_Splice text _ _ _ ho.length_eq.symm, hres, hpos]
  simp only [List.nil_append]
  rw [List.take_of_length_le (by simp)]

/-! ### Claims on `FixFragment` -/

/-- C4: when the tokenizations of the text and of its lowercased form have the same shape
and the tokens of the text are non-empty, ordered, non-overlapping and inside the text,
`FixFragment` returns `gap ++ out ++ gap ++ out ++ ... ++ gap`: the parts of the text
between the tokens, unchanged and in order, with one written word per token (the case
projection of some word, or the original token). -/
theorem FixFragment_preserves_spacing (x : THeaders) (hd : x.Edits2LastLevel = true)
    (fuel : Nat) (c : TSpellCorrector) (text : WString)
    (hshape : (c.LangModel.Tokenize text).map List.length =
      (c.LangModel.Tokenize (x.ToLower text)).map List.length)
    (hord : TokensOrdered 0 (c.LangModel.Tokenize text).flatten text.length) :
    ∃ outs : List WString,
      List.Forall₂
        (fun orig out => ∃ newWord origLowered,
          out = WordText x newWord (orig.Str text) origLowered)
        (c.LangModel.Tokenize text).flatten outs ∧
      FixFragment x (fuel + 1) c text =
        .ok (Interleave text 0 (c.LangModel.Tokenize text).flatten outs) := by
  refine FixFragment_spliced x (fuel + 1) c text hshape hord (fun _ _ => True) _
    (fun _ _ => trivial) ?_
  intro i origWords words j orig _ _ _
  obtain ⟨r, hr⟩ := GetCandidatesRaw_returns x hd fuel c words j
  exact ⟨r, hr, trivial, _, _, rfl⟩

theorem FixFragment_preserves_spacing_witness :
    ∃ outs : List WString,
      List.Forall₂
        (fun orig out => ∃ newWord origLowered,
          out = WordText SampleHeaders newWord
            (orig.Str [32, 32, 65, 98, 100, 32, 98, 97, 46, 46, 32, 65, 67, 44, 32, 98, 65])
            origLowered)
        (SampleCorrector.LangModel.Tokenize
          [32, 32, 65, 98, 100, 32, 98, 97, 46, 46, 32, 65, 67, 44, 32, 98, 65]).flatten outs ∧
      FixFragment SampleHeaders (0 + 1) SampleCorrector
          [32, 32, 65, 98, 100, 32, 98, 97, 46, 46, 32, 65, 67, 44, 32, 98, 65] =
        .ok (Interleave [32, 32, 65, 98, 100, 32, 98, 97, 46, 46, 32, 65, 67, 44, 32, 98, 65] 0
          (SampleCorrector.LangModel.Tokenize
            [32, 32, 65, 98, 100, 32, 98, 97, 46, 46, 32, 65, 67, 44, 32, 98, 65]).flatten outs) :=
  FixFragment_preserves_spacing SampleHeaders rfl 0 SampleCorrector
    [32, 32, 65, 98, 100, 32, 98, 97, 46, 46, 32, 65, 67, 44, 32, 98, 65]
    (by decide) (by decide)

theorem CaseProjected_getElem? (x : THeaders) (newWord origWord : WString) (k : Nat)
    (hk : k < newWord.length) :
    (CaseProjected x newWord origWord)[k]? =
      some (x.MakeUpperIfRequired (newWord.getD k 0)
        (origWord.getD (if k < origWord.length then k else origWord.length - 1) 0)) := by
  unfold CaseProjected
  rw [List.getElem?_map, List.getElem?_range hk]
  rfl

/-- C5: for a non-empty original token `o` lying inside the text and a chosen word `r` that
differs from the lowercased token, the pass of `FixFragment` through that token appends the
gap before the token and a text `out` of the length of `r`, whose character at `k` is
`MakeUpperIfRequired r[k] o[k]` for `k` within `o` and
`MakeUpperIfRequired r[k] o[|o| - 1]` for `k` past `o`. -/
theorem FixFragmentWord_case_projection (x : THeaders) (fuel : Nat) (c : TSpellCorrector)
    (text : WString) (origWords : List TSpan) (st : TFixState) (j : Nat) (orig : TSpan)
    (cands : TWords)
    (hj : origWords[j]? = some orig)
    (hc : GetCandidatesRaw x fuel c st.Words j = .ok cands)
    (h1 : st.OrigPos ≤ orig.Ptr) (h2 : 0 < orig.Len) (h3 : orig.Ptr + orig.Len ≤ text.length)
    (hne : (TakeTop st.Words j cands).getD j [] ≠ st.Words.getD j []) :
    ∃ out : WString,
      FixFragmentWord x fuel c text origWords st j = .ok
        { Words := TakeTop st.Words j cands,
          Result := st.Result ++ Gap text st.OrigPos orig ++ out,
          OrigPos := orig.Ptr + orig.Len } ∧
      out.length = ((TakeTop st.Words j cands).getD j []).length ∧
      (∀ k, k < ((TakeTop st.Words j cands).getD j []).length → k < (orig.Str text).length →
        out[k]? = some (x.MakeUpperIfRequired (((TakeTop st.Words j cands).getD j []).getD k 0)
          ((orig.Str text).getD k 0))) ∧
      (∀ k, k < ((TakeTop st.Words j cands).getD j []).length → (orig.Str text).length ≤ k →
        out[k]? = some (x.MakeUpperIfRequired (((TakeTop st.Words j cands).getD j []).getD k 0)
          ((orig.Str text).getD ((orig.Str text).length - 1) 0))) := by
  refine ⟨CaseProjected x ((TakeTop st.Words j cands).getD j []) (orig.Str text), ?_, ?_, ?_, ?_⟩
  · rw [FixFragmentWord_spec x fuel c text origWords st j orig cands hj hc h1 h2 h3]
    unfold WordText
    rw [if_pos hne]
  · simp [CaseProjected]
  · intro k hk hko
    rw [CaseProjected_getElem? x _ _ k hk, if_pos hko]
  · intro k hk hko
    rw [CaseProjected_getElem? x _ _ k hk, if_neg (Nat.not_lt.2 hko)]

theorem FixFragmentWord_case_projection_witness :
    ∃ out : WString,
      FixFragmentWord SampleHeaders 1 SampleCorrector [65, 98, 100] [⟨0, 3⟩]
        { Words := [[97, 98, 100]], Result := [], OrigPos := 0 } 0 = .ok
        { Words := TakeTop [[97, 98, 100]] 0 [[97, 98]],
          Result := [] ++ Gap [65, 98, 100] 0 ⟨0, 3⟩ ++ out,
          OrigPos := 0 + 3 } ∧
      out.length = ((TakeTop [[97, 98, 100]] 0 [[97, 98]]).getD 0 []).length ∧
      (∀ k, k < ((TakeTop [[97, 98, 100]] 0 [[97, 98]]).getD 0 []).length →
        k < ((⟨0, 3⟩ : TSpan).Str [65, 98, 100]).length →
        out[k]? = some (SampleHeaders.MakeUpperIfRequired
          (((TakeTop [[97, 98, 100]] 0 [[97, 98]]).getD 0 []).getD k 0)
          (((⟨0, 3⟩ : TSpan).Str [65, 98, 100]).getD k 0))) ∧
      (∀ k, k < ((TakeTop [[97, 98, 100]] 0 [[97, 98]]).getD 0 []).length →
        ((⟨0, 3⟩ : TSpan).Str [65, 98, 100]).length ≤ k →
        out[k]? = some (SampleHeaders.MakeUpperIfRequired
          (((TakeTop [[97, 98, 100]] 0 [[97, 98]]).getD 0 []).getD k 0)
          (((⟨0, 3⟩ : TSpan).Str [65, 98, 100]).getD
            (((⟨0, 3⟩ : TSpan).Str [65, 98, 100]).length - 1) 0))) :=
  FixFragmentWord_case_projection SampleHeaders 1 SampleCorrector [65, 98, 100] [⟨0, 3⟩]
    { Words := [[97, 98, 100]], Result := [], OrigPos := 0 } 0 ⟨0, 3⟩ [[97, 98]]
    rfl (by decide!) (by decide) (by decide) (by decide) (by decide)

theorem Interleave_self (text : WString) : ∀ (ts : List TSpan) (pos : Nat),
    TokensOrdered pos ts text.length →
    Interleave text pos ts (ts.map (TSpan.Str text)) = text.drop pos := by
  intro ts
  induction ts with
  | nil => intro pos _; rfl
  | cons t ts ih =>
    intro pos h
    obtain ⟨h1, _, h3⟩ := h
    simp only [List.map_cons, Interleave]
    rw [ih _ h3]
    unfold Gap TSpan.Str
    have e1 : text.drop t.Ptr = (text.drop pos).drop (t.Ptr - pos) := by
      rw [List.drop_drop]; congr 1; omega
    have e2 : text.drop (t.Ptr + t.Len) = (text.drop t.Ptr).drop t.Len := by
      rw [List.drop_drop]
    rw [e2, List.append_assoc, List.take_append_drop, e1, List.take_append_drop]

theorem TakeTop_of_keeps (words : TWords) (j : Nat) (r : TWords)
    (h : r = [] ∨ r.head? = some (words.getD j [])) : TakeTop words j r = words := by
  unfold TakeTop
  rcases h with rfl | h
  · rfl
  · cases r with
    | nil => rfl
    | cons w rest =>
      simp only [List.head?_cons, Option.some.injEq] at h
      simp only [List.length_cons, gt_iff_lt, Nat.zero_lt_succ, if_true, List.getD_cons_zero]
      rw [h]
      by_cases hj : j < words.length
      · rw [List.getD_eq_getElem _ _ hj]
        apply List.ext_getElem (by simp)
        intro n h1 h2
        rw [List.getElem_set]
        split
        · rename_i hjn; subst hjn; rfl
        · rfl
      · rw [List.set_eq_of_length_le (Nat.not_lt.1 hj)]

theorem forall₂_eq_map {α β : Type} (f : α → β) : ∀ (l : List α) (outs : List β),
    List.Forall₂ (fun a o => o = f a) l outs → outs = l.map f := by
  intro l outs h
  induction h with
  | nil => rfl
  | cons h _ ih => rw [h, ih]; rfl

/-- C6: when the two tokenizations have the same shape, the tokens of the text are
non-empty, ordered and inside the text, and for every token `GetCandidatesRaw` returns no
candidate or a list headed by the lowercased token, `FixFragment` returns the text itself;
it also does so whenever the lowercased text tokenizes to zero sentences. -/
theorem FixFragment_identity (x : THeaders) (fuel : Nat) (c : TSpellCorrector)
    (text : WString) :
    ((c.LangModel.Tokenize text).map List.length =
        (c.LangModel.Tokenize (x.ToLower text)).map List.length →
      TokensOrdered 0 (c.LangModel.Tokenize text).flatten text.length →
      (∀ i, i < (c.LangModel.Tokenize (x.ToLower text)).length →
        ∀ j, j < ((c.LangModel.Tokenize (x.ToLower text)).getD i []).length →
          KeepsWord x fuel c
            (((c.LangModel.Tokenize (x.ToLower text)).getD i []).map
              (TSpan.Str (x.ToLower text))) j) →
      FixFragment x fuel c text = .ok text) ∧
    (c.LangModel.Tokenize (x.ToLower text) = [] → FixFragment x fuel c text = .ok text) := by
  constructor
  · intro hshape hord hkeep
    have hlen : (c.LangModel.Tokenize text).length =
        (c.LangModel.Tokenize (x.ToLower text)).length := by
      simpa using congrArg List.length hshape
    obtain ⟨outs, ho, hf⟩ := FixFragment_spliced x fuel c text hshape hord
      (fun i words => words = ((c.LangModel.Tokenize (x.ToLower text)).getD i []).map
        (TSpan.Str (x.ToLower text)))
      (fun orig out => out = orig.Str text) (fun _ _ => rfl) (by
        intro i origWords words j orig hi hw hj
        obtain ⟨hi1, hi2⟩ := List.getElem?_eq_some.1 hi
        obtain ⟨hj1, _⟩ := List.getElem?_eq_some.1 hj
        have hi' : i < (c.LangModel.Tokenize (x.ToLower text)).length := by omega
        have hjlen : origWords.length =
            ((c.LangModel.Tokenize (x.ToLower text)).getD i []).length := by
          have e : ((c.LangModel.Tokenize text).map List.length)[i]? =
              ((c.LangModel.Tokenize (x.ToLower text)).map List.length)[i]? := by rw [hshape]
          rw [List.getElem?_map, List.getElem?_map, hi, List.getElem?_eq_getElem hi'] at e
          simp only [Option.map_some', Option.some.injEq] at e
          rw [List.getD_eq_getElem _ _ hi', e]
        have hk := hkeep i hi' j (by omega)
        rw [← hw] at hk
        unfold KeepsWord at hk
        cases hg : GetCandidatesRaw x fuel c words j with
        | error e => rw [hg] at hk; exact hk.elim
        | ok r =>
          rw [hg] at hk
          simp only at hk
          have ht := TakeTop_of_keeps words j r hk
          refine ⟨r, rfl, ?_, ?_⟩
          · rw [ht]; exact hw
          · rw [ht]
            unfold WordText
            rw [if_neg (not_not.2 rfl)])
    rw [hf, forall₂_eq_map _ _ _ ho, Interleave_self text _ _ hord]
    rfl
  · intro hnil
    unfold FixFragment
    simp only [hnil, List.length_nil, List.range_zero, List.foldlM_nil]
    show (Except.ok _ >>= _) = _
    rw [except_ok_bind]
    simp only [Nat.sub_zero]
    rw [CopyGap_spec text text.length le_rfl text.length [] 0 (by omega), except_ok_bind]
    simp

theorem FixFragment_identity_witness :
    FixFragment SampleHeaders 1 SampleCorrector [65, 44, 32, 97, 46] =
        .ok [65, 44, 32, 97, 46] ∧
      FixFragment SampleHeaders 1 SampleCorrector [32, 46] = .ok [32, 46] :=
  ⟨(FixFragment_identity SampleHeaders 1 SampleCorrector [65, 44, 32, 97, 46]).1
      (by decide) (by decide) (by decide!),
   (FixFragment_identity SampleHeaders 1 SampleCorrector [32, 46]).2 (by decide)⟩

/-! ### The normalized output -/

theorem TakeTop_length (words : TWords) (j : Nat) (r : TWords) :
    (TakeTop words j r).length = words.length := by
  unfold TakeTop
  split <;> simp

theorem TakeTop_getD_ne (words : TWords) (j k : Nat) (r : TWords) (h : k ≠ j) :
    (TakeTop words j r).getD k [] = words.getD k [] := by
  unfold TakeTop
  split
  · simp only [List.getD_eq_getElem?_getD]
    rw [List.getElem?_set_ne (Ne.symm h)]
  · rfl

/-- The inner loop of `FixFragmentNormalized` from the index `s` on: the words end as
`CorrectWord` leaves them, and every word from `s` on is appended with a space. -/
theorem FixFragmentNormalized_words (x : THeaders) (fuel : Nat) (c : TSpellCorrector) :
    ∀ (m s : Nat) (ws : TWords) (result : WString) (ws' : TWords),
      (List.range' s m).foldlM (CorrectWord x fuel c) ws = .ok ws' →
      ws'.length = ws.length ∧ (∀ k, k < s → ws'.getD k [] = ws.getD k []) ∧
      (List.range' s m).foldlM (FixFragmentNormalizedWord x fuel c) (ws, result) =
        .ok (ws', result ++ ((List.range' s m).map (fun k => ws'.getD k [] ++ [32])).flatten) := by
  intro m
  induction m with
  | zero =>
    intro s ws result ws' h
    cases h
    exact ⟨rfl, fun _ _ => rfl, by simp [pure, Except.pure]⟩
  | succ m ih =>
    intro s ws result ws' h
    rw [List.range'_succ, List.foldlM_cons] at h
    obtain ⟨ws1, h1, h⟩ := except_bind_ok _ _ _ h
    unfold CorrectWord at h1
    obtain ⟨cands, hc, h1⟩ := except_bind_ok _ _ _ h1
    cases h1
    obtain ⟨hl, hk, hf⟩ := ih (s + 1) (TakeTop ws s cands)
      (result ++ ((TakeTop ws s cands).getD s [] ++ [32])) ws' h
    refine ⟨hl.trans (TakeTop_length _ _ _), ?_, ?_⟩
    · intro k hks
      rw [hk k (by omega), TakeTop_getD_ne _ _ _ _ (by omega)]
    · have hstep : FixFragmentNormalizedWord x fuel c (ws, result) s =
          .ok (TakeTop ws s cands, result ++ ((TakeTop ws s cands).getD s [] ++ [32])) := by
        unfold FixFragmentNormalizedWord
        simp only
        rw [hc, except_ok_bind]
      rw [List.range'_succ, List.foldlM_cons, hstep, except_ok_bind, hf, ← hk s (by omega)]
      simp

theorem flatten_spaced_dropLast (a : WChar) : ∀ (l : TWords), l ≠ [] →
    (l.map (fun w => w ++ [a])).flatten.dropLast = [a].intercalate l := by
  intro l
  induction l with
  | nil => intro h; exact absurd rfl h
  | cons w l ih =>
    intro _
    cases l with
    | nil => simp [List.intercalate]
    | cons w2 l2 =>
      have e := ih (by simp)
      simp only [List.map_cons, List.flatten_cons] at e ⊢
      rw [List.dropLast_append_of_ne_nil _ (by simp), e]
      simp [List.intercalate, List.intersperse]

theorem range'_map_getD (ws : TWords) (f : TWord → WString) :
    (List.range' 0 ws.length).map (fun k => f (ws.getD k [])) = ws.map f := by
  apply List.ext_getElem (by simp)
  intro n h1 h2
  simp only [List.length_map, List.length_range'] at h1
  simp [List.getElem?_eq_getElem h1]

/-- The body of the outer loop of `FixFragmentNormalized` appends the normalized form of the
corrected sentence and then leaves out the space after the previous full stop. -/
theorem FixFragmentNormalizedSentence_spec (x : THeaders) (fuel : Nat) (c : TSpellCorrector)
    (lowered : WString) (result : WString) (sentence : List TSpan) (ws' : TWords)
    (h : CorrectedSentence x fuel c (sentence.map (TSpan.Str lowered)) = .ok ws') :
    ws'.length = sentence.length ∧
    FixFragmentNormalizedSentence x fuel c lowered result sentence =
      .ok (result ++ NormalizedSentence ws') := by
  unfold CorrectedSentence at h
  rw [List.range_eq_range'] at h
  obtain ⟨hl, _, hf⟩ := FixFragmentNormalized_words x fuel c _ 0 _ result ws' h
  refine ⟨by simpa using hl, ?_⟩
  unfold FixFragmentNormalizedSentence
  simp only
  rw [List.range_eq_range', hf, except_ok_bind]
  simp only
  rw [← hl, range'_map_getD ws' (fun w => w ++ [32])]
  unfold NormalizedSentence
  by_cases hne : ws' = []
  · subst hne; rfl
  · have hpos : ws'.length > 0 := List.length_pos.2 hne
    rw [if_pos hpos, if_neg hne]
    have hne2 : (ws'.map (fun w => w ++ [32])).flatten ≠ [] := by
      cases ws' with
      | nil => exact absurd rfl hne
      | cons w l => simp
    rw [List.dropLast_append_of_ne_nil _ hne2, flatten_spaced_dropLast 32 ws' hne]
    simp

theorem FixFragmentNormalized_sentences (x : THeaders) (fuel : Nat) (c : TSpellCorrector)
    (lowered : WString) (sentences : List (List TSpan)) (css : List TWords)
    (h : List.Forall₂
      (fun s cs => CorrectedSentence x fuel c (s.map (TSpan.Str lowered)) = .ok cs)
      sentences css) :
    ∀ result : WString,
      sentences.foldlM (FixFragmentNormalizedSentence x fuel c lowered) result =
        .ok (result ++ (css.map NormalizedSentence).flatten) := by
  induction h with
  | nil => intro result; simp [pure, Except.pure]
  | cons hs _ ih =>
    intro result
    rw [List.foldlM_cons, (FixFragmentNormalizedSentence_spec x fuel c lowered result _ _ hs).2,
      except_ok_bind, ih]
    simp

theorem CorrectedSentence_returns (x : THeaders) (hd : x.Edits2LastLevel = true) (fuel : Nat)
    (c : TSpellCorrector) (words : TWords) :
    ∃ ws', CorrectedSentence x (fuel + 1) c words = .ok ws' := by
  unfold CorrectedSentence
  apply foldlM_ok_of_step
  intro ws j
  obtain ⟨r, hr⟩ := GetCandidatesRaw_returns x hd fuel c ws j
  exact ⟨TakeTop ws j r, by unfold CorrectWord; rw [hr, except_ok_bind]⟩

/-- C8 (amended): the result of `FixFragmentNormalized` is the concatenation, over the
sentences of the lowercased tokenization in order, of the corrected words of the sentence
joined by single spaces and followed by ". " (nothing for a sentence without words), with
the last character of the whole removed: the last sentence ends with "." alone. -/
theorem FixFragmentNormalized_format (x : THeaders) (hd : x.Edits2LastLevel = true)
    (fuel : Nat) (c : TSpellCorrector) (text : WString) :
    ∃ css : List TWords,
      List.Forall₂
        (fun s cs =>
          CorrectedSentence x (fuel + 1) c (s.map (TSpan.Str (x.ToLower text))) = .ok cs)
        (c.LangModel.Tokenize (x.ToLower text)) css ∧
      FixFragmentNormalized x (fuel + 1) c text =
        .ok ((css.map NormalizedSentence).flatten.dropLast) := by
  have hex : ∀ sentences : List (List TSpan), ∃ css : List TWords,
      List.Forall₂
        (fun s cs =>
          CorrectedSentence x (fuel + 1) c (s.map (TSpan.Str (x.ToLower text))) = .ok cs)
        sentences css := by
    intro sentences
    induction sentences with
    | nil => exact ⟨[], List.Forall₂.nil⟩
    | cons s ss ih =>
      obtain ⟨css, hcss⟩ := ih
      obtain ⟨cs, hcs⟩ := CorrectedSentence_returns x hd fuel c (s.map (TSpan.Str (x.ToLower text)))
      exact ⟨cs :: css, List.Forall₂.cons hcs hcss⟩
  obtain ⟨css, hcss⟩ := hex (c.LangModel.Tokenize (x.ToLower text))
  refine ⟨css, hcss, ?_⟩
  unfold FixFragmentNormalized
  simp only
  rw [FixFragmentNormalized_sentences x (fuel + 1) c _ _ css hcss [], except_ok_bind]
  simp only [List.nil_append]
  split
  · rfl
  · rename_i h
    rw [not_not.1 h]
    rfl

theorem FixFragmentNormalized_format_witness :
    ∃ css : List TWords,
      List.Forall₂
        (fun s cs =>
          CorrectedSentence SampleHeaders (0 + 1) SampleCorrector
            (s.map (TSpan.Str (SampleHeaders.ToLower [65, 98, 100, 32, 98, 97, 46, 32, 65, 67])))
            = .ok cs)
        (SampleCorrector.LangModel.Tokenize
          (SampleHeaders.ToLower [65, 98, 100, 32, 98, 97, 46, 32, 65, 67])) css ∧
      FixFragmentNormalized SampleHeaders (0 + 1) SampleCorrector
          [65, 98, 100, 32, 98, 97, 46, 32, 65, 67] =
        .ok ((css.map NormalizedSentence).flatten.dropLast) :=
  FixFragmentNormalized_format SampleHeaders rfl 0 SampleCorrector
    [65, 98, 100, 32, 98, 97, 46, 32, 65, 67]

/-- C8 (as stated) fails for the last sentence: the text "a" is one sentence whose word is
kept, and the result is "a." and does not end with ". ". -/
theorem FixFragmentNormalized_last_sentence :
    FixFragmentNormalized SampleHeaders 1 SampleCorrector [97] = .ok [97, 46] ∧
    CorrectedSentence SampleHeaders 1 SampleCorrector
      (([⟨0, 1⟩] : List TSpan).map (TSpan.Str (SampleHeaders.ToLower [97]))) = .ok [[97]] ∧
    SampleCorrector.LangModel.Tokenize (SampleHeaders.ToLower [97]) = [[⟨0, 1⟩]] ∧
    ([97, 46] : WString) ≠ [32].intercalate [[97]] ++ [46, 32] := by
  refine ⟨by decide!, by decide!, by decide, by decide⟩

/-! ### The penalty tuner -/

theorem CountBroken_returns (x : THeaders) (hd : x.Edits2LastLevel = true) (fuel : Nat)
    (c : TSpellCorrector) (sentence : TWords) (acc : Nat × Nat) (j : Nat) :
    ∃ acc', CountBroken x (fuel + 1) c sentence acc j = .ok acc' := by
  obtain ⟨r, hr⟩ := GetCandidatesRaw_returns x hd fuel c sentence j
  unfold CountBroken
  rw [hr, except_ok_bind]
  exact ⟨_, rfl⟩

theorem GetBrokenPercent_returns (x : THeaders) (hd : x.Edits2LastLevel = true) (fuel : Nat)
    (c : TSpellCorrector) (sentences : TSentences) (hne : sentences ≠ []) (penalty : ℚ) :
    ∃ v, GetBrokenPercent x (fuel + 1) c sentences penalty =
      .ok ({ c with Penalty := penalty }, v) := by
  unfold GetBrokenPercent
  rw [if_neg hne]
  simp only
  obtain ⟨acc, hacc⟩ := foldlM_ok_of_step
    (fun acc sentence => (List.range sentence.length).foldlM
      (CountBroken x (fuel + 1) { c with Penalty := penalty } sentence) acc)
    (fun acc sentence => foldlM_ok_of_step _
      (fun acc j => CountBroken_returns x hd fuel _ sentence acc j) _ acc)
    sentences (0, 0)
  rw [hacc, except_ok_bind]
  exact ⟨_, rfl⟩

theorem GetBrokenPercent_penalty (x : THeaders) (fuel : Nat) (c : TSpellCorrector)
    (sentences : TSentences) (q penalty : ℚ) :
    GetBrokenPercent x fuel { c with Penalty := q } sentences penalty =
      GetBrokenPercent x fuel c sentences penalty := rfl

theorem half_width (a b : ℚ) (k : Nat) (h : b - a = 500 / 2 ^ k) :
    (a + (b - a) * (1 / 2)) - a = 500 / 2 ^ (k + 1) ∧
    b - (a + (b - a) * (1 / 2)) = 500 / 2 ^ (k + 1) := by
  have e : (500 : ℚ) / 2 ^ (k + 1) = (b - a) * (1 / 2) := by
    rw [h, pow_succ]; field_simp
  rw [e]
  constructor <;> ring

theorem width_ge (k : Nat) (hk : k ≤ 11) : (500 : ℚ) / 2 ^ k ≥ 1 / 5 := by
  interval_cases k <;> norm_num

/-- The loop of `FindPenalty` after `k` halvings of the interval `[0, 500]`: the remaining
`12 - k` iterations end it, each with one evaluation. -/
theorem FindPenaltyLoop_spec (x : THeaders) (hd : x.Edits2LastLevel = true) (fuel : Nat)
    (c : TSpellCorrector) (sentences : TSentences) (hne : sentences ≠ []) :
    ∀ (n k : Nat) (st : TPenaltySearch), k + n = 12 → st.B - st.A = 500 / 2 ^ k →
      0 ≤ st.A → st.B ≤ 500 → (∃ q, st.Corrector = { c with Penalty := q }) →
      (st.B = 500 ∨ st.B ∈ st.Evaluated ∧
        ∃ r, GetBrokenPercent x (fuel + 1) c sentences st.B = .ok r ∧
          LeTarget r.2 (7 / 1000) = true) →
      (st.A = 0 ∨ st.A ∈ st.Evaluated ∧
        ∃ r, GetBrokenPercent x (fuel + 1) c sentences st.A = .ok r ∧
          LeTarget r.2 (7 / 1000) = false) →
      st.Evaluated.length = k →
      ∃ st', FindPenaltyLoop x (fuel + 1) sentences n st = .ok st' ∧
        st'.B - st'.A = 500 / 2 ^ 12 ∧ 0 ≤ st'.A ∧ st'.B ≤ 500 ∧
        (st'.B = 500 ∨ st'.B ∈ st'.Evaluated ∧
          ∃ r, GetBrokenPercent x (fuel + 1) c sentences st'.B = .ok r ∧
            LeTarget r.2 (7 / 1000) = true) ∧
        (st'.A = 0 ∨ st'.A ∈ st'.Evaluated ∧
          ∃ r, GetBrokenPercent x (fuel + 1) c sentences st'.A = .ok r ∧
            LeTarget r.2 (7 / 1000) = false) ∧
        st'.Evaluated.length = 12 := by
  intro n
  induction n with
  | zero =>
    intro k st hk hw hA hB _ hPB hPA hE
    have hk12 : k = 12 := by omega
    subst hk12
    refine ⟨st, ?_, hw, hA, hB, hPB, hPA, hE⟩
    unfold FindPenaltyLoop
    rw [if_neg]
    rw [hw]
    norm_num
  | succ n ih =>
    intro k st hk hw hA hB hC hPB hPA hE
    obtain ⟨q, hq⟩ := hC
    have hge : st.B - st.A ≥ 1 / 5 := by rw [hw]; exact width_ge k (by omega)
    obtain ⟨hw1, hw2⟩ := half_width st.A st.B k hw
    have hpos : (0 : ℚ) < 500 / 2 ^ (k + 1) := by positivity
    obtain ⟨v, hv⟩ := GetBrokenPercent_returns x hd fuel c sentences hne
      (st.A + (st.B - st.A) * (1 / 2))
    have hv' : GetBrokenPercent x (fuel + 1) st.Corrector sentences
        (st.A + (st.B - st.A) * (1 / 2)) =
        .ok ({ c with Penalty := st.A + (st.B - st.A) * (1 / 2) }, v) := by
      rw [hq, GetBrokenPercent_penalty]; exact hv
    unfold FindPenaltyLoop
    rw [if_pos hge]
    simp only
    rw [hv', except_ok_bind]
    simp only
    cases hle : LeTarget v (7 / 1000) with
    | true =>
      simp only [if_true]
      exact ih (k + 1) _ (by omega) hw1 hA (by simp only; linarith) ⟨_, rfl⟩
        (Or.inr ⟨by simp, _, hv, hle⟩)
        (hPA.imp id (fun h => ⟨List.mem_append_left _ h.1, h.2⟩)) (by simp [hE])
    | false =>
      simp only [Bool.false_eq_true, if_false]
      exact ih (k + 1) _ (by omega) hw2 (by simp only; linarith) hB ⟨_, rfl⟩
        (hPB.imp id (fun h => ⟨List.mem_append_left _ h.1, h.2⟩))
        (Or.inr ⟨by simp, _, hv, hle⟩) (by simp [hE])

/-- C10 (the code at the failing input): the held-out corpus of one empty sentence is not
empty and passes the assertion, but holds no token; every evaluation of `GetBrokenPercent`
divides `0.0` by `0.0`, the comparison with `0.007` fails each time, and the search ends with
the lower bound `a = 511875 / 1024`, which is not `0`, although the broken-percent at `a` is
the undefined quotient and not a value greater than `0.007`. -/
theorem FindPenalty_corpus_without_tokens :
    ([[]] : TSentences) ≠ [] ∧ TotalTokens [[]] = 0 ∧
    (FindPenalty SampleHeaders 1 12 SampleCorrector [[]]).map Prod.snd = .ok 500 ∧
    (FindPenaltyLoop SampleHeaders 1 [[]] 12
      { Corrector := SampleCorrector, A := 0, B := 500, Evaluated := [] }).map
        (fun st => (st.A, st.B)) = .ok (511875 / 1024, 500) ∧
    (511875 / 1024 : ℚ) ≠ 0 ∧
    (GetBrokenPercent SampleHeaders 1 SampleCorrector [[]] (511875 / 1024)).map Prod.snd =
      .ok none := by
  refine ⟨by decide, by decide, by decide!, by decide!, by norm_num, by decide!⟩

/-- C9 (the code at the failing input): on the held-out corpus of the one sentence "b",
whose token is changed under every penalty, `FindPenalty` returns `500` and leaves the
corrector with `Penalty = 511875 / 1024`, the last midpoint it evaluated. -/
theorem FindPenalty_leaves_last_midpoint :
    (FindPenalty SampleHeaders 1 12 SampleCorrector [[[98]]]).map
      (fun r => (r.1.Penalty, r.2)) = .ok (511875 / 1024, 500) := by
  decide!

/-! ### Further claims on the candidates -/

/-- C13: for an in-range position whose word is a non-empty word of the vocabulary, the list
`GetCandidatesRaw` returns is not empty and contains the word, whether the other candidates
come from `Edits2` or from the fallback `Edits`; with `lastLevel = true` as the default of
`Edits2` the call returns for every positive fuel. -/
theorem GetCandidatesRaw_contains_identity (x : THeaders) (c : TSpellCorrector)
    (sentence : TWords) (position : Nat) (hp : position < sentence.length)
    (hw : sentence.getD position [] ∈ c.LangModel.Vocab)
    (hne : sentence.getD position [] ≠ []) :
    (∀ fuel r, GetCandidatesRaw x fuel c sentence position = .ok r →
      r ≠ [] ∧ sentence.getD position [] ∈ r) ∧
    (x.Edits2LastLevel = true →
      ∀ fuel, ∃ r, GetCandidatesRaw x (fuel + 1) c sentence position = .ok r) := by
  refine ⟨?_, fun hd fuel => GetCandidatesRaw_returns x hd fuel c sentence position⟩
  intro fuel r hr
  rcases GetCandidatesRaw_ok x fuel c sentence position r hr with ⟨hle, _⟩ | ⟨_, cands, _, rfl⟩
  · omega
  · have hmem : sentence.getD position [] ∈ RankCandidates x c sentence position
        (if cands = [] then Edits x c (sentence.getD position []) false else cands)
        (decide (cands ≠ [])) := by
      rw [mem_RankCandidates]
      unfold WithIdentity
      rw [GetWord_of_mem _ _ hw, if_pos hne]
      exact List.mem_append_right _ (List.mem_singleton_self _)
    exact ⟨List.ne_nil_of_mem hmem, hmem⟩

theorem GetCandidatesRaw_contains_identity_witness :
    (([[97], [98, 97], [97, 98]] : TWords) ≠ [] ∧
      ([[97]] : TWords).getD 0 [] ∈ ([[97], [98, 97], [97, 98]] : TWords)) ∧
    ∃ r, GetCandidatesRaw SampleHeaders (0 + 1) SampleCorrector [[97]] 0 = .ok r :=
  ⟨(GetCandidatesRaw_contains_identity SampleHeaders SampleCorrector [[97]] 0
      (by decide) (by decide) (by decide)).1 1 _ (by decide!),
   (GetCandidatesRaw_contains_identity SampleHeaders SampleCorrector [[97]] 0
      (by decide) (by decide) (by decide)).2 rfl 0⟩

/-- C14: for a position that is not below the length of the sentence, on the empty sentence
too, `GetCandidatesRaw` and `GetCandidates` return the empty sequence, and they do so
before any candidate is generated (for every fuel). -/
theorem GetCandidates_out_of_range (x : THeaders) (fuel : Nat) (c : TSpellCorrector)
    (sentence : TWords) (position : Nat) (h : sentence.length ≤ position) :
    GetCandidatesRaw x fuel c sentence position = .ok [] ∧
    GetCandidates x fuel c sentence position = .ok [] := by
  have e : GetCandidatesRaw x fuel c sentence position = .ok [] := by
    unfold GetCandidatesRaw
    rw [if_pos h]
  exact ⟨e, e⟩

theorem GetCandidates_out_of_range_witness :
    (GetCandidatesRaw SampleHeaders 0 SampleCorrector [[97]] 1 = .ok [] ∧
      GetCandidates SampleHeaders 0 SampleCorrector [[97]] 1 = .ok []) ∧
    (GetCandidatesRaw SampleHeaders 0 SampleCorrector [] 0 = .ok [] ∧
      GetCandidates SampleHeaders 0 SampleCorrector [] 0 = .ok []) :=
  ⟨GetCandidates_out_of_range SampleHeaders 0 SampleCorrector [[97]] 1 (by decide),
   GetCandidates_out_of_range SampleHeaders 0 SampleCorrector [] 0 (by decide)⟩

/-- C20: the list `GetCandidatesRaw` (and so `GetCandidates`) returns holds no word twice;
with `lastLevel = true` as the default of `Edits2` the call returns for every positive
fuel. -/
theorem GetCandidatesRaw_nodup (x : THeaders) (c : TSpellCorrector) (sentence : TWords)
    (position : Nat) :
    (∀ fuel r, GetCandidatesRaw x fuel c sentence position = .ok r → r.Nodup) ∧
    (∀ fuel r, GetCandidates x fuel c sentence position = .ok r → r.Nodup) ∧
    (x.Edits2LastLevel = true →
      ∀ fuel, ∃ r, GetCandidatesRaw x (fuel + 1) c sentence position = .ok r) := by
  have h : ∀ fuel r, GetCandidatesRaw x fuel c sentence position = .ok r → r.Nodup := by
    intro fuel r hr
    rcases GetCandidatesRaw_ok x fuel c sentence position r hr with ⟨_, rfl⟩ | ⟨_, cands, _, rfl⟩
    · exact List.nodup_nil
    · exact (RankCandidates_perm x c sentence position _ _).nodup_iff.2 (List.nodup_dedup _)
  exact ⟨h, h, fun hd fuel => GetCandidatesRaw_returns x hd fuel c sentence position⟩

theorem GetCandidatesRaw_nodup_witness :
    ([[97, 98], [98, 97], [97, 98, 99]] : TWords).Nodup ∧
    ([[97, 98], [98, 97], [97, 98, 99]] : TWords).Nodup ∧
    ∃ r, GetCandidatesRaw SampleHeaders (0 + 1) SampleCorrector [[97, 98], [98, 99, 100]] 1 =
      .ok r :=
  ⟨(GetCandidatesRaw_nodup SampleHeaders SampleCorrector [[97, 98], [98, 99, 100]] 1).1 1 _
      (by decide!),
   (GetCandidatesRaw_nodup SampleHeaders SampleCorrector [[97, 98], [98, 99, 100]] 1).2.1 1 _
      (by decide!),
   (GetCandidatesRaw_nodup SampleHeaders SampleCorrector [[97, 98], [98, 99, 100]] 1).2.2 rfl 0⟩

/-! ### The context window -/

theorem flatten_map_singleton_range' (s : TWords) : ∀ (k a : Nat), a + k ≤ s.length →
    ((List.range' a k).map (fun i => [s.getD i []])).flatten = (s.drop a).take k := by
  intro k
  induction k with
  | zero => intro a _; simp
  | succ k ih =>
    intro a h
    have ha : a < s.length := by omega
    rw [List.range'_succ, List.map_cons, List.flatten_cons, ih (a + 1) (by omega),
      List.drop_eq_getElem_cons ha, List.take_succ_cons, List.getD_eq_getElem _ _ ha]
    rfl

theorem flatten_map_congr {α β : Type} (f g : α → List β) (l : List α)
    (h : ∀ i ∈ l, f i = g i) : (l.map f).flatten = (l.map g).flatten := by
  rw [List.map_congr_left h]

theorem flatten_map_nil {α β : Type} (f : α → List β) (l : List α)
    (h : ∀ i ∈ l, f i = []) : (l.map f).flatten = [] := by
  rw [List.map_congr_left h]
  induction l with
  | nil => rfl
  | cons a l ih => simp

theorem range'_split (s m n : Nat) :
    List.range' s (m + n) = List.range' s m ++ List.range' (s + m) n := by
  have := List.range'_append s m n 1
  rw [Nat.one_mul, Nat.add_comm n m] at this
  exact this.symm

/-- The loop that builds `candSentence`, as one expression. -/
theorem CandSentence_eq_flatten (sentence : TWords) (position : Nat) (cand : TWord) :
    CandSentence sentence position cand =
      ((List.range sentence.length).map (fun i =>
        if i = position then [cand]
        else if (i < position ∧ i + 3 ≥ position) ∨ (i > position ∧ i ≤ position + 3) then
          [sentence.getD i []]
        else [])).flatten := by
  unfold CandSentence
  rw [← List.nil_append (List.flatten _), ← foldl_append_eq]
  congr 1
  funext acc i
  by_cases h1 : i = position
  · simp [h1]
  · by_cases h2 : (i < position ∧ i + 3 ≥ position) ∨ (i > position ∧ i ≤ position + 3)
    · simp only [h1, if_false, h2, if_true]
    · simp only [h1, if_false, h2, List.append_nil]

theorem CandSentence_eq (sentence : TWords) (position : Nat) (cand : TWord)
    (hp : position < sentence.length) :
    CandSentence sentence position cand =
      (sentence.take position).drop (position - 3) ++ [cand] ++
        (sentence.drop (position + 1)).take 3 := by
  rw [CandSentence_eq_flatten, List.range_eq_range']
  obtain ⟨f, hf⟩ : ∃ f : Nat → TWords, f = (fun i =>
      if i = position then [cand]
      else if (i < position ∧ i + 3 ≥ position) ∨ (i > position ∧ i ≤ position + 3) then
        [sentence.getD i []]
      else []) := ⟨_, rfl⟩
  rw [← hf]
  have hself : f position = [cand] := by rw [hf]; simp
  have hnear : ∀ i, i ≠ position → position ≤ i + 3 → i ≤ position + 3 →
      f i = [sentence.getD i []] := by
    intro i h1 h2 h3
    have h : (i < position ∧ i + 3 ≥ position) ∨ (i > position ∧ i ≤ position + 3) := by omega
    rw [hf]
    simp only [h1, if_false, h, if_true]
  have hfar : ∀ i, i + 3 < position ∨ position + 3 < i → f i = [] := by
    intro i h0
    have h1 : ¬ i = position := by omega
    have h : ¬ ((i < position ∧ i + 3 ≥ position) ∨ (i > position ∧ i ≤ position + 3)) := by
      omega
    rw [hf]
    simp only [h1, if_false, h]
  -- the words before the position
  have hA : ((List.range' 0 position).map f).flatten =
      (sentence.take position).drop (position - 3) := by
    have hsplit : position = (position - 3) + (position - (position - 3)) := by omega
    rw [hsplit, range'_split 0 (position - 3), ← hsplit, List.map_append, List.flatten_append,
      flatten_map_nil f (List.range' 0 (position - 3)) (by
        intro i hi
        rw [List.mem_range'_1] at hi
        exact hfar i (by omega)),
      List.nil_append,
      flatten_map_congr f (fun i => [sentence.getD i []])
        (List.range' (0 + (position - 3)) (position - (position - 3))) (by
        intro i hi
        rw [List.mem_range'_1] at hi
        exact hnear i (by omega) (by omega) (by omega)),
      flatten_map_singleton_range' sentence _ _ (by omega), List.drop_take, Nat.zero_add]
  -- the words after the position
  have hC : ((List.range' (position + 1) (sentence.length - position - 1)).map f).flatten =
      (sentence.drop (position + 1)).take 3 := by
    by_cases h3 : 3 ≤ sentence.length - position - 1
    · obtain ⟨n, hn⟩ : ∃ n, sentence.length - position - 1 = 3 + n :=
        ⟨sentence.length - position - 1 - 3, by omega⟩
      rw [hn, range'_split (position + 1) 3, List.map_append, List.flatten_append,
        flatten_map_nil f (List.range' (position + 1 + 3) n) (by
          intro i hi
          rw [List.mem_range'_1] at hi
          exact hfar i (by omega)),
        List.append_nil,
        flatten_map_congr f (fun i => [sentence.getD i []]) (List.range' (position + 1) 3) (by
          intro i hi
          rw [List.mem_range'_1] at hi
          exact hnear i (by omega) (by omega) (by omega)),
        flatten_map_singleton_range' sentence _ _ (by omega)]
    · rw [flatten_map_congr f (fun i => [sentence.getD i []])
          (List.range' (position + 1) (sentence.length - position - 1)) (by
          intro i hi
          rw [List.mem_range'_1] at hi
          exact hnear i (by omega) (by omega) (by omega)),
        flatten_map_singleton_range' sentence _ _ (by omega)]
      have hlen : (sentence.drop (position + 1)).length = sentence.length - position - 1 := by
        rw [List.length_drop]; omega
      rw [List.take_of_length_le (by omega), List.take_of_length_le (by omega)]
  obtain ⟨n, hn⟩ : ∃ n, sentence.length - position - 1 = n := ⟨_, rfl⟩
  have hL : sentence.length = position + (1 + n) := by omega
  rw [hn] at hC
  rw [hL, range'_split 0 position, range'_split (0 + position) 1, List.map_append,
    List.map_append, List.flatten_append, List.flatten_append, hA, Nat.zero_add, hC]
  simp [hself]




/-- C18: for a position `p` inside the sentence `S`, the sentence handed to
`LangModel.Score` for a candidate is `S[max (p - 3) 0], …, S[p - 1]`, the candidate,
`S[p + 1], …, S[min (p + 3) (L - 1)]`, in this order: it has `min p 3` words before the
candidate and `min 3 (L - p - 1)` after it, at most 7 in all, and the candidate is at index
`min p 3`. -/
theorem CandSentence_window (sentence : TWords) (position : Nat) (cand : TWord)
    (hp : position < sentence.length) :
    CandSentence sentence position cand =
      (sentence.take position).drop (position - 3) ++ [cand] ++
        (sentence.drop (position + 1)).take 3 ∧
    (CandSentence sentence position cand).length =
      min position 3 + 1 + min 3 (sentence.length - position - 1) ∧
    (CandSentence sentence position cand).length ≤ 7 ∧
    (CandSentence sentence position cand)[min position 3]? = some cand := by
  have hlen1 : ((sentence.take position).drop (position - 3)).length = min position 3 := by
    rw [List.length_drop, List.length_take]; omega
  have hlen2 : ((sentence.drop (position + 1)).take 3).length =
      min 3 (sentence.length - position - 1) := by
    rw [List.length_take, List.length_drop]; omega
  have hlen : (CandSentence sentence position cand).length =
      min position 3 + 1 + min 3 (sentence.length - position - 1) := by
    rw [CandSentence_eq sentence position cand hp, List.length_append, List.length_append,
      hlen1, hlen2]
    rfl
  refine ⟨CandSentence_eq sentence position cand hp, hlen, by omega, ?_⟩
  rw [CandSentence_eq sentence position cand hp, List.append_assoc,
    List.getElem?_append_right (by omega), hlen1, Nat.sub_self]
  simp

theorem CandSentence_window_witness :
    CandSentence [[0], [1], [2], [3], [4], [5], [6], [7], [8], [9]] 5 [55] =
      (([[0], [1], [2], [3], [4], [5], [6], [7], [8], [9]] : TWords).take 5).drop (5 - 3) ++
        [[55]] ++ (([[0], [1], [2], [3], [4], [5], [6], [7], [8], [9]] : TWords).drop (5 + 1)).take 3 ∧
    (CandSentence [[0], [1], [2], [3], [4], [5], [6], [7], [8], [9]] 5 [55]).length =
      min 5 3 + 1 + min 3
        (([[0], [1], [2], [3], [4], [5], [6], [7], [8], [9]] : TWords).length - 5 - 1) ∧
    (CandSentence [[0], [1], [2], [3], [4], [5], [6], [7], [8], [9]] 5 [55]).length ≤ 7 ∧
    (CandSentence [[0], [1], [2], [3], [4], [5], [6], [7], [8], [9]] 5 [55])[min 5 3]? =
      some [55] :=
  CandSentence_window [[0], [1], [2], [3], [4], [5], [6], [7], [8], [9]] 5 [55] (by decide)

/-! ### The single-level edit generator -/

theorem insert_eq_insertIdx (ch : WChar) : ∀ (i : Nat) (w : WString), i ≤ w.length →
    w.take i ++ [ch] ++ w.drop i = w.insertIdx i ch := by
  intro i
  induction i with
  | zero => intro w _; simp [List.insertIdx_zero]
  | succ i ih =>
    intro w h
    cases w with
    | nil => simp at h
    | cons a w =>
      rw [List.insertIdx_succ_cons, ← ih w (by simpa using h)]
      simp

theorem replace_eq_set (ch : WChar) (i : Nat) (w : WString) (h : i < w.length) :
    w.take i ++ [ch] ++ w.drop (i + 1) = w.set i ch := by
  rw [List.set_eq_take_cons_drop ch h]
  simp

theorem Transposed_eq_SwapAt : ∀ (i : Nat) (w : WString), i + 1 < w.length →
    Transposed w i = SwapAt w i := by
  intro i
  induction i with
  | zero =>
    intro w h
    match w, h with
    | a :: b :: rest, _ =>
      unfold Transposed SwapAt
      by_cases h2 : 0 + 2 < (a :: b :: rest).length
      · simp [h2]
      · have : rest = [] := by
          cases rest with
          | nil => rfl
          | cons _ _ => simp at h2
        subst this
        simp
  | succ i ih =>
    intro w h
    cases w with
    | nil => simp at h
    | cons a w =>
      have h' : i + 1 < w.length := by simpa using h
      have e := ih w h'
      unfold Transposed SwapAt at e ⊢
      by_cases h2 : i + 2 < w.length
      · have h3 : i + 1 + 2 < (a :: w).length := by simp only [List.length_cons]; omega
        simp only [h2, if_true] at e
        simp only [h3, if_true]
        simp only [List.take_succ_cons, List.drop_succ_cons, List.cons_append, List.set_cons_succ,
          List.getD_cons_succ]
        rw [← e]
      · have h3 : ¬ i + 1 + 2 < (a :: w).length := by simp only [List.length_cons]; omega
        simp only [h2, if_false] at e
        simp only [h3, if_false]
        simp only [List.take_succ_cons, List.drop_succ_cons, List.cons_append, List.set_cons_succ,
          List.getD_cons_succ]
        rw [← e]

theorem foldlM_append_ok {α : Type} (f : TWords → α → Except TAbort TWords) (g : α → TWords)
    (l : List α) (hf : ∀ b a, f b a = .ok (b ++ g a)) :
    ∀ b, l.foldlM f b = .ok (b ++ l.flatMap g) := by
  induction l with
  | nil => intro b; simp [pure, Except.pure]
  | cons a l ih =>
    intro b
    rw [List.foldlM_cons, hf b a, except_ok_bind, ih]
    simp

theorem Edits2Variant_last_eq (lm : TLangModel) (again : WString → Except TAbort TWords)
    (result : TWords) (s : WString) :
    Edits2Variant lm again true result s = .ok (result ++ EmitWord lm s) := by
  unfold Edits2Variant EmitWord
  by_cases h : lm.GetWord s = [] <;> simp [h]

theorem Edits2Step_last_eq (lm : TLangModel) (again : WString → Except TAbort TWords)
    (w : WString) (result : TWords) (i : Nat) :
    Edits2Step lm again true w result i =
      .ok (result ++ (VariantsAt lm.Alphabet w i).flatMap (EmitWord lm)) := by
  have hfold : ∀ (g : WChar → WString) (b : TWords),
      lm.Alphabet.foldlM (fun r ch => Edits2Variant lm again true r (g ch)) b =
        .ok (b ++ (lm.Alphabet.map g).flatMap (EmitWord lm)) := by
    intro g b
    rw [foldlM_append_ok _ (fun ch => EmitWord lm (g ch)) lm.Alphabet
      (fun b a => Edits2Variant_last_eq lm again b (g a)) b, List.flatMap_map]
  unfold Edits2Step VariantsAt
  simp only [hfold]
  simp only [Edits2Variant_last_eq]
  by_cases h1 : i < w.length
  · by_cases h2 : i + 1 < w.length
    · simp only [h1, h2, if_true, except_ok_bind, List.flatMap_append, List.flatMap_singleton,
        List.append_assoc]
    · simp only [h1, h2, if_true, if_false, except_ok_bind, List.flatMap_append,
        List.flatMap_singleton, List.append_assoc, List.flatMap_nil, List.nil_append]
  · have h2 : ¬ i + 1 < w.length := by omega
    simp only [h1, h2, if_false, except_ok_bind, List.flatMap_append, List.flatMap_nil,
      List.append_assoc, List.nil_append]

theorem Edits2_last_eq (lm : TLangModel) (dflt : Bool) (fuel : Nat) (w : TWord) :
    Edits2 lm dflt (fuel + 1) w true =
      .ok ((Variants lm.Alphabet w).flatMap (EmitWord lm)) := by
  unfold Edits2 Variants
  rw [foldlM_append_ok _ (fun i => (VariantsAt lm.Alphabet w i).flatMap (EmitWord lm)) _
    (fun b a => Edits2Step_last_eq lm _ w b a) [], List.nil_append, List.flatMap_assoc]

theorem EmitWord_eq (lm : TLangModel) (s : WString) :
    EmitWord lm s = if s ∈ lm.Vocab ∧ s ≠ [] then [s] else [] := by
  unfold EmitWord TLangModel.GetWord
  by_cases h1 : s ∈ lm.Vocab
  · by_cases h2 : s = [] <;> simp [h1, h2]
  · simp [h1]

theorem flatMap_EmitWord (lm : TLangModel) (l : List WString) :
    l.flatMap (EmitWord lm) = l.filter (fun s => decide (s ∈ lm.Vocab ∧ s ≠ [])) := by
  induction l with
  | nil => rfl
  | cons a l ih =>
    rw [List.flatMap_cons, ih, EmitWord_eq, List.filter_cons]
    by_cases h : a ∈ lm.Vocab ∧ a ≠ [] <;> simp [h]

theorem mem_VariantsAt (A : List WChar) (w : WString) (i : Nat) (v : WString) (hi : i ≤ w.length) :
    v ∈ VariantsAt A w i ↔
      (i < w.length ∧ v = w.eraseIdx i) ∨ (i + 1 < w.length ∧ v = SwapAt w i) ∨
      (i < w.length ∧ ∃ ch ∈ A, v = w.set i ch) ∨ (∃ ch ∈ A, v = w.insertIdx i ch) := by
  unfold VariantsAt
  simp only [List.mem_append, List.mem_map]
  have e4 : (∃ ch ∈ A, w.take i ++ [ch] ++ w.drop i = v) ↔ ∃ ch ∈ A, v = w.insertIdx i ch := by
    constructor
    · rintro ⟨ch, hch, rfl⟩; exact ⟨ch, hch, insert_eq_insertIdx ch i w hi⟩
    · rintro ⟨ch, hch, rfl⟩; exact ⟨ch, hch, insert_eq_insertIdx ch i w hi⟩
  rw [e4]
  by_cases h1 : i < w.length
  · have e3 : (∃ ch ∈ A, w.take i ++ [ch] ++ w.drop (i + 1) = v) ↔ ∃ ch ∈ A, v = w.set i ch := by
      constructor
      · rintro ⟨ch, hch, rfl⟩; exact ⟨ch, hch, replace_eq_set ch i w h1⟩
      · rintro ⟨ch, hch, rfl⟩; exact ⟨ch, hch, replace_eq_set ch i w h1⟩
    by_cases h2 : i + 1 < w.length
    · simp only [h1, h2, if_true, List.mem_singleton, List.mem_map, e3, true_and,
        ← List.eraseIdx_eq_take_drop_succ, Transposed_eq_SwapAt i w h2, or_assoc]
    · simp only [h1, h2, if_true, if_false, List.mem_singleton, List.mem_map, e3, true_and,
        false_and, ← List.eraseIdx_eq_take_drop_succ, List.not_mem_nil, or_false, false_or,
        or_assoc]
  · have h2 : ¬ i + 1 < w.length := by omega
    simp only [h1, h2, if_false, false_and, List.not_mem_nil, false_or]

theorem mem_Variants (A : List WChar) (w v : WString) :
    v ∈ Variants A w ↔ OneEdit (fun ch => ch ∈ A) w v := by
  unfold Variants OneEdit
  simp only [List.mem_flatMap, List.mem_range]
  constructor
  · rintro ⟨i, hi, hv⟩
    rcases (mem_VariantsAt A w i v (by omega)).1 hv with ⟨h, e⟩ | ⟨h, e⟩ | ⟨h, ch, hch, e⟩ |
      ⟨ch, hch, e⟩
    · exact Or.inl ⟨i, h, e⟩
    · exact Or.inr (Or.inl ⟨i, h, e⟩)
    · exact Or.inr (Or.inr (Or.inl ⟨i, ch, h, hch, e⟩))
    · exact Or.inr (Or.inr (Or.inr ⟨i, ch, by omega, hch, e⟩))
  · rintro (⟨i, h, e⟩ | ⟨i, h, e⟩ | ⟨i, ch, h, hch, e⟩ | ⟨i, ch, h, hch, e⟩)
    · exact ⟨i, by omega, (mem_VariantsAt A w i v (by omega)).2 (Or.inl ⟨h, e⟩)⟩
    · exact ⟨i, by omega, (mem_VariantsAt A w i v (by omega)).2 (Or.inr (Or.inl ⟨h, e⟩))⟩
    · exact ⟨i, by omega,
        (mem_VariantsAt A w i v (by omega)).2 (Or.inr (Or.inr (Or.inl ⟨h, ch, hch, e⟩)))⟩
    · exact ⟨i, by omega,
        (mem_VariantsAt A w i v h).2 (Or.inr (Or.inr (Or.inr ⟨ch, hch, e⟩)))⟩

theorem flatMap_range_restrict {β : Type} (g h : Nat → List β) (m N : Nat) (hm : m ≤ N)
    (hin : ∀ i, i < m → g i = h i) (hout : ∀ i, m ≤ i → i < N → g i = []) :
    (List.range N).flatMap g = (List.range m).flatMap h := by
  obtain ⟨k, rfl⟩ : ∃ k, N = m + k := ⟨N - m, by omega⟩
  rw [List.flatMap_def, List.flatMap_def, List.range_eq_range', List.range_eq_range',
    range'_split 0 m k, List.map_append, List.flatten_append,
    flatten_map_nil g (List.range' (0 + m) k) (by
      intro i hi
      rw [List.mem_range'_1] at hi
      exact hout i (by omega) (by omega)),
    List.append_nil,
    flatten_map_congr g h (List.range' 0 m) (by
      intro i hi
      rw [List.mem_range'_1] at hi
      exact hin i (by omega))]

theorem length_flatMap_const {α β : Type} (g : α → List β) (k : Nat) (l : List α)
    (h : ∀ a ∈ l, (g a).length = k) : (l.flatMap g).length = l.length * k := by
  induction l with
  | nil => simp
  | cons a l ih =>
    rw [List.flatMap_cons, List.length_append, h a (List.mem_cons_self _ _),
      ih (fun b hb => h b (List.mem_cons_of_mem _ hb)), List.length_cons]
    ring

theorem Variants_perm (A : List WChar) (w : WString) :
    (Variants A w).Perm
      (DeleteVariants w ++ TransposeVariants w ++ ReplaceVariants A w ++ InsertVariants A w) := by
  have hD : DeleteVariants w = (List.range (w.length + 1)).flatMap
      (fun i => if i < w.length then [w.take i ++ w.drop (i + 1)] else []) := by
    unfold DeleteVariants
    rw [flatMap_range_restrict _ (fun i => [w.eraseIdx i]) w.length (w.length + 1) (by omega)
      (by intro i hi; simp [hi, List.eraseIdx_eq_take_drop_succ])
      (by intro i hi _; simp [Nat.not_lt.2 hi]), List.flatMap_def]
    induction (List.range w.length) with
    | nil => rfl
    | cons a l ih => simp [ih]
  have hT : TransposeVariants w = (List.range (w.length + 1)).flatMap
      (fun i => if i + 1 < w.length then [Transposed w i] else []) := by
    unfold TransposeVariants
    rw [flatMap_range_restrict _ (fun i => [SwapAt w i]) (w.length - 1) (w.length + 1) (by omega)
      (by
        intro i hi
        have h : i + 1 < w.length := by omega
        simp [h, Transposed_eq_SwapAt i w h])
      (by
        intro i hi _
        have h : ¬ i + 1 < w.length := by omega
        simp [h]), List.flatMap_def]
    induction (List.range (w.length - 1)) with
    | nil => rfl
    | cons a l ih => simp [ih]
  have hR : ReplaceVariants A w = (List.range (w.length + 1)).flatMap
      (fun i => if i < w.length then A.map (fun ch => w.take i ++ [ch] ++ w.drop (i + 1))
        else []) := by
    unfold ReplaceVariants
    rw [flatMap_range_restrict _ (fun i => A.map (fun ch => w.set i ch)) w.length (w.length + 1)
      (by omega)
      (by
        intro i hi
        rw [if_pos hi]
        exact List.map_congr_left (fun ch _ => replace_eq_set ch i w hi))
      (by intro i hi _; simp [Nat.not_lt.2 hi])]
  have hI : InsertVariants A w = (List.range (w.length + 1)).flatMap
      (fun i => A.map (fun ch => w.take i ++ [ch] ++ w.drop i)) := by
    unfold InsertVariants
    rw [flatMap_range_restrict _ (fun i => A.map (fun ch => w.take i ++ [ch] ++ w.drop i))
      (w.length + 1) (w.length + 1) le_rfl
      (by
        intro i hi
        exact List.map_congr_left (fun ch _ => (insert_eq_insertIdx ch i w (by omega)).symm))
      (by intro i hi hi2; omega)]
  rw [hD, hT, hR, hI]
  unfold Variants
  have hfun : VariantsAt A w = fun i =>
      (((if i < w.length then [w.take i ++ w.drop (i + 1)] else []) ++
        (if i + 1 < w.length then [Transposed w i] else [])) ++
        (if i < w.length then A.map (fun ch => w.take i ++ [ch] ++ w.drop (i + 1)) else [])) ++
        A.map (fun ch => w.take i ++ [ch] ++ w.drop i) := by
    funext i; rfl
  rw [hfun]
  refine List.Perm.symm ?_
  refine List.Perm.trans ?_ (List.flatMap_append_perm _ _ _)
  refine List.Perm.append_right _ ?_
  refine List.Perm.trans ?_ (List.flatMap_append_perm _ _ _)
  refine List.Perm.append_right _ ?_
  exact List.flatMap_append_perm _ _ _

theorem Variants_lengths (A : List WChar) (w : WString) :
    (DeleteVariants w).length = w.length ∧ (TransposeVariants w).length = w.length - 1 ∧
    (ReplaceVariants A w).length = w.length * A.length ∧
    (InsertVariants A w).length = (w.length + 1) * A.length := by
  refine ⟨by simp [DeleteVariants], by simp [TransposeVariants], ?_, ?_⟩
  · unfold ReplaceVariants
    rw [length_flatMap_const _ A.length _ (fun i _ => by simp), List.length_range]
  · unfold InsertVariants
    rw [length_flatMap_const _ A.length _ (fun i _ => by simp), List.length_range]

/-- C17: `Edits2(w, lastLevel = true)` returns, without recursion, exactly the variants it
examines that are non-empty words of the vocabulary, in the order of examination.  The
variants examined are, up to order, the `n` delete variants, the `n - 1` adjacent-transpose
variants, the `n·|A|` replace variants and the `(n + 1)·|A|` insert variants of the
specification, so a word is in the result if and only if it is a non-empty vocabulary word
obtained from `w` by one of the four operations. -/
theorem Edits2_single_level (lm : TLangModel) (dflt : Bool) (fuel : Nat) (w : TWord) :
    Edits2 lm dflt (fuel + 1) w true =
      .ok ((Variants lm.Alphabet w).filter (fun s => decide (s ∈ lm.Vocab ∧ s ≠ []))) ∧
    (Variants lm.Alphabet w).Perm
      (DeleteVariants w ++ TransposeVariants w ++ ReplaceVariants lm.Alphabet w ++
        InsertVariants lm.Alphabet w) ∧
    (DeleteVariants w).length = w.length ∧
    (TransposeVariants w).length = w.length - 1 ∧
    (ReplaceVariants lm.Alphabet w).length = w.length * lm.Alphabet.length ∧
    (InsertVariants lm.Alphabet w).length = (w.length + 1) * lm.Alphabet.length ∧
    ∀ v, v ∈ (Variants lm.Alphabet w).filter (fun s => decide (s ∈ lm.Vocab ∧ s ≠ [])) ↔
      v ≠ [] ∧ v ∈ lm.Vocab ∧ OneEdit (fun ch => ch ∈ lm.Alphabet) w v := by
  obtain ⟨h1, h2, h3, h4⟩ := Variants_lengths lm.Alphabet w
  refine ⟨?_, Variants_perm lm.Alphabet w, h1, h2, h3, h4, ?_⟩
  · rw [Edits2_last_eq, flatMap_EmitWord]
  · intro v
    rw [List.mem_filter, mem_Variants]
    simp only [decide_eq_true_eq]
    tauto

/-- C19: for a word `w` of one character `GetDeletes1` and `GetDeletes2` return nothing, so
`PrepareCache` registers no key for it, while `Edits2` examines the empty delete variant,
the `|A|` replace variants and the `2·|A|` insert variants of `w` and returns those replace
and insert variants that are non-empty words of the vocabulary. -/
theorem one_character_word (lm : TLangModel) (dflt : Bool) (fuel : Nat) (w : TWord)
    (hw : w.length = 1) :
    GetDeletes1 w = [] ∧ GetDeletes2 w = [] ∧
    (∀ (x : THeaders) (c : TSpellCorrector) (id : TWordId), PrepareCacheWord x c (w, id) = c) ∧
    Variants lm.Alphabet w =
      [[]] ++ ReplaceVariants lm.Alphabet w ++ InsertVariants lm.Alphabet w ∧
    (ReplaceVariants lm.Alphabet w).length = lm.Alphabet.length ∧
    (InsertVariants lm.Alphabet w).length = 2 * lm.Alphabet.length ∧
    Edits2 lm dflt (fuel + 1) w true =
      .ok ((ReplaceVariants lm.Alphabet w ++ InsertVariants lm.Alphabet w).filter
        (fun s => decide (s ∈ lm.Vocab ∧ s ≠ []))) := by
  match w, hw with
  | [a], _ =>
    have hd1 : GetDeletes1 [a] = [] := by simp [GetDeletes1, List.range_succ]
    have hd2 : GetDeletes2 [a] = [] := by simp [GetDeletes2, List.range_succ]
    have hv : Variants lm.Alphabet [a] =
        [[]] ++ ReplaceVariants lm.Alphabet [a] ++ InsertVariants lm.Alphabet [a] := by
      simp [Variants, VariantsAt, ReplaceVariants, InsertVariants, List.range_succ,
        List.insertIdx_zero, List.insertIdx_succ_cons]
    obtain ⟨_, _, h3, h4⟩ := Variants_lengths lm.Alphabet [a]
    refine ⟨hd1, hd2, ?_, hv, by simpa using h3, by simpa using h4, ?_⟩
    · intro x c id
      unfold PrepareCacheWord
      simp only [hd1, hd2, List.foldl_nil]
    · rw [Edits2_last_eq, flatMap_EmitWord, hv]
      simp [List.filter_append, List.filter_cons]

theorem one_character_word_witness :
    GetDeletes1 [98] = [] ∧ GetDeletes2 [98] = [] ∧
    (∀ (x : THeaders) (c : TSpellCorrector) (id : TWordId),
      PrepareCacheWord x c ([98], id) = c) ∧
    Variants SampleModel.Alphabet [98] =
      [[]] ++ ReplaceVariants SampleModel.Alphabet [98] ++
        InsertVariants SampleModel.Alphabet [98] ∧
    (ReplaceVariants SampleModel.Alphabet [98]).length = SampleModel.Alphabet.length ∧
    (InsertVariants SampleModel.Alphabet [98]).length = 2 * SampleModel.Alphabet.length ∧
    Edits2 SampleModel true (0 + 1) [98] true =
      .ok ((ReplaceVariants SampleModel.Alphabet [98] ++
        InsertVariants SampleModel.Alphabet [98]).filter
          (fun s => decide (s ∈ SampleModel.Vocab ∧ s ≠ []))) :=
  one_character_word SampleModel true 0 [98] rfl

/-! ### The depth of `Edits2` -/

theorem except_error_bind {α β : Type} (e : TAbort) (f : α → Except TAbort β) :
    ((Except.error e : Except TAbort α) >>= f) = .error e := rfl

theorem foldlM_error_head {α β : Type} (f : β → α → Except TAbort β) (a : α) (l : List α)
    (b : β) (e : TAbort) (h : f b a = .error e) : (a :: l).foldlM f b = .error e := by
  rw [List.foldlM_cons, h, except_error_bind]

theorem Edits2Variant_error (lm : TLangModel) (again : WString → Except TAbort TWords)
    (result : TWords) (s : WString) (e : TAbort) (h : again s = .error e) :
    Edits2Variant lm again false result s = .error e := by
  unfold Edits2Variant
  simp [h]

/-- With `lastLevel = false` as the default, every call recurses at its first variant, so no
fuel lets `Edits2` return when the alphabet has a letter. -/
theorem Edits2_diverges (lm : TLangModel) (hA : lm.Alphabet ≠ []) :
    ∀ (fuel : Nat) (w : TWord), Edits2 lm false fuel w false = .error .OutOfFuel := by
  intro fuel
  induction fuel with
  | zero => intro w; rfl
  | succ n ih =>
    intro w
    unfold Edits2
    rw [List.range_succ_eq_map]
    apply foldlM_error_head
    unfold Edits2Step
    by_cases h0 : 0 < w.length
    · rw [if_pos h0, Edits2Variant_error lm _ _ _ _ (ih _), except_error_bind]
    · have h1 : ¬ 0 + 1 < w.length := by omega
      rw [if_neg h0, except_ok_bind, if_neg h1, except_ok_bind, if_neg h0, except_ok_bind]
      obtain ⟨a, rest, hA'⟩ := List.exists_cons_of_ne_nil hA
      rw [hA']
      exact foldlM_error_head _ _ _ _ _ (Edits2Variant_error lm _ _ _ _ (ih _))

theorem GetCandidatesRaw_fuel (x : THeaders) (hd : x.Edits2LastLevel = true) (fuel : Nat)
    (c : TSpellCorrector) (sentence : TWords) (position : Nat) :
    GetCandidatesRaw x (fuel + 1) c sentence position =
      GetCandidatesRaw x 1 c sentence position := by
  unfold GetCandidatesRaw
  simp only [hd, Edits2_last_eq]

theorem GetCandidatesRaw_diverges (x : THeaders) (hd : x.Edits2LastLevel = false)
    (c : TSpellCorrector) (hA : c.LangModel.Alphabet ≠ []) (sentence : TWords) (position : Nat)
    (hp : position < sentence.length) (fuel : Nat) :
    GetCandidatesRaw x fuel c sentence position = .error .OutOfFuel := by
  unfold GetCandidatesRaw
  simp only [ge_iff_le, Nat.not_le.2 hp, if_false, hd, Edits2_diverges c.LangModel hA]

/-- C16 (amended): with `lastLevel = true` as the default of `Edits2`, for an in-range
position with word `w`, every non-empty vocabulary word obtained from `w` by one edit
operation with letters of the alphabet is among the candidates `Edits2(w)` computes and
among those `GetCandidatesRaw` returns; `Edits2(w)` does not recurse and returns for every
positive fuel. -/
theorem GetCandidatesRaw_one_edit (x : THeaders) (hd : x.Edits2LastLevel = true)
    (c : TSpellCorrector) (sentence : TWords) (position : Nat) (hp : position < sentence.length)
    (v : TWord) (hv : v ∈ c.LangModel.Vocab) (hne : v ≠ [])
    (he : OneEdit (fun ch => ch ∈ c.LangModel.Alphabet) (sentence.getD position []) v)
    (fuel : Nat) :
    ∃ cands r,
      Edits2 c.LangModel x.Edits2LastLevel (fuel + 1) (sentence.getD position [])
        x.Edits2LastLevel = .ok cands ∧
      v ∈ cands ∧
      GetCandidatesRaw x (fuel + 1) c sentence position = .ok r ∧ v ∈ r := by
  have hE : Edits2 c.LangModel x.Edits2LastLevel (fuel + 1) (sentence.getD position [])
      x.Edits2LastLevel = .ok ((Variants c.LangModel.Alphabet (sentence.getD position [])).filter
        (fun s => decide (s ∈ c.LangModel.Vocab ∧ s ≠ []))) := by
    rw [hd, Edits2_last_eq, flatMap_EmitWord]
  have hmem : v ∈ (Variants c.LangModel.Alphabet (sentence.getD position [])).filter
      (fun s => decide (s ∈ c.LangModel.Vocab ∧ s ≠ [])) := by
    rw [List.mem_filter, mem_Variants]
    exact ⟨he, by simpa using ⟨hv, hne⟩⟩
  refine ⟨_, _, hE, hmem, GetCandidatesRaw_of_Edits2 x (fuel + 1) c sentence position hp _ hE, ?_⟩
  rw [mem_RankCandidates, if_neg (List.ne_nil_of_mem hmem)]
  unfold WithIdentity
  split
  · exact List.mem_append_left _ hmem
  · exact hmem

theorem GetCandidatesRaw_one_edit_witness :
    ∃ cands r,
      Edits2 SampleCorrector.LangModel SampleHeaders.Edits2LastLevel (0 + 1)
        (([[99]] : TWords).getD 0 []) SampleHeaders.Edits2LastLevel = .ok cands ∧
      [97] ∈ cands ∧
      GetCandidatesRaw SampleHeaders (0 + 1) SampleCorrector [[99]] 0 = .ok r ∧ [97] ∈ r :=
  GetCandidatesRaw_one_edit SampleHeaders rfl SampleCorrector [[99]] 0 (by decide) [97]
    (by decide) (by decide) (Or.inr (Or.inr (Or.inl ⟨0, 97, by decide, by decide, by decide⟩))) 0

/-- C16 (as stated) fails: the vocabulary word "ab" is obtained from "c" by two edit
operations (replace "c" by "a", then insert "b"), yet with `lastLevel = true` as the default
`GetCandidatesRaw` returns the one word "a" for every fuel, and with `lastLevel = false` as
the default it returns for no fuel. -/
theorem GetCandidatesRaw_misses_second_level :
    OneEdit (fun ch => ch ∈ SampleCorrector.LangModel.Alphabet) [99] [97] ∧
    OneEdit (fun ch => ch ∈ SampleCorrector.LangModel.Alphabet) [97] [97, 98] ∧
    ([97, 98] : TWord) ∈ SampleCorrector.LangModel.Vocab ∧
    (∀ fuel, GetCandidatesRaw SampleHeaders (fuel + 1) SampleCorrector [[99]] 0 =
      .ok [[97]]) ∧
    ([97, 98] : TWord) ∉ ([[97]] : TWords) ∧
    (∀ fuel, GetCandidatesRaw { SampleHeaders with Edits2LastLevel := false } fuel
      SampleCorrector [[99]] 0 = .error .OutOfFuel) := by
  refine ⟨Or.inr (Or.inr (Or.inl ⟨0, 97, by decide, by decide, by decide⟩)),
    Or.inr (Or.inr (Or.inr ⟨1, 98, by decide, by decide, by decide⟩)), by decide, ?_,
    by decide, ?_⟩
  · intro fuel
    rw [GetCandidatesRaw_fuel SampleHeaders rfl fuel]
    decide!
  · intro fuel
    exact GetCandidatesRaw_diverges _ rfl SampleCorrector (by decide) [[99]] 0 (by decide) fuel

/-! ### Training -/

theorem floor_fifth (n : Nat) : Nat.floor ((1 / 5 : ℚ) * (n : ℚ)) = n / 5 := by
  have e : (1 / 5 : ℚ) * (n : ℚ) = (n : ℚ) / ((5 : ℕ) : ℚ) := by push_cast; ring
  rw [e, Nat.floor_div_eq_div]

theorem flatten_map_getD_range' {α : Type} (d : α) (s : List α) : ∀ (k a : Nat),
    a + k ≤ s.length → ((List.range' a k).map (fun i => [s.getD i d])).flatten =
      (s.drop a).take k := by
  intro k
  induction k with
  | zero => intro a _; simp
  | succ k ih =>
    intro a h
    have ha : a < s.length := by omega
    rw [List.range'_succ, List.map_cons, List.flatten_cons, ih (a + 1) (by omega),
      List.drop_eq_getElem_cons ha, List.take_succ_cons, List.getD_eq_getElem _ _ ha]
    rfl

theorem HeldOutSplit_eq (s : TSentences) :
    HeldOutSplit s =
      (s.take (s.length - min (s.length / 5) 5000), s.drop (s.length - min (s.length / 5) 5000)) := by
  unfold HeldOutSplit
  simp only [floor_fifth]
  congr 1
  rw [← List.nil_append (List.drop _ s), ← List.nil_append (List.foldl _ _ _)]
  rw [foldl_append_eq (fun i => [s.getD i []]), flatten_map_getD_range' [] s _ _ (by omega),
    List.take_of_length_le (by rw [List.length_drop])]
  simp

theorem HeldOutSplit_small (s : TSentences) (h : s.length < 5) : (HeldOutSplit s).2 = [] := by
  rw [HeldOutSplit_eq]
  have : s.length / 5 = 0 := by omega
  simp [this]

/-- C11: when the alphabet loads, `TrainLangModel` reserves as held-out set exactly
`min (n / 5) 5000` of the `n` tokenized sentences (`n / 5` is the floor of `0.2·n`), namely
the last ones in their order; it trains the model on the first `n - min (n / 5) 5000`
sentences and tunes the penalty on the held-out set; training part followed by held-out
part is the corpus. -/
theorem TrainLangModel_held_out (x : THeaders) (h : TTrainHelpers) (fuel steps : Nat)
    (c : TSpellCorrector) (textFile alphabetFile : TKey) (corpus : TSentences)
    (hload : (h.LoadAlphabet c.LangModel alphabetFile).2 = true)
    (hcorpus : corpus =
      ((h.LoadAlphabet c.LangModel alphabetFile).1.Tokenize
        (x.ToLower (h.UTF8ToWide (h.LoadFile textFile)))).map
        (fun s => s.map (TSpan.Str (x.ToLower (h.UTF8ToWide (h.LoadFile textFile)))))) :
    (HeldOutSplit corpus).2.length = min (corpus.length / 5) 5000 ∧
    (HeldOutSplit corpus).2 = corpus.drop (corpus.length - min (corpus.length / 5) 5000) ∧
    (HeldOutSplit corpus).1 = corpus.take (corpus.length - min (corpus.length / 5) 5000) ∧
    (HeldOutSplit corpus).1 ++ (HeldOutSplit corpus).2 = corpus ∧
    TrainLangModel x h fuel steps c textFile alphabetFile =
      (FindPenalty x fuel steps
        (PrepareCache x { c with LangModel :=
          (h.TrainRaw (h.LoadAlphabet c.LangModel alphabetFile).1
            (corpus.take (corpus.length - min (corpus.length / 5) 5000))) })
        (corpus.drop (corpus.length - min (corpus.length / 5) 5000)) >>=
        fun r => .ok (r.1, true)) := by
  have hs := HeldOutSplit_eq corpus
  refine ⟨?_, ?_, ?_, ?_, ?_⟩
  · rw [hs]; simp only [List.length_drop]; omega
  · rw [hs]
  · rw [hs]
  · rw [hs]; exact List.take_append_drop _ _
  · unfold TrainLangModel
    simp only [hload, Bool.not_true, Bool.false_eq_true, if_false, ← hcorpus, hs]

theorem TrainLangModel_held_out_witness :
    (HeldOutSplit [[[97]], [[98]], [[97, 98]], [[97]], [[98, 97]], [[97]]]).2.length =
      min (([[[97]], [[98]], [[97, 98]], [[97]], [[98, 97]], [[97]]] : TSentences).length / 5)
        5000 ∧
    (HeldOutSplit [[[97]], [[98]], [[97, 98]], [[97]], [[98, 97]], [[97]]]).2 =
      ([[[97]], [[98]], [[97, 98]], [[97]], [[98, 97]], [[97]]] : TSentences).drop
        (([[[97]], [[98]], [[97, 98]], [[97]], [[98, 97]], [[97]]] : TSentences).length -
          min (([[[97]], [[98]], [[97, 98]], [[97]], [[98, 97]], [[97]]] : TSentences).length / 5)
            5000) ∧
    (HeldOutSplit [[[97]], [[98]], [[97, 98]], [[97]], [[98, 97]], [[97]]]).1 =
      ([[[97]], [[98]], [[97, 98]], [[97]], [[98, 97]], [[97]]] : TSentences).take
        (([[[97]], [[98]], [[97, 98]], [[97]], [[98, 97]], [[97]]] : TSentences).length -
          min (([[[97]], [[98]], [[97, 98]], [[97]], [[98, 97]], [[97]]] : TSentences).length / 5)
            5000) ∧
    (HeldOutSplit [[[97]], [[98]], [[97, 98]], [[97]], [[98, 97]], [[97]]]).1 ++
      (HeldOutSplit [[[97]], [[98]], [[97, 98]], [[97]], [[98, 97]], [[97]]]).2 =
        [[[97]], [[98]], [[97, 98]], [[97]], [[98, 97]], [[97]]] ∧
    TrainLangModel SampleHeaders SampleTrainHelpers 1 12 SampleCorrector
        [97, 46, 32, 98, 46, 32, 97, 98, 46, 32, 97, 46, 32, 98, 97, 46, 32, 97, 46] [] =
      (FindPenalty SampleHeaders 1 12
        (PrepareCache SampleHeaders { SampleCorrector with LangModel :=
          (SampleTrainHelpers.TrainRaw
            (SampleTrainHelpers.LoadAlphabet SampleCorrector.LangModel []).1
            (([[[97]], [[98]], [[97, 98]], [[97]], [[98, 97]], [[97]]] : TSentences).take
              (([[[97]], [[98]], [[97, 98]], [[97]], [[98, 97]], [[97]]] : TSentences).length -
                min (([[[97]], [[98]], [[97, 98]], [[97]], [[98, 97]], [[97]]] :
                  TSentences).length / 5) 5000))) })
        (([[[97]], [[98]], [[97, 98]], [[97]], [[98, 97]], [[97]]] : TSentences).drop
          (([[[97]], [[98]], [[97, 98]], [[97]], [[98, 97]], [[97]]] : TSentences).length -
            min (([[[97]], [[98]], [[97, 98]], [[97]], [[98, 97]], [[97]]] :
              TSentences).length / 5) 5000)) >>=
        fun r => .ok (r.1, true)) :=
  TrainLangModel_held_out SampleHeaders SampleTrainHelpers 1 12 SampleCorrector
    [97, 46, 32, 98, 46, 32, 97, 98, 46, 32, 97, 46, 32, 98, 97, 46, 32, 97, 46] []
    [[[97]], [[98]], [[97, 98]], [[97]], [[98, 97]], [[97]]] rfl (by decide)

/-! ### Failures of the tuner -/

theorem foldlM_error_kind {α β : Type} (P : TAbort → Prop) (f : β → α → Except TAbort β)
    (hf : ∀ b a e, f b a = .error e → P e) :
    ∀ (l : List α) (b : β) (e : TAbort), l.foldlM f b = .error e → P e := by
  intro l
  induction l with
  | nil => intro b e h; cases h
  | cons a l ih =>
    intro b e h
    rw [List.foldlM_cons] at h
    cases hfa : f b a with
    | error e1 =>
      rw [hfa] at h
      cases h
      exact hf b a e hfa
    | ok b1 =>
      rw [hfa] at h
      exact ih b1 e h

theorem except_bind_error {α β : Type} (a : Except TAbort α) (f : α → Except TAbort β)
    (e : TAbort) (h : (a >>= f) = .error e) :
    a = .error e ∨ ∃ r, a = .ok r ∧ f r = .error e := by
  cases a with
  | error e1 => left; cases h; rfl
  | ok r => right; exact ⟨r, rfl, h⟩

theorem Edits2Variant_error_kind (lm : TLangModel) (again : WString → Except TAbort TWords)
    (hagain : ∀ s e, again s = .error e → e = .OutOfFuel) (lastLevel : Bool)
    (result : TWords) (s : WString) (e : TAbort)
    (h : Edits2Variant lm again lastLevel result s = .error e) : e = .OutOfFuel := by
  unfold Edits2Variant at h
  simp only at h
  cases lastLevel with
  | true => simp at h
  | false =>
    simp only [Bool.not_false, if_true] at h
    cases hag : again s with
    | error e1 =>
      rw [hag] at h
      cases h
      exact hagain s e hag
    | ok more => rw [hag] at h; cases h

theorem Edits2Step_error_kind (lm : TLangModel) (again : WString → Except TAbort TWords)
    (hagain : ∀ s e, again s = .error e → e = .OutOfFuel) (lastLevel : Bool) (w : WString)
    (result : TWords) (i : Nat) (e : TAbort)
    (h : Edits2Step lm again lastLevel w result i = .error e) : e = .OutOfFuel := by
  have hv : ∀ r s e, Edits2Variant lm again lastLevel r s = .error e → e = .OutOfFuel :=
    fun r s e => Edits2Variant_error_kind lm again hagain lastLevel r s e
  have hfold : ∀ (g : WChar → WString) (b : TWords) e,
      lm.Alphabet.foldlM (fun r ch => Edits2Variant lm again lastLevel r (g ch)) b = .error e →
        e = .OutOfFuel :=
    fun g b e => foldlM_error_kind (fun e => e = .OutOfFuel) _ (fun b a e => hv b (g a) e) _ b e
  unfold Edits2Step at h
  rcases except_bind_error _ _ _ h with h1 | ⟨r1, _, h⟩
  · split at h1
    · exact hv _ _ _ h1
    · cases h1
  rcases except_bind_error _ _ _ h with h2 | ⟨r2, _, h⟩
  · split at h2
    · exact hv _ _ _ h2
    · cases h2
  rcases except_bind_error _ _ _ h with h3 | ⟨r3, _, h⟩
  · split at h3
    · exact hfold _ _ _ h3
    · cases h3
  exact hfold _ _ _ h

theorem Edits2_error_kind (lm : TLangModel) (dflt : Bool) :
    ∀ (fuel : Nat) (w : TWord) (lastLevel : Bool) (e : TAbort),
      Edits2 lm dflt fuel w lastLevel = .error e → e = .OutOfFuel := by
  intro fuel
  induction fuel with
  | zero => intro w lastLevel e h; cases h; rfl
  | succ n ih =>
    intro w lastLevel e h
    unfold Edits2 at h
    exact foldlM_error_kind (fun e => e = .OutOfFuel) _
      (fun b a e he => Edits2Step_error_kind lm _ (fun s e hs => ih s dflt e hs) lastLevel w b a
        e he) _ _ e h

theorem GetCandidatesRaw_error_kind (x : THeaders) (fuel : Nat) (c : TSpellCorrector)
    (sentence : TWords) (position : Nat) (e : TAbort)
    (h : GetCandidatesRaw x fuel c sentence position = .error e) : e = .OutOfFuel := by
  unfold GetCandidatesRaw at h
  split at h
  · cases h
  · simp only at h
    cases he : Edits2 c.LangModel x.Edits2LastLevel fuel (sentence.getD position [])
        x.Edits2LastLevel with
    | error e1 =>
      rw [he] at h
      cases h
      exact Edits2_error_kind _ _ _ _ _ _ he
    | ok cands =>
      rw [he] at h
      simp only at h
      split at h <;> cases h

theorem CountBroken_error_kind (x : THeaders) (fuel : Nat) (c : TSpellCorrector)
    (sentence : TWords) (acc : Nat × Nat) (j : Nat) (e : TAbort)
    (h : CountBroken x fuel c sentence acc j = .error e) : e = .OutOfFuel := by
  unfold CountBroken at h
  rcases except_bind_error _ _ _ h with h1 | ⟨r, _, h2⟩
  · exact GetCandidatesRaw_error_kind _ _ _ _ _ _ h1
  · cases h2

theorem GetBrokenPercent_error_kind (x : THeaders) (fuel : Nat) (c : TSpellCorrector)
    (sentences : TSentences) (hne : sentences ≠ []) (penalty : ℚ) (e : TAbort)
    (h : GetBrokenPercent x fuel c sentences penalty = .error e) : e = .OutOfFuel := by
  unfold GetBrokenPercent at h
  rw [if_neg hne] at h
  simp only at h
  rcases except_bind_error _ _ _ h with h1 | ⟨r, _, h2⟩
  · exact foldlM_error_kind (fun e => e = .OutOfFuel) _
      (fun acc sentence e he => foldlM_error_kind (fun e => e = .OutOfFuel) _
        (fun acc j e hj => CountBroken_error_kind x fuel _ sentence acc j e hj) _ acc e he)
      _ _ e h1
  · cases h2

theorem GetBrokenPercent_assert_iff (x : THeaders) (fuel : Nat) (c : TSpellCorrector)
    (sentences : TSentences) (penalty : ℚ) :
    GetBrokenPercent x fuel c sentences penalty = .error .Assert ↔ sentences = [] := by
  constructor
  · intro h
    by_contra hne
    have := GetBrokenPercent_error_kind x fuel c sentences hne penalty _ h
    cases this
  · intro h
    unfold GetBrokenPercent
    rw [if_pos h]

theorem FindPenaltyLoop_error_kind (x : THeaders) (fuel : Nat) (sentences : TSentences)
    (hne : sentences ≠ []) :
    ∀ (n : Nat) (st : TPenaltySearch) (e : TAbort),
      FindPenaltyLoop x fuel sentences n st = .error e → e = .OutOfFuel := by
  intro n
  induction n with
  | zero =>
    intro st e h
    unfold FindPenaltyLoop at h
    split at h
    · cases h; rfl
    · cases h
  | succ n ih =>
    intro st e h
    unfold FindPenaltyLoop at h
    split at h
    · simp only at h
      rcases except_bind_error _ _ _ h with h1 | ⟨r, _, h2⟩
      · exact GetBrokenPercent_error_kind x fuel _ sentences hne _ e h1
      · split at h2
        · exact ih _ e h2
        · exact ih _ e h2
    · cases h

theorem FindPenalty_assert_iff (x : THeaders) (fuel steps : Nat) (c : TSpellCorrector)
    (sentences : TSentences) :
    FindPenalty x fuel (steps + 1) c sentences = .error .Assert ↔ sentences = [] := by
  constructor
  · intro h
    by_contra hne
    unfold FindPenalty at h
    rcases except_bind_error _ _ _ h with h1 | ⟨r, _, h2⟩
    · have := FindPenaltyLoop_error_kind x fuel sentences hne _ _ _ h1
      cases this
    · cases h2
  · intro h
    subst h
    unfold FindPenalty FindPenaltyLoop
    have hge : (500 : ℚ) - 0 ≥ 1 / 5 := by norm_num
    simp only [hge, if_true]
    have hg : ∀ p, GetBrokenPercent x fuel c [] p = .error .Assert :=
      fun p => (GetBrokenPercent_assert_iff x fuel c [] p).2 rfl
    rw [hg, except_error_bind, except_error_bind]


theorem CountBroken_ok (x : THeaders) (fuel : Nat) (c : TSpellCorrector) (sentence : TWords)
    (acc acc1 : Nat × Nat) (j : Nat) (h : CountBroken x fuel c sentence acc j = .ok acc1) :
    acc1 = (acc.1 + 1, acc.2 + if TopCandidateDiffers x fuel c sentence j then 1 else 0) := by
  unfold CountBroken at h
  unfold TopCandidateDiffers
  cases hg : GetCandidatesRaw x fuel c sentence j with
  | error e => rw [hg] at h; cases h
  | ok cands =>
    rw [hg, except_ok_bind] at h
    cases cands with
    | nil => simp at h; simp [← h]
    | cons top rest =>
      simp only [ne_eq, reduceCtorEq, not_false_eq_true, List.getD_cons_zero, true_and,
        Except.ok.injEq] at h
      subst h
      by_cases ht : sentence[j]?.getD [] = top
      · simp [ht]
      · simp [ht]

theorem CountBroken_fold (x : THeaders) (fuel : Nat) (c : TSpellCorrector) (sentence : TWords) :
    ∀ (l : List Nat) (acc acc1 : Nat × Nat),
      l.foldlM (CountBroken x fuel c sentence) acc = .ok acc1 →
      acc1 = (acc.1 + l.length,
        acc.2 + (l.filter (TopCandidateDiffers x fuel c sentence)).length) := by
  intro l
  induction l with
  | nil => intro acc acc1 h; cases h; rfl
  | cons j l ih =>
    intro acc acc1 h
    rw [List.foldlM_cons] at h
    cases hc : CountBroken x fuel c sentence acc j with
    | error e => rw [hc] at h; cases h
    | ok acc2 =>
      rw [hc] at h
      have h2 := CountBroken_ok x fuel c sentence acc acc2 j hc
      have h3 := ih acc2 acc1 h
      rw [h3, h2]
      by_cases ht : TopCandidateDiffers x fuel c sentence j = true
      · simp [ht, List.filter_cons]; omega
      · simp [ht, List.filter_cons]; omega

theorem GetBrokenPercent_fold (x : THeaders) (fuel : Nat) (c : TSpellCorrector) :
    ∀ (sentences : TSentences) (acc acc1 : Nat × Nat),
      sentences.foldlM (fun acc sentence =>
        (List.range sentence.length).foldlM (CountBroken x fuel c sentence) acc) acc = .ok acc1 →
      acc1 = (acc.1 + TotalTokens sentences, acc.2 + BrokenTokens x fuel c sentences) := by
  intro sentences
  induction sentences with
  | nil => intro acc acc1 h; cases h; rfl
  | cons s l ih =>
    intro acc acc1 h
    rw [List.foldlM_cons] at h
    cases hc : (List.range s.length).foldlM (CountBroken x fuel c s) acc with
    | error e => rw [hc] at h; cases h
    | ok acc2 =>
      rw [hc] at h
      have h2 := CountBroken_fold x fuel c s _ acc acc2 hc
      have h3 := ih acc2 acc1 h
      rw [h3, h2]
      simp only [TotalTokens, BrokenTokens, List.map_cons, List.sum_cons, List.length_range]
      ext <;> simp only <;> omega

theorem BrokenTokens_le (x : THeaders) (fuel : Nat) (c : TSpellCorrector) :
    ∀ sentences : TSentences, BrokenTokens x fuel c sentences ≤ TotalTokens sentences := by
  intro sentences
  induction sentences with
  | nil => simp [BrokenTokens, TotalTokens]
  | cons s l ih =>
    simp only [TotalTokens, BrokenTokens, List.map_cons, List.sum_cons] at ih ⊢
    have := List.length_filter_le (TopCandidateDiffers x fuel c s) (List.range s.length)
    rw [List.length_range] at this
    omega

theorem TotalTokens_pos (sentences : TSentences) (h : ∃ s ∈ sentences, s ≠ []) :
    0 < TotalTokens sentences := by
  obtain ⟨s, hs, hne⟩ := h
  induction sentences with
  | nil => cases hs
  | cons t l ih =>
    simp only [TotalTokens, List.map_cons, List.sum_cons] at ih ⊢
    rcases List.mem_cons.1 hs with rfl | hl
    · have : 0 < s.length := List.length_pos.2 hne
      omega
    · have := ih hl
      omega

theorem GetBrokenPercent_value (x : THeaders) (fuel : Nat) (c : TSpellCorrector)
    (sentences : TSentences) (penalty : ℚ) (r : TSpellCorrector × Option ℚ)
    (h : GetBrokenPercent x fuel c sentences penalty = .ok r) :
    r = ({ c with Penalty := penalty },
      if TotalTokens sentences = 0 then none
      else some ((BrokenTokens x fuel { c with Penalty := penalty } sentences : ℚ) /
        (TotalTokens sentences : ℚ))) := by
  unfold GetBrokenPercent at h
  split at h
  · cases h
  · simp only at h
    rcases hf : sentences.foldlM (fun acc sentence =>
        (List.range sentence.length).foldlM
          (CountBroken x fuel { c with Penalty := penalty } sentence) acc) (0, 0) with e | acc
    · rw [hf] at h; cases h
    · rw [hf, except_ok_bind] at h
      have h2 := GetBrokenPercent_fold x fuel { c with Penalty := penalty } sentences (0, 0) acc hf
      simp only [Nat.zero_add] at h2
      cases h
      rw [h2]

theorem TrainLangModel_short (x : THeaders) (h : TTrainHelpers) (fuel steps : Nat)
    (c : TSpellCorrector) (textFile alphabetFile : TKey)
    (hload : (h.LoadAlphabet c.LangModel alphabetFile).2 = true)
    (hshort : ((h.LoadAlphabet c.LangModel alphabetFile).1.Tokenize
        (x.ToLower (h.UTF8ToWide (h.LoadFile textFile)))).length < 5) :
    TrainLangModel x h fuel (steps + 1) c textFile alphabetFile = .error .Assert := by
  unfold TrainLangModel
  simp only [hload, Bool.not_true, Bool.false_eq_true, if_false]
  rw [HeldOutSplit_small _ (by simpa using hshort)]
  rw [(FindPenalty_assert_iff x fuel steps _ []).2 rfl, except_error_bind]

/-- C12: `GetBrokenPercent`, and with it `FindPenalty`, ends in the failed assertion exactly
when the list of held-out sentences is empty; `TrainLangModel`, once the alphabet is loaded,
ends in that assertion on a corpus that tokenizes to fewer than 5 sentences; and for a
held-out list with at least one token the value of `GetBrokenPercent` is the number of tokens
whose top candidate is not the input token, divided by the positive number of all tokens, a
fraction between 0 and 1, which is returned for every positive fuel when `lastLevel = true`
is the default of `Edits2`. -/
theorem tuner_precondition (x : THeaders) (h : TTrainHelpers) (fuel steps : Nat)
    (c : TSpellCorrector) (sentences : TSentences) (penalty : ℚ) (textFile alphabetFile : TKey) :
    (GetBrokenPercent x fuel c sentences penalty = .error .Assert ↔ sentences = []) ∧
    (FindPenalty x fuel (steps + 1) c sentences = .error .Assert ↔ sentences = []) ∧
    ((h.LoadAlphabet c.LangModel alphabetFile).2 = true →
      ((h.LoadAlphabet c.LangModel alphabetFile).1.Tokenize
        (x.ToLower (h.UTF8ToWide (h.LoadFile textFile)))).length < 5 →
      TrainLangModel x h fuel (steps + 1) c textFile alphabetFile = .error .Assert) ∧
    ((∃ s ∈ sentences, s ≠ []) →
      0 < TotalTokens sentences ∧
      (∀ r, GetBrokenPercent x fuel c sentences penalty = .ok r →
        r.2 = some ((BrokenTokens x fuel { c with Penalty := penalty } sentences : ℚ) /
          (TotalTokens sentences : ℚ)) ∧
        BrokenTokens x fuel { c with Penalty := penalty } sentences ≤ TotalTokens sentences ∧
        (0 : ℚ) ≤ (BrokenTokens x fuel { c with Penalty := penalty } sentences : ℚ) /
          (TotalTokens sentences : ℚ) ∧
        (BrokenTokens x fuel { c with Penalty := penalty } sentences : ℚ) /
          (TotalTokens sentences : ℚ) ≤ 1) ∧
      (x.Edits2LastLevel = true →
        GetBrokenPercent x (fuel + 1) c sentences penalty =
          .ok ({ c with Penalty := penalty },
            some ((BrokenTokens x (fuel + 1) { c with Penalty := penalty } sentences : ℚ) /
              (TotalTokens sentences : ℚ))))) := by
  refine ⟨GetBrokenPercent_assert_iff x fuel c sentences penalty,
    FindPenalty_assert_iff x fuel steps c sentences,
    TrainLangModel_short x h fuel steps c textFile alphabetFile, ?_⟩
  intro htok
  have hpos := TotalTokens_pos sentences htok
  have hne0 : TotalTokens sentences ≠ 0 := by omega
  have hq : (0 : ℚ) < (TotalTokens sentences : ℚ) := by exact_mod_cast hpos
  refine ⟨hpos, ?_, ?_⟩
  · intro r hr
    have hv := GetBrokenPercent_value x fuel c sentences penalty r hr
    have hle := BrokenTokens_le x fuel { c with Penalty := penalty } sentences
    refine ⟨?_, hle, ?_, ?_⟩
    · rw [hv]; simp only [hne0, if_false]
    · exact div_nonneg (by exact_mod_cast Nat.zero_le _) hq.le
    · rw [div_le_one hq]; exact_mod_cast hle
  · intro hd
    have hne : sentences ≠ [] := by
      rintro rfl
      obtain ⟨s, hs, _⟩ := htok
      cases hs
    obtain ⟨v, hv⟩ := GetBrokenPercent_returns x hd fuel c sentences hne penalty
    have hval := GetBrokenPercent_value x (fuel + 1) c sentences penalty _ hv
    rw [hv, hval]
    simp only [hne0, if_false]

theorem tuner_precondition_witness :
    TrainLangModel SampleHeaders SampleTrainHelpers 1 (11 + 1) SampleCorrector
      [97, 46, 32, 98, 46] [] = .error .Assert ∧
    (0 < TotalTokens [[[98], [97]]] ∧
      (∀ r, GetBrokenPercent SampleHeaders 1 SampleCorrector [[[98], [97]]] 1 = .ok r →
        r.2 = some ((BrokenTokens SampleHeaders 1 { SampleCorrector with Penalty := 1 }
            [[[98], [97]]] : ℚ) / (TotalTokens [[[98], [97]]] : ℚ)) ∧
        BrokenTokens SampleHeaders 1 { SampleCorrector with Penalty := 1 } [[[98], [97]]] ≤
          TotalTokens [[[98], [97]]] ∧
        (0 : ℚ) ≤ (BrokenTokens SampleHeaders 1 { SampleCorrector with Penalty := 1 }
            [[[98], [97]]] : ℚ) / (TotalTokens [[[98], [97]]] : ℚ) ∧
        (BrokenTokens SampleHeaders 1 { SampleCorrector with Penalty := 1 }
            [[[98], [97]]] : ℚ) / (TotalTokens [[[98], [97]]] : ℚ) ≤ 1) ∧
      (SampleHeaders.Edits2LastLevel = true →
        GetBrokenPercent SampleHeaders (1 + 1) SampleCorrector [[[98], [97]]] 1 =
          .ok ({ SampleCorrector with Penalty := 1 },
            some ((BrokenTokens SampleHeaders (1 + 1) { SampleCorrector with Penalty := 1 }
              [[[98], [97]]] : ℚ) / (TotalTokens [[[98], [97]]] : ℚ))))) :=
  ⟨(tuner_precondition SampleHeaders SampleTrainHelpers 1 11 SampleCorrector [[[98], [97]]] 1
      [97, 46, 32, 98, 46] []).2.2.1 rfl (by decide),
    (tuner_precondition SampleHeaders SampleTrainHelpers 1 11 SampleCorrector [[[98], [97]]] 1
      [97, 46, 32, 98, 46] []).2.2.2 ⟨[[98], [97]], by simp, by decide⟩⟩

/-! ### Recall of the deletes index -/

theorem eraseIdx_set_self (w : WString) (ch : WChar) :
    ∀ i, (w.set i ch).eraseIdx i = w.eraseIdx i := by
  induction w with
  | nil => intro i; simp
  | cons a t ih =>
    intro i
    cases i with
    | zero => simp
    | succ i => simp [ih i]

theorem SwapAt_cons_succ (a : WChar) (t : WString) (i : Nat) :
    SwapAt (a :: t) (i + 1) = a :: SwapAt t i := by
  simp [SwapAt]

theorem eraseIdx_SwapAt (w : WString) :
    ∀ i, i + 1 < w.length → (SwapAt w i).eraseIdx (i + 1) = w.eraseIdx i := by
  induction w with
  | nil => intro i h; simp at h
  | cons a t ih =>
    intro i h
    cases i with
    | zero =>
      cases t with
      | nil => simp at h
      | cons b t2 => simp [SwapAt]
    | succ i =>
      rw [SwapAt_cons_succ, List.eraseIdx_cons_succ, List.eraseIdx_cons_succ,
        ih i (by simpa using h)]

theorem eraseIdx_comm (u : WString) :
    ∀ i j, i ≤ j → (u.eraseIdx i).eraseIdx j = (u.eraseIdx (j + 1)).eraseIdx i := by
  induction u with
  | nil => intro i j _; simp
  | cons a t ih =>
    intro i j hij
    cases i with
    | zero => simp
    | succ i =>
      cases j with
      | zero => omega
      | succ j =>
        simp only [List.eraseIdx_cons_succ]
        rw [ih i j (by omega)]

theorem DeleteAtMost1_iff (w s : WString) : DeleteAtMost1 w s ↔ ∃ i, s = w.eraseIdx i := by
  constructor
  · rintro (rfl | ⟨i, _, rfl⟩)
    · exact ⟨s.length, (List.eraseIdx_of_length_le le_rfl).symm⟩
    · exact ⟨i, rfl⟩
  · rintro ⟨i, rfl⟩
    by_cases hi : i < w.length
    · exact Or.inr ⟨i, hi, rfl⟩
    · exact Or.inl (List.eraseIdx_of_length_le (by omega))

theorem DeleteAtMost2_iff (w s : WString) :
    DeleteAtMost2 w s ↔ ∃ i j, s = (w.eraseIdx i).eraseIdx j := by
  constructor
  · rintro (h | ⟨i, j, _, _, rfl⟩)
    · obtain ⟨i, rfl⟩ := (DeleteAtMost1_iff w s).1 h
      exact ⟨i, (w.eraseIdx i).length, (List.eraseIdx_of_length_le le_rfl).symm⟩
    · exact ⟨i, j, rfl⟩
  · rintro ⟨i, j, rfl⟩
    by_cases hj : j < (w.eraseIdx i).length
    · by_cases hi : i < w.length
      · exact Or.inr ⟨i, j, hi, hj, rfl⟩
      · rw [List.eraseIdx_of_length_le (Nat.not_lt.1 hi)]
        exact Or.inl ((DeleteAtMost1_iff _ _).2 ⟨j, rfl⟩)
    · rw [List.eraseIdx_of_length_le (Nat.not_lt.1 hj)]
      exact Or.inl ((DeleteAtMost1_iff _ _).2 ⟨i, rfl⟩)

theorem OneEdit_common_delete (P : WChar → Prop) (w u : WString) (h : OneEdit P w u) :
    ∃ s, (∃ i, s = w.eraseIdx i) ∧ (∃ j, s = u.eraseIdx j) := by
  rcases h with ⟨i, _, rfl⟩ | ⟨i, hi, rfl⟩ | ⟨i, ch, _, _, rfl⟩ | ⟨i, ch, _, _, rfl⟩
  · exact ⟨w.eraseIdx i, ⟨i, rfl⟩, ⟨(w.eraseIdx i).length,
      (List.eraseIdx_of_length_le le_rfl).symm⟩⟩
  · exact ⟨w.eraseIdx i, ⟨i, rfl⟩, ⟨i + 1, (eraseIdx_SwapAt w i hi).symm⟩⟩
  · exact ⟨w.eraseIdx i, ⟨i, rfl⟩, ⟨i, (eraseIdx_set_self w ch i).symm⟩⟩
  · exact ⟨w, ⟨w.length, (List.eraseIdx_of_length_le le_rfl).symm⟩,
      ⟨i, (List.eraseIdx_insertIdx i w).symm⟩⟩

theorem eraseIdx_common_delete (u : WString) (i j : Nat) :
    ∃ t, (∃ p, t = (u.eraseIdx i).eraseIdx p) ∧ (∃ q, t = (u.eraseIdx j).eraseIdx q) := by
  rcases Nat.lt_trichotomy i j with h | h | h
  · obtain ⟨k, rfl⟩ : ∃ k, j = k + 1 := ⟨j - 1, by omega⟩
    exact ⟨(u.eraseIdx i).eraseIdx k, ⟨k, rfl⟩, ⟨i, eraseIdx_comm u i k (by omega)⟩⟩
  · subst h
    exact ⟨(u.eraseIdx i).eraseIdx 0, ⟨0, rfl⟩, ⟨0, rfl⟩⟩
  · obtain ⟨k, rfl⟩ : ∃ k, i = k + 1 := ⟨i - 1, by omega⟩
    exact ⟨(u.eraseIdx j).eraseIdx k, ⟨j, (eraseIdx_comm u j k (by omega))⟩, ⟨k, rfl⟩⟩

theorem WithinTwoEdits_common_delete (P : WChar → Prop) (w v : WString)
    (h : WithinTwoEdits P w v) :
    ∃ t, (∃ a p, t = (w.eraseIdx a).eraseIdx p) ∧ (∃ b q, t = (v.eraseIdx b).eraseIdx q) := by
  have hself : ∀ s : WString, s = (s.eraseIdx s.length).eraseIdx s.length := by
    intro s
    rw [List.eraseIdx_of_length_le le_rfl, List.eraseIdx_of_length_le le_rfl]
  have hone : ∀ s : WString, ∀ i, s.eraseIdx i =
      (s.eraseIdx i).eraseIdx (s.eraseIdx i).length := by
    intro s i
    rw [List.eraseIdx_of_length_le le_rfl]
  rcases h with rfl | h | ⟨u, h1, h2⟩
  · exact ⟨v, ⟨_, _, hself v⟩, ⟨_, _, hself v⟩⟩
  · obtain ⟨s, ⟨i, rfl⟩, ⟨j, hj⟩⟩ := OneEdit_common_delete P w v h
    refine ⟨w.eraseIdx i, ⟨i, _, hone w i⟩, ⟨j, (v.eraseIdx j).length, ?_⟩⟩
    rw [hj]
    exact hone v j
  · obtain ⟨s1, ⟨a, ha⟩, ⟨i, hi⟩⟩ := OneEdit_common_delete P w u h1
    obtain ⟨s2, ⟨j, hj⟩, ⟨b, hb⟩⟩ := OneEdit_common_delete P u v h2
    obtain ⟨t, ⟨p, hp⟩, ⟨q, hq⟩⟩ := eraseIdx_common_delete u i j
    refine ⟨t, ⟨a, p, ?_⟩, ⟨b, q, ?_⟩⟩
    · rw [hp, ← hi, ha]
    · rw [hq, ← hj, hb]

theorem length_eraseIdx_eraseIdx (w : WString) (a p : Nat) :
    w.length ≤ ((w.eraseIdx a).eraseIdx p).length + 2 := by
  simp only [List.length_eraseIdx]
  split_ifs <;> omega

theorem mem_foldl_of_step {α β : Type} (f : List β → α → List β)
    (hmono : ∀ b a v, v ∈ b → v ∈ f b a) :
    ∀ (l : List α) (b : List β) (v : β),
      (v ∈ b ∨ ∃ a ∈ l, ∀ b, v ∈ f b a) → v ∈ l.foldl f b := by
  intro l
  induction l with
  | nil =>
    intro b v h
    rcases h with h | ⟨a, ha, _⟩
    · exact h
    · cases ha
  | cons a l ih =>
    intro b v h
    rw [List.foldl_cons]
    apply ih
    rcases h with h | ⟨a1, ha1, hv⟩
    · exact Or.inl (hmono b a v h)
    · rcases List.mem_cons.1 ha1 with rfl | hl
      · exact Or.inl (hv b)
      · exact Or.inr ⟨a1, hl, hv⟩

theorem mem_Edits_of (x : THeaders) (c : TSpellCorrector) (word s v : WString)
    (hs : s ∈ GetDeletes1 word ++ [word] ++ GetDeletes2 word)
    (hv : (v = c.LangModel.GetWord s ∧ v ≠ []) ∨
      v ∈ (TDeletesFind c.Deletes1 (x.WideToUTF8 s)).map c.LangModel.GetWordById ∨
      v ∈ (TDeletesFind c.Deletes2 (x.WideToUTF8 s)).map c.LangModel.GetWordById) :
    v ∈ Edits x c word false := by
  unfold Edits
  simp only [Bool.not_false, if_true]
  apply mem_foldl_of_step
  · intro b a v hb
    simp only [List.mem_append]
    left; left
    split
    · exact List.mem_append_left _ hb
    · exact hb
  · right
    refine ⟨s, hs, ?_⟩
    intro b
    simp only [List.mem_append]
    rcases hv with ⟨h1, h2⟩ | h | h
    · left; left
      rw [if_pos (by rw [← h1]; exact h2)]
      exact List.mem_append_right _ (by rw [h1]; exact List.mem_singleton_self _)
    · left; right; exact h
    · right; exact h

theorem mem_Edits_cands (w s : WString) (hne : s ≠ []) (h : DeleteAtMost2 w s) :
    s ∈ GetDeletes1 w ++ [w] ++ GetDeletes2 w := by
  simp only [List.mem_append, List.mem_singleton]
  rcases h with (rfl | ⟨i, hi, rfl⟩) | ⟨i, j, hi, hj, rfl⟩
  · left; right; rfl
  · left; left; exact (mem_GetDeletes1 _ _).2 ⟨hne, i, hi, rfl⟩
  · right; exact (mem_GetDeletes2 _ _).2 ⟨hne, i, j, hi, hj, rfl⟩

theorem Edits_of_common_delete (x : THeaders) (c : TSpellCorrector) (w v s : WString)
    (hv : v ∈ c.LangModel.Vocab)
    (hid : c.LangModel.GetWordById (c.LangModel.GetWordIdNoCreate v) = v)
    (hne : s ≠ []) (hw : DeleteAtMost2 w s) (hvs : DeleteAtMost2 v s) :
    v ∈ Edits x (PrepareCache x c) w false := by
  obtain ⟨hlm, _, hd1, hd2⟩ := PrepareCache_spec x c
  obtain ⟨it, hit, hfst⟩ := List.mem_map.1 hv
  apply mem_Edits_of x (PrepareCache x c) w s v (mem_Edits_cands w s hne hw)
  rw [hlm]
  rcases hvs with (rfl | ⟨i, hi, rfl⟩) | ⟨i, j, hi, hj, rfl⟩
  · left
    rw [GetWord_of_mem _ _ hv]
    exact ⟨rfl, hne⟩
  · right; left
    refine List.mem_map.2 ⟨c.LangModel.GetWordIdNoCreate v, ?_, hid⟩
    refine (hd1 _ _).2 ⟨it, hit, by rw [hfst], v.eraseIdx i, ?_, rfl⟩
    rw [hfst]
    exact (mem_GetDeletes1 _ _).2 ⟨hne, i, hi, rfl⟩
  · right; right
    refine List.mem_map.2 ⟨c.LangModel.GetWordIdNoCreate v, ?_, hid⟩
    refine (hd2 _ _).2 ⟨it, hit, by rw [hfst], (v.eraseIdx i).eraseIdx j, ?_, rfl⟩
    rw [hfst]
    exact (mem_GetDeletes2 _ _).2 ⟨hne, i, j, hi, hj, rfl⟩

/-- C15 (amended): after `PrepareCache`, for a vocabulary word `v` whose id is mapped back to
`v` by `GetWordById`, `Edits(w, lastLevel = false)` returns `v` whenever some non-empty string
is obtained both from `w` and from `v` by deleting at most two characters (the empty string
is never a key of `Deletes1` or `Deletes2` and never a lookup); this is the case in
particular when `v` is obtained from `w` by at most two edit operations and `w` or `v` has
at least three characters. -/
theorem Edits_recall (x : THeaders) (c : TSpellCorrector) (w v : WString)
    (hv : v ∈ c.LangModel.Vocab)
    (hid : c.LangModel.GetWordById (c.LangModel.GetWordIdNoCreate v) = v) :
    (∀ s, s ≠ [] → DeleteAtMost2 w s → DeleteAtMost2 v s →
      v ∈ Edits x (PrepareCache x c) w false) ∧
    (WithinTwoEdits (fun _ => True) w v → 3 ≤ w.length ∨ 3 ≤ v.length →
      (∃ s, s ≠ [] ∧ DeleteAtMost2 w s ∧ DeleteAtMost2 v s) ∧
      v ∈ Edits x (PrepareCache x c) w false) := by
  have hA : ∀ s, s ≠ [] → DeleteAtMost2 w s → DeleteAtMost2 v s →
      v ∈ Edits x (PrepareCache x c) w false :=
    fun s hne hw hvs => Edits_of_common_delete x c w v s hv hid hne hw hvs
  refine ⟨hA, ?_⟩
  intro h hlen
  obtain ⟨t, ⟨a, p, ha⟩, ⟨b, q, hb⟩⟩ := WithinTwoEdits_common_delete _ w v h
  have hne : t ≠ [] := by
    intro h0
    have h1 := length_eraseIdx_eraseIdx w a p
    have h2 := length_eraseIdx_eraseIdx v b q
    rw [← ha, h0] at h1
    rw [← hb, h0] at h2
    simp only [List.length_nil] at h1 h2
    omega
  have hw := (DeleteAtMost2_iff w t).2 ⟨a, p, ha⟩
  have hvs := (DeleteAtMost2_iff v t).2 ⟨b, q, hb⟩
  exact ⟨⟨t, hne, hw, hvs⟩, hA t hne hw hvs⟩

theorem Edits_recall_witness :
    ((∃ s, s ≠ [] ∧ DeleteAtMost2 [98, 99, 97] s ∧ DeleteAtMost2 [97, 98, 99] s) ∧
      [97, 98, 99] ∈ Edits SampleHeaders (PrepareCache SampleHeaders SampleFresh)
        [98, 99, 97] false) ∧
    [97, 98, 99] ∈ Edits SampleHeaders (PrepareCache SampleHeaders SampleFresh)
      [98, 99, 97] false :=
  ⟨(Edits_recall SampleHeaders SampleFresh [98, 99, 97] [97, 98, 99] (by decide) rfl).2
      (Or.inr (Or.inr ⟨[97, 98, 99, 97],
        Or.inr (Or.inr (Or.inr ⟨0, 97, by decide, trivial, rfl⟩)),
        Or.inl ⟨3, by decide, rfl⟩⟩))
      (Or.inl (by decide)),
    (Edits_recall SampleHeaders SampleFresh [98, 99, 97] [97, 98, 99] (by decide) rfl).1
      [98, 99] (by decide) (Or.inl (Or.inr ⟨2, by decide, rfl⟩))
      (Or.inl (Or.inr ⟨0, by decide, rfl⟩))⟩

/-- C15 (as stated) fails for short words: "a" is a vocabulary word whose id is mapped back
to it and is obtained from the query "b" by one replace, but `Edits("b", false)` after
`PrepareCache` returns "ab", "ba", "abc", "abc" and not "a"; the only string obtained from
both by deletions is the empty one. -/
theorem Edits_misses_short_word :
    ([97] : WString) ∈ SampleFresh.LangModel.Vocab ∧
    SampleFresh.LangModel.GetWordById (SampleFresh.LangModel.GetWordIdNoCreate [97]) = [97] ∧
    OneEdit (fun _ => True) [98] [97] ∧
    WithinTwoEdits (fun _ => True) [98] [97] ∧
    Edits SampleHeaders (PrepareCache SampleHeaders SampleFresh) [98] false =
      [[97, 98], [98, 97], [97, 98, 99], [97, 98, 99]] ∧
    ([97] : WString) ∉ Edits SampleHeaders (PrepareCache SampleHeaders SampleFresh) [98] false :=
  ⟨by decide, rfl, Or.inr (Or.inr (Or.inl ⟨0, 97, by decide, trivial, rfl⟩)),
    Or.inr (Or.inl (Or.inr (Or.inr (Or.inl ⟨0, 97, by decide, trivial, rfl⟩)))),
    by decide, by decide⟩

/-! ### The tuner on a corpus with tokens -/

/-- For a held-out corpus with at least one token `FindPenalty` ends after exactly 12
evaluations of `GetBrokenPercent` and returns the final upper bound `b`, with `0 < b ≤ 500`
and `b - a < 0.2` for the final lower bound `a`; `b = 500`, or `b` was evaluated and the
broken-percent at `b`, the broken tokens divided by all tokens, is at most `0.007`; `a = 0`,
or `a` was evaluated and the broken-percent at `a` is greater than `0.007`. -/
theorem FindPenalty_result (x : THeaders) (hd : x.Edits2LastLevel = true) (fuel : Nat)
    (c : TSpellCorrector) (sentences : TSentences) (htok : ∃ s ∈ sentences, s ≠ []) :
    ∃ st : TPenaltySearch,
      FindPenaltyLoop x (fuel + 1) sentences 12
        { Corrector := c, A := 0, B := 500, Evaluated := [] } = .ok st ∧
      FindPenalty x (fuel + 1) 12 c sentences = .ok (st.Corrector, st.B) ∧
      st.Evaluated.length = 12 ∧ 0 < st.B ∧ st.B ≤ 500 ∧ st.B - st.A < 1 / 5 ∧
      (st.B = 500 ∨ st.B ∈ st.Evaluated ∧
        GetBrokenPercent x (fuel + 1) c sentences st.B =
          .ok ({ c with Penalty := st.B },
            some ((BrokenTokens x (fuel + 1) { c with Penalty := st.B } sentences : ℚ) /
              (TotalTokens sentences : ℚ))) ∧
        (BrokenTokens x (fuel + 1) { c with Penalty := st.B } sentences : ℚ) /
          (TotalTokens sentences : ℚ) ≤ 7 / 1000) ∧
      (st.A = 0 ∨ st.A ∈ st.Evaluated ∧
        GetBrokenPercent x (fuel + 1) c sentences st.A =
          .ok ({ c with Penalty := st.A },
            some ((BrokenTokens x (fuel + 1) { c with Penalty := st.A } sentences : ℚ) /
              (TotalTokens sentences : ℚ))) ∧
        7 / 1000 < (BrokenTokens x (fuel + 1) { c with Penalty := st.A } sentences : ℚ) /
          (TotalTokens sentences : ℚ)) := by
  have hne : sentences ≠ [] := by
    rintro rfl
    obtain ⟨s, hs, _⟩ := htok
    cases hs
  have hne0 : TotalTokens sentences ≠ 0 := Nat.pos_iff_ne_zero.1 (TotalTokens_pos sentences htok)
  have hval : ∀ p r, GetBrokenPercent x (fuel + 1) c sentences p = .ok r →
      r = ({ c with Penalty := p },
        some ((BrokenTokens x (fuel + 1) { c with Penalty := p } sentences : ℚ) /
          (TotalTokens sentences : ℚ))) := by
    intro p r hr
    have h := GetBrokenPercent_value x (fuel + 1) c sentences p r hr
    rw [if_neg hne0] at h
    exact h
  obtain ⟨st, hst, hw, hA, hB, hPB, hPA, hE⟩ := FindPenaltyLoop_spec x hd fuel c sentences hne
    12 0 { Corrector := c, A := 0, B := 500, Evaluated := [] } rfl (by norm_num) le_rfl le_rfl
    ⟨c.Penalty, rfl⟩ (Or.inl rfl) (Or.inl rfl) rfl
  refine ⟨st, hst, ?_, hE, ?_, hB, ?_, ?_, ?_⟩
  · unfold FindPenalty
    rw [hst, except_ok_bind]
  · have hpos : (0 : ℚ) < 500 / 2 ^ 12 := by norm_num
    linarith
  · rw [hw]; norm_num
  · rcases hPB with h | ⟨hmem, r, hr, hle⟩
    · exact Or.inl h
    · have hr2 := hval _ r hr
      refine Or.inr ⟨hmem, by rw [hr, hr2], ?_⟩
      rw [hr2] at hle
      exact of_decide_eq_true hle
  · rcases hPA with h | ⟨hmem, r, hr, hle⟩
    · exact Or.inl h
    · have hr2 := hval _ r hr
      refine Or.inr ⟨hmem, by rw [hr, hr2], ?_⟩
      rw [hr2] at hle
      exact not_le.1 (of_decide_eq_false hle)

theorem FindPenalty_result_witness :
    ∃ st : TPenaltySearch,
      FindPenaltyLoop SampleHeaders (0 + 1) [[[98], [97]]] 12
        { Corrector := SampleCorrector, A := 0, B := 500, Evaluated := [] } = .ok st ∧
      FindPenalty SampleHeaders (0 + 1) 12 SampleCorrector [[[98], [97]]] =
        .ok (st.Corrector, st.B) ∧
      st.Evaluated.length = 12 ∧ 0 < st.B ∧ st.B ≤ 500 ∧ st.B - st.A < 1 / 5 ∧
      (st.B = 500 ∨ st.B ∈ st.Evaluated ∧
        GetBrokenPercent SampleHeaders (0 + 1) SampleCorrector [[[98], [97]]] st.B =
          .ok ({ SampleCorrector with Penalty := st.B },
            some ((BrokenTokens SampleHeaders (0 + 1) { SampleCorrector with Penalty := st.B }
              [[[98], [97]]] : ℚ) / (TotalTokens [[[98], [97]]] : ℚ))) ∧
        (BrokenTokens SampleHeaders (0 + 1) { SampleCorrector with Penalty := st.B }
          [[[98], [97]]] : ℚ) / (TotalTokens [[[98], [97]]] : ℚ) ≤ 7 / 1000) ∧
      (st.A = 0 ∨ st.A ∈ st.Evaluated ∧
        GetBrokenPercent SampleHeaders (0 + 1) SampleCorrector [[[98], [97]]] st.A =
          .ok ({ SampleCorrector with Penalty := st.A },
            some ((BrokenTokens SampleHeaders (0 + 1) { SampleCorrector with Penalty := st.A }
              [[[98], [97]]] : ℚ) / (TotalTokens [[[98], [97]]] : ℚ))) ∧
        7 / 1000 < (BrokenTokens SampleHeaders (0 + 1) { SampleCorrector with Penalty := st.A }
          [[[98], [97]]] : ℚ) / (TotalTokens [[[98], [97]]] : ℚ)) :=
  FindPenalty_result SampleHeaders rfl 0 SampleCorrector [[[98], [97]]]
    ⟨[[98], [97]], by simp, by decide⟩

end NOpenSpell
